import Mathlib

/-!
Verification of the loanpy correspondence-application core (`loanpy/scapplier.py`,
`src/loanpy/qfysc.py`) against its natural-language specification.

The Python code is shallowly embedded: dictionaries become association lists or
functions with `Option` for missing keys, `dict.get(k, 0)` becomes a total
function to `Nat`, Python's `float("inf")` in `get_diff` becomes an explicit
two-constructor type `Diff`, and the two `while` loops of `read_sc` become
fuel-indexed recursions returning `Option` (where `none` models an uncaught
Python exception: an out-of-range list index or fuel exhaustion).
-/

/-- Python's `prod` (`loanpy.utils.prod`, `math.prod` in `src/loanpy/apply.py`):
product of a list of numbers, 1 on the empty list. -/
def prodList (l : List Nat) : Nat := l.prod

/-- Concatenation `ipa[idx] + " " + sound` used as a key of `self.sc[1]`
in `Adrc.get_diff` (scapplier.py lines 286 and 300). -/
def scKey (tok sound : String) : String := tok ++ " " ++ sound

/-- Value domain of one entry of `Adrc.get_diff`'s result: Python mixes
`int` differences, the sentinel `9999999`, and `float("inf")`. -/
inductive Diff where
  | fin : Int → Diff
  | inf : Diff
deriving DecidableEq, Repr

/-- Comparison on `Diff` mirroring Python's `<=` on numbers with
`float("inf")` as the top element. -/
def Diff.ble : Diff → Diff → Bool
  | .fin a, .fin b => a ≤ b
  | .fin _, .inf => true
  | .inf, .fin _ => false
  | .inf, .inf => true

/-- Binary minimum on `Diff`, returning one of its two arguments. -/
def Diff.min2 (a b : Diff) : Diff := if a.ble b then a else b

/-- Python's `min(difflist)`: minimum of a list of `Diff`s
(`Diff.inf` on the empty list, on which Python's `min` would raise). -/
def listMin (l : List Diff) : Diff := l.foldr Diff.min2 Diff.inf

/-- `[i for i, v in enumerate(difflist) if v == minimum]`
(scapplier.py line 356). -/
def minIndices (l : List Diff) (m : Diff) : List Nat :=
  (List.range l.length).filter (fun i => l.getD i Diff.inf = m)

/-- `Adrc.get_diff` (scapplier.py lines 252-304): the difference in number of
recorded examples between the current and the next sound correspondence, for
each position of the word.  The Python loop pairs `sclistlist[idx]` with
`ipa[idx]`; the recursion below walks both lists in lockstep. -/
def get_diff (sc1 : String → Nat) : List (List String) → List String → List Diff
  | [], _ => []
  | sclist :: rest, ipa =>
    (let firstsc := sc1 (scKey (ipa.headD "") (sclist.getD 0 ""))
     if sclist.length = 2 then Diff.inf
     else if firstsc = 0 then Diff.fin 9999999
     else Diff.fin ((firstsc : Int) -
            (sc1 (scKey (ipa.headD "") (sclist.getD 1 "")) : Int)))
    :: get_diff sc1 rest ipa.tail

/-- `move_sc` (scapplier.py lines 403-434): append `sclistlist[whichsound][1]`
to `out[whichsound]` and pop `sclistlist[whichsound][0]`.  Python raises
`IndexError` when `whichsound` is out of range or the selected list has fewer
than two elements; this is modelled by `none`. -/
def move_sc (sclistlist : List (List String)) (whichsound : Nat)
    (out : List (List String)) :
    Option (List (List String) × List (List String)) :=
  if whichsound < sclistlist.length ∧ whichsound < out.length then
    match sclistlist.getD whichsound [] with
    | _ :: b :: rest =>
      some (sclistlist.set whichsound (b :: rest),
            out.set whichsound (out.getD whichsound [] ++ [b]))
    | _ => none
  else none

/-- The inner round-robin `while` loop of `Adrc.read_sc`
(scapplier.py lines 361-369): cycle through the tied positions `indices`,
moving one sound correspondence at a time, until the difference vector
changes or the requested product is reached.  `k` counts how many times
`next(idxpool)` has been called. -/
def rr_loop (sc1 : String → Nat) (ipa : List String) (howmany : Nat)
    (indices : List Nat) (difflist : List Diff) :
    Nat → Nat → List (List String) → List (List String) →
    Option (List (List String) × List (List String))
  | 0, _, _, _ => none
  | fuel + 1, k, sclistlist, out =>
    if get_diff sc1 sclistlist ipa = difflist ∧
        howmany > prodList (out.map List.length) then
      match move_sc sclistlist (indices.getD (k % indices.length) 0) out with
      | none => none
      | some (s2, o2) => rr_loop sc1 ipa howmany indices difflist fuel (k + 1) s2 o2
    else some (sclistlist, out)

/-- The outer `while` loop of `Adrc.read_sc` (scapplier.py lines 351-369):
while the requested number of combinations is not reached, commit the sound
correspondence that makes the least difference (round-robin on ties). -/
def greedy_loop (sc1 : String → Nat) (ipa : List String) (howmany : Nat) :
    Nat → List (List String) → List (List String) →
    Option (List (List String) × List (List String))
  | 0, _, _ => none
  | fuel + 1, sclistlist, out =>
    if howmany > prodList (out.map List.length) then
      let difflist := get_diff sc1 sclistlist ipa
      let indices := minIndices difflist (listMin difflist)
      if indices.length = 1 then
        match move_sc sclistlist (indices.getD 0 0) out with
        | none => none
        | some (s2, o2) => greedy_loop sc1 ipa howmany fuel s2 o2
      else
        match rr_loop sc1 ipa howmany indices difflist fuel 0 sclistlist out with
        | none => none
        | some (s2, o2) => greedy_loop sc1 ipa howmany fuel s2 o2
    else some (sclistlist, out)

/-- The comprehension `[self.sc[0][i] for i in ipa]` (scapplier.py line 342):
look every token up in `scdict`, `none` modelling the `KeyError` Python
raises at the first missing token. -/
def lookupAll (sc0 : String → Option (List String)) :
    List String → Option (List (List String))
  | [] => some []
  | t :: rest =>
    match sc0 t, lookupAll sc0 rest with
    | some l, some ls => some (l :: ls)
    | _, _ => none

/-- `Adrc.read_sc` (scapplier.py lines 306-371).  `sc0` is `self.sc[0]`
(`none` modelling a `KeyError`), `sc1` is `self.sc[1]` accessed through
`.get(key, 0)`.  The fuel given to the loops is two more than the total
number of list elements, which the safety theorems below prove sufficient. -/
def read_sc (sc0 : String → Option (List String)) (sc1 : String → Nat)
    (ipa : List String) (howmany : Nat) : Option (List (List String)) :=
  match lookupAll sc0 ipa with
  | none => none
  | some sclistlist =>
    if howmany ≥ prodList (sclistlist.map List.length) then some sclistlist
    else
      let sclistlist2 := sclistlist.map (fun sclist => sclist ++ ["$"])
      let out := sclistlist2.map (fun l => [l.headD ""])
      match greedy_loop sc1 ipa howmany
          ((sclistlist2.map List.length).sum + 2) sclistlist2 out with
      | none => none
      | some (_, o2) => some o2

/-! ### List index helpers -/

theorem getD_map_of_lt {α β : Type} (f : α → β) (l : List α) (i : Nat)
    (d : β) (d0 : α) (h : i < l.length) :
    (l.map f).getD i d = f (l.getD i d0) := by
  rw [List.getD_eq_getElem _ d (by simpa), List.getD_eq_getElem _ d0 h,
    List.getElem_map]

theorem getD_set_self {α : Type} (l : List α) (i : Nat) (a d : α)
    (h : i < l.length) : (l.set i a).getD i d = a := by
  rw [List.getD_eq_getElem _ d (by simpa)]
  simp

theorem getD_set_ne {α : Type} (l : List α) (i j : Nat) (a d : α)
    (h : i ≠ j) : (l.set i a).getD j d = l.getD j d := by
  by_cases hj : j < l.length
  · rw [List.getD_eq_getElem _ d (by simpa), List.getD_eq_getElem _ d hj,
      List.getElem_set_ne h]
  · rw [List.getD_eq_default _ d (by simpa using Nat.le_of_not_lt hj),
      List.getD_eq_default _ d (by simpa using Nat.le_of_not_lt hj)]

theorem set_getD_self {α : Type} (l : List α) (i : Nat) (d : α)
    (h : i < l.length) : l.set i (l.getD i d) = l := by
  apply List.ext_getElem (by simp)
  intro j hj hj2
  by_cases hij : i = j
  · subst hij
    simp [List.getD_eq_getElem _ d h, List.getElem?_eq_getElem hj2]
  · rw [List.getElem_set_ne hij]

theorem getD_tail {α : Type} (l : List α) (i : Nat) (d : α) :
    l.tail.getD i d = l.getD (i + 1) d := by
  cases l <;> simp [List.getD]

theorem sum_set_nat (l : List Nat) (i a : Nat) (h : i < l.length) :
    (l.set i a).sum + l.getD i 0 = l.sum + a := by
  induction l generalizing i with
  | nil => simp at h
  | cons x xs ih =>
    cases i with
    | zero =>
      have e1 : (x :: xs).set 0 a = a :: xs := rfl
      have e2 : (x :: xs).getD 0 0 = x := rfl
      rw [e1, e2, List.sum_cons, List.sum_cons]
      omega
    | succ j =>
      have ih2 := ih j (by simpa using h)
      have e1 : (x :: xs).set (j + 1) a = x :: xs.set j a := rfl
      have e2 : (x :: xs).getD (j + 1) 0 = xs.getD j 0 := rfl
      rw [e1, e2, List.sum_cons, List.sum_cons]
      omega

theorem listExtGetD (l1 l2 : List Nat) (hlen : l1.length = l2.length)
    (h : ∀ i, i < l1.length → l1.getD i 0 = l2.getD i 0) : l1 = l2 := by
  apply List.ext_getElem hlen
  intro i h1 h2
  have := h i h1
  rwa [List.getD_eq_getElem _ 0 h1, List.getD_eq_getElem _ 0 h2] at this

theorem pos_of_mem_of_prod_pos {l : List Nat} (hp : 0 < prodList l)
    {x : Nat} (hx : x ∈ l) : 0 < x := by
  rcases Nat.eq_zero_or_pos x with h0 | h1
  · subst h0
    have h2 : List.prod _ = (0 : Nat) := List.prod_eq_zero hx
    unfold prodList at hp
    rw [h2] at hp
    omega
  · exact h1

/-! ### Diff and minimum helpers -/

theorem Diff.ble_refl (a : Diff) : a.ble a := by
  cases a <;> simp [Diff.ble]

theorem Diff.ble_total (a b : Diff) : a.ble b ∨ b.ble a := by
  cases a <;> cases b <;> simp [Diff.ble] <;> omega

theorem Diff.ble_trans {a b c : Diff} (h1 : a.ble b) (h2 : b.ble c) :
    a.ble c := by
  cases a <;> cases b <;> cases c <;> simp [Diff.ble] at * <;> omega

theorem Diff.ble_inf (a : Diff) : a.ble Diff.inf := by
  cases a <;> simp [Diff.ble]

theorem Diff.min2_ble_left (a b : Diff) : (Diff.min2 a b).ble a := by
  unfold Diff.min2
  by_cases hb : a.ble b
  · simp [hb, Diff.ble_refl]
  · rcases Diff.ble_total a b with h | h
    · exact absurd h hb
    · simp [hb, h]

theorem Diff.min2_ble_right (a b : Diff) : (Diff.min2 a b).ble b := by
  unfold Diff.min2
  by_cases hb : a.ble b
  · simp [hb]
  · simp [hb, Diff.ble_refl]

theorem Diff.min2_eq_or (a b : Diff) : Diff.min2 a b = a ∨ Diff.min2 a b = b := by
  unfold Diff.min2
  by_cases hb : a.ble b <;> simp [hb]

theorem listMin_cons (y : Diff) (ys : List Diff) :
    listMin (y :: ys) = Diff.min2 y (listMin ys) := rfl

theorem listMin_ble {l : List Diff} {x : Diff} (hx : x ∈ l) :
    (listMin l).ble x := by
  induction l with
  | nil => simp at hx
  | cons y ys ih =>
    rw [listMin_cons]
    rcases List.mem_cons.mp hx with h | h
    · rw [h]
      exact Diff.min2_ble_left y (listMin ys)
    · exact Diff.ble_trans (Diff.min2_ble_right y (listMin ys)) (ih h)

theorem listMin_mem {l : List Diff} (h : l ≠ []) : listMin l ∈ l := by
  induction l with
  | nil => simp at h
  | cons y ys ih =>
    rw [listMin_cons]
    cases ys with
    | nil =>
      have e : Diff.min2 y (listMin []) = y := by
        simp [listMin, Diff.min2, Diff.ble_inf]
      rw [e]
      exact List.mem_cons_self y []
    | cons z zs =>
      rcases Diff.min2_eq_or y (listMin (z :: zs)) with h2 | h2
      · rw [h2]; exact List.mem_cons_self _ _
      · rw [h2]
        exact List.mem_cons_of_mem _ (ih (by simp))

theorem eq_inf_of_listMin_inf {l : List Diff} (h : listMin l = Diff.inf)
    {x : Diff} (hx : x ∈ l) : x = Diff.inf := by
  have := listMin_ble hx
  rw [h] at this
  cases x with
  | fin a => simp [Diff.ble] at this
  | inf => rfl

theorem mem_minIndices {l : List Diff} {m : Diff} {i : Nat} :
    i ∈ minIndices l m ↔ i < l.length ∧ l.getD i Diff.inf = m := by
  simp [minIndices, List.mem_filter, List.mem_range]

theorem getD_mem_of_lt {α : Type} (l : List α) (i : Nat) (d : α)
    (h : i < l.length) : l.getD i d ∈ l := by
  rw [List.getD_eq_getElem l d h]
  exact l.getElem_mem h

/-! ### Characterizing one entry of `get_diff` -/

/-- The body of `Adrc.get_diff`'s loop for a single position. -/
def diffAt (sc1 : String → Nat) (tok : String) (sclist : List String) : Diff :=
  let firstsc := sc1 (scKey tok (sclist.getD 0 ""))
  if sclist.length = 2 then Diff.inf
  else if firstsc = 0 then Diff.fin 9999999
  else Diff.fin ((firstsc : Int) - (sc1 (scKey tok (sclist.getD 1 "")) : Int))

theorem get_diff_length (sc1 : String → Nat) (s : List (List String))
    (ipa : List String) : (get_diff sc1 s ipa).length = s.length := by
  induction s generalizing ipa with
  | nil => rfl
  | cons x xs ih => simp [get_diff, ih]

theorem get_diff_getD (sc1 : String → Nat) (s : List (List String))
    (ipa : List String) (i : Nat) (h : i < s.length) :
    (get_diff sc1 s ipa).getD i Diff.inf =
      diffAt sc1 (ipa.getD i "") (s.getD i []) := by
  induction s generalizing ipa i with
  | nil => simp at h
  | cons x xs ih =>
    cases i with
    | zero =>
      have hh : ipa.headD "" = ipa.getD 0 "" := by cases ipa <;> rfl
      have e1 : (get_diff sc1 (x :: xs) ipa).getD 0 Diff.inf =
          diffAt sc1 (ipa.headD "") x := rfl
      have e2 : (x :: xs).getD 0 [] = x := rfl
      rw [e1, e2, hh]
    | succ j =>
      have e1 : (get_diff sc1 (x :: xs) ipa).getD (j + 1) Diff.inf =
          (get_diff sc1 xs ipa.tail).getD j Diff.inf := rfl
      have e2 : (x :: xs).getD (j + 1) [] = xs.getD j [] := rfl
      rw [e1, e2, ih ipa.tail j (by simpa using h), getD_tail]

theorem diffAt_inf_iff (sc1 : String → Nat) (tok : String)
    (sclist : List String) :
    diffAt sc1 tok sclist = Diff.inf ↔ sclist.length = 2 := by
  constructor
  · intro h
    by_contra h2
    simp only [diffAt] at h
    rw [if_neg h2] at h
    by_cases h0 : sc1 (scKey tok (sclist.getD 0 "")) = 0
    · rw [if_pos h0] at h
      exact absurd h (by simp)
    · rw [if_neg h0] at h
      exact absurd h (by simp)
  · intro h
    simp only [diffAt]
    rw [if_pos h]

/-! ### The search invariant of `read_sc` -/

/-- Length bookkeeping of the greedy search state (spec section 3, "Search
State"): with `n` the original candidate-list lengths,
`len(remaining[i]) + len(committed[i]) == original_candidate_count[i] + 1`
(the extra `+1` on both sides of our formulation accounts for the `"$"`
sentinel inside `remaining[i]` and the duplicated head). -/
def SearchInv (n : List Nat) (s out : List (List String)) : Prop :=
  s.length = n.length ∧ out.length = n.length ∧
  ∀ i, i < n.length →
    2 ≤ (s.getD i []).length ∧ out.getD i [] ≠ [] ∧
    (out.getD i []).length + (s.getD i []).length = n.getD i 0 + 2

/-- Sentinel bookkeeping: `"$"` sits only at the very end of each remaining
candidate list and never inside the committed output. -/
def DollarInv (s out : List (List String)) : Prop :=
  ∀ i, "$" ∉ (s.getD i []).dropLast ∧ "$" ∉ out.getD i []

/-- Total number of elements in the remaining candidate lists: the
termination measure of both `while` loops of `read_sc`. -/
def totalLen (s : List (List String)) : Nat := (s.map List.length).sum

/-- The minimality part of the spec's `read_sc` monotonicity property: some
position of the committed output can be shrunk by one candidate and the
cross-product size drops below `howmany` (so the reached size is the first
one `>= howmany` along the greedy commit sequence). -/
def ProdWitness (howmany : Nat) (out : List (List String)) : Prop :=
  ∃ i, i < out.length ∧
    prodList ((out.map List.length).set i ((out.getD i []).length - 1)) < howmany

theorem move_sc_step (n : List Nat) (s out : List (List String)) (idx : Nat)
    (hInv : SearchInv n s out) (hidx : idx < n.length)
    (hlen : 3 ≤ (s.getD idx []).length) :
    ∃ s2 o2, move_sc s idx out = some (s2, o2) ∧
      SearchInv n s2 o2 ∧
      totalLen s2 + 1 = totalLen s ∧
      (∀ K, prodList (out.map List.length) < K → ProdWitness K o2) ∧
      (DollarInv s out → DollarInv s2 o2) := by
  obtain ⟨hs, ho, hpos⟩ := hInv
  rcases hL : s.getD idx [] with _ | ⟨a, _ | ⟨b, rest⟩⟩
  · rw [hL] at hlen; simp at hlen
  · rw [hL] at hlen; simp at hlen
  · have hsidx : idx < s.length := by omega
    have hoidx : idx < out.length := by omega
    refine ⟨s.set idx (b :: rest), out.set idx (out.getD idx [] ++ [b]),
      ?_, ?_, ?_, ?_, ?_⟩
    · unfold move_sc
      rw [if_pos ⟨hsidx, hoidx⟩, hL]
    · refine ⟨by simpa using hs, by simpa using ho, ?_⟩
      intro i hi
      by_cases hieq : idx = i
      · subst hieq
        rw [getD_set_self _ _ _ _ hsidx, getD_set_self _ _ _ _ hoidx]
        have hcount := (hpos idx hidx).2.2
        rw [hL] at hcount
        refine ⟨?_, by simp, ?_⟩
        · rw [hL] at hlen
          simp only [List.length_cons] at hlen ⊢
          omega
        · rw [List.length_append]
          simp only [List.length_cons, List.length_nil] at hcount ⊢
          omega
      · rw [getD_set_ne _ _ _ _ _ hieq, getD_set_ne _ _ _ _ _ hieq]
        exact hpos i hi
    · unfold totalLen
      rw [List.map_set]
      have hsum := sum_set_nat (s.map List.length) idx (b :: rest).length
        (by simpa using hsidx)
      rw [getD_map_of_lt List.length s idx 0 [] hsidx, hL] at hsum
      simp only [List.length_cons] at *
      omega
    · intro K hK
      refine ⟨idx, by simpa using hoidx, ?_⟩
      rw [List.map_set, getD_set_self _ _ _ _ hoidx]
      have e1 : (out.getD idx [] ++ [b]).length = (out.getD idx []).length + 1 := by
        simp
      rw [e1]
      have e2 : (out.getD idx []).length + 1 - 1 = (out.getD idx []).length := by
        omega
      rw [e2, List.set_set]
      have e3 : (List.map List.length out).getD idx 0 = (out.getD idx []).length :=
        getD_map_of_lt List.length out idx 0 [] hoidx
      rw [← e3, set_getD_self _ _ _ (by simpa using hoidx)]
      exact hK
    · intro hD
      intro i
      by_cases hieq : idx = i
      · subst hieq
        rw [getD_set_self _ _ _ _ hsidx, getD_set_self _ _ _ _ hoidx]
        have hd1 := (hD idx).1
        have hd2 := (hD idx).2
        rw [hL] at hd1
        constructor
        · intro hmem
          exact hd1 (by
            rcases rest with _ | ⟨c, tl⟩
            · rw [hL] at hlen; simp at hlen
            · simp only [List.dropLast] at hmem ⊢
              exact List.mem_cons_of_mem _ hmem)
        · intro hmem
          rcases List.mem_append.mp hmem with hmem | hmem
          · exact hd2 hmem
          · have hb : b ∈ (a :: b :: rest).dropLast := by
              rcases rest with _ | ⟨c, tl⟩
              · rw [hL] at hlen; simp at hlen
              · simp [List.dropLast]
            rcases List.mem_singleton.mp hmem with rfl
            exact hd1 hb
      · rw [getD_set_ne _ _ _ _ _ hieq, getD_set_ne _ _ _ _ _ hieq]
        exact hD i

theorem exhausted_prod (n : List Nat) (s out : List (List String))
    (hInv : SearchInv n s out)
    (hall : ∀ i, i < n.length → (s.getD i []).length = 2) :
    out.map List.length = n := by
  obtain ⟨hs, ho, hpos⟩ := hInv
  apply listExtGetD _ _ (by simpa using ho)
  intro i hi
  have hi2 : i < n.length := by rw [List.length_map] at hi; omega
  have h1 := (hpos i hi2).2.2
  have h2 := hall i hi2
  rw [getD_map_of_lt List.length out i 0 [] (by omega)]
  omega

theorem listMin_diff_ne_inf (sc1 : String → Nat) (ipa : List String)
    (n : List Nat) (s out : List (List String)) (howmany : Nat)
    (hInv : SearchInv n s out) (hfull : howmany < prodList n)
    (hguard : prodList (out.map List.length) < howmany) :
    listMin (get_diff sc1 s ipa) ≠ Diff.inf := by
  intro hmin
  have hs := hInv.1
  have hall : ∀ i, i < n.length → (s.getD i []).length = 2 := by
    intro i hi
    have hlen : i < (get_diff sc1 s ipa).length := by
      rw [get_diff_length]; omega
    have hmem : (get_diff sc1 s ipa).getD i Diff.inf ∈ get_diff sc1 s ipa :=
      getD_mem_of_lt _ _ _ hlen
    have hinf := eq_inf_of_listMin_inf hmin hmem
    rw [get_diff_getD sc1 s ipa i (by omega)] at hinf
    exact (diffAt_inf_iff _ _ _).mp hinf
  have := exhausted_prod n s out hInv hall
  rw [this] at hguard
  omega

theorem minIndices_facts (n : List Nat) (s : List (List String))
    (sc1 : String → Nat) (ipa : List String)
    (hs : s.length = n.length)
    (hne : listMin (get_diff sc1 s ipa) ≠ Diff.inf) :
    minIndices (get_diff sc1 s ipa) (listMin (get_diff sc1 s ipa)) ≠ [] ∧
    ∀ j ∈ minIndices (get_diff sc1 s ipa) (listMin (get_diff sc1 s ipa)),
      j < n.length ∧
      (get_diff sc1 s ipa).getD j Diff.inf ≠ Diff.inf := by
  constructor
  · have hdne : get_diff sc1 s ipa ≠ [] := by
      intro h0
      rw [h0] at hne
      exact hne rfl
    obtain ⟨j, hj, hjv⟩ := List.getElem_of_mem (listMin_mem hdne)
    have : j ∈ minIndices (get_diff sc1 s ipa) (listMin (get_diff sc1 s ipa)) := by
      rw [mem_minIndices]
      exact ⟨hj, by rw [List.getD_eq_getElem _ _ hj]; exact hjv⟩
    intro h0
    rw [h0] at this
    simp at this
  · intro j hj
    rw [mem_minIndices] at hj
    refine ⟨by rw [← get_diff_length sc1 s ipa, ← hs] at *; exact hj.1, ?_⟩
    rw [hj.2]
    exact hne

theorem sclist_three_of_diff_fin (n : List Nat) (s out : List (List String))
    (sc1 : String → Nat) (ipa : List String) (idx : Nat)
    (hInv : SearchInv n s out) (hidx : idx < n.length)
    (hfin : (get_diff sc1 s ipa).getD idx Diff.inf ≠ Diff.inf) :
    3 ≤ (s.getD idx []).length := by
  obtain ⟨hs, _, hpos⟩ := hInv
  rw [get_diff_getD sc1 s ipa idx (by omega)] at hfin
  have h2 := (hpos idx hidx).1
  have hne2 : (s.getD idx []).length ≠ 2 := by
    intro h
    exact hfin ((diffAt_inf_iff _ _ _).mpr h)
  omega

theorem rr_loop_spec (sc1 : String → Nat) (ipa : List String) (howmany : Nat)
    (indices : List Nat) (difflist : List Diff) (n : List Nat) :
    ∀ (fuel k : Nat) (s out : List (List String)),
    SearchInv n s out →
    (∀ j ∈ indices, j < n.length ∧ difflist.getD j Diff.inf ≠ Diff.inf) →
    indices ≠ [] →
    (howmany ≤ prodList (out.map List.length) → ProdWitness howmany out) →
    totalLen s < fuel →
    ∃ s2 o2,
      rr_loop sc1 ipa howmany indices difflist fuel k s out = some (s2, o2) ∧
      SearchInv n s2 o2 ∧
      (howmany ≤ prodList (o2.map List.length) → ProdWitness howmany o2) ∧
      totalLen s2 ≤ totalLen s ∧
      (DollarInv s out → DollarInv s2 o2) ∧
      (get_diff sc1 s ipa = difflist ∧
          prodList (out.map List.length) < howmany →
        totalLen s2 < totalLen s) := by
  intro fuel
  induction fuel with
  | zero =>
    intro k s out _ _ _ _ hfuel
    omega
  | succ fuel ih =>
    intro k s out hInv hind hne hW hfuel
    by_cases hcond : get_diff sc1 s ipa = difflist ∧
        howmany > prodList (out.map List.length)
    · have hlen0 : 0 < indices.length := List.length_pos.mpr hne
      have hmem : indices.getD (k % indices.length) 0 ∈ indices :=
        getD_mem_of_lt _ _ _ (Nat.mod_lt _ hlen0)
      obtain ⟨hjn, hjfin⟩ := hind _ hmem
      have hfin : (get_diff sc1 s ipa).getD
          (indices.getD (k % indices.length) 0) Diff.inf ≠ Diff.inf := by
        rw [hcond.1]
        exact hjfin
      have h3 := sclist_three_of_diff_fin n s out sc1 ipa _ hInv hjn hfin
      obtain ⟨s2, o2, hmove, hInv2, hTL, hPW, hDol⟩ :=
        move_sc_step n s out _ hInv hjn h3
      have hW2 : howmany ≤ prodList (o2.map List.length) →
          ProdWitness howmany o2 :=
        fun _ => hPW howmany (by omega)
      obtain ⟨s3, o3, hrr, hInv3, hW3, hTL3, hDol3, _⟩ :=
        ih (k + 1) s2 o2 hInv2 hind hne hW2 (by omega)
      refine ⟨s3, o3, ?_, hInv3, hW3, by omega, fun h => hDol3 (hDol h),
        fun _ => by omega⟩
      simp only [rr_loop]
      rw [if_pos hcond, hmove]
      exact hrr
    · refine ⟨s, out, ?_, hInv, hW, le_refl _, fun h => h, fun hc => ?_⟩
      · simp only [rr_loop]
        rw [if_neg hcond]
      · exact absurd ⟨hc.1, by omega⟩ hcond

theorem greedy_loop_spec (sc1 : String → Nat) (ipa : List String)
    (howmany : Nat) (n : List Nat) (hfull : howmany < prodList n) :
    ∀ (fuel : Nat) (s out : List (List String)),
    SearchInv n s out →
    (howmany ≤ prodList (out.map List.length) → ProdWitness howmany out) →
    totalLen s + 1 < fuel →
    ∃ s2 o2, greedy_loop sc1 ipa howmany fuel s out = some (s2, o2) ∧
      SearchInv n s2 o2 ∧
      howmany ≤ prodList (o2.map List.length) ∧
      ProdWitness howmany o2 ∧
      (DollarInv s out → DollarInv s2 o2) := by
  intro fuel
  induction fuel with
  | zero =>
    intro s out _ _ hfuel
    omega
  | succ fuel ih =>
    intro s out hInv hW hfuel
    by_cases hguard : howmany > prodList (out.map List.length)
    · have hminne :=
        listMin_diff_ne_inf sc1 ipa n s out howmany hInv hfull (by omega)
      obtain ⟨hne, hind⟩ := minIndices_facts n s sc1 ipa hInv.1 hminne
      by_cases h1 : (minIndices (get_diff sc1 s ipa)
          (listMin (get_diff sc1 s ipa))).length = 1
      · have hmem : (minIndices (get_diff sc1 s ipa)
            (listMin (get_diff sc1 s ipa))).getD 0 0 ∈
            minIndices (get_diff sc1 s ipa) (listMin (get_diff sc1 s ipa)) :=
          getD_mem_of_lt _ _ _ (by omega)
        obtain ⟨hjn, hjfin⟩ := hind _ hmem
        have h3 := sclist_three_of_diff_fin n s out sc1 ipa _ hInv hjn hjfin
        obtain ⟨s2, o2, hmove, hInv2, hTL, hPW, hDol⟩ :=
          move_sc_step n s out _ hInv hjn h3
        have hW2 : howmany ≤ prodList (o2.map List.length) →
            ProdWitness howmany o2 :=
          fun _ => hPW howmany (by omega)
        obtain ⟨s3, o3, hgl, hInv3, hge3, hPW3, hDol3⟩ :=
          ih s2 o2 hInv2 hW2 (by omega)
        refine ⟨s3, o3, ?_, hInv3, hge3, hPW3, fun h => hDol3 (hDol h)⟩
        simp only [greedy_loop]
        rw [if_pos hguard, if_pos h1, hmove]
        exact hgl
      · obtain ⟨s2, o2, hrr, hInv2, hW2, hTL2, hDol2, hstrict⟩ :=
          rr_loop_spec sc1 ipa howmany _ _ n fuel 0 s out hInv hind hne hW
            (by omega)
        have hdec : totalLen s2 < totalLen s := hstrict ⟨rfl, by omega⟩
        obtain ⟨s3, o3, hgl, hInv3, hge3, hPW3, hDol3⟩ :=
          ih s2 o2 hInv2 hW2 (by omega)
        refine ⟨s3, o3, ?_, hInv3, hge3, hPW3, fun h => hDol3 (hDol2 h)⟩
        simp only [greedy_loop]
        rw [if_pos hguard, if_neg h1, hrr]
        exact hgl
    · refine ⟨s, out, ?_, hInv, by omega, hW (by omega), fun h => h⟩
      simp only [greedy_loop]
      rw [if_neg hguard]

theorem searchInv_out_ne_nil (n : List Nat) (s out : List (List String))
    (hInv : SearchInv n s out) : ∀ l ∈ out, l ≠ [] := by
  intro l hl
  obtain ⟨i, hi, hv⟩ := List.getElem_of_mem hl
  have hi2 : i < n.length := by rw [← hInv.2.1]; exact hi
  have h := (hInv.2.2 i hi2).2.1
  rw [List.getD_eq_getElem _ _ hi, hv] at h
  exact h

theorem dollarInv_out (s out : List (List String)) (hD : DollarInv s out) :
    ∀ l ∈ out, "$" ∉ l := by
  intro l hl
  obtain ⟨i, hi, hv⟩ := List.getElem_of_mem hl
  have h := (hD i).2
  rw [List.getD_eq_getElem _ _ hi, hv] at h
  exact h

theorem lookupAll_length (sc0 : String → Option (List String)) :
    ∀ (ipa : List String) (cands : List (List String)),
    lookupAll sc0 ipa = some cands → cands.length = ipa.length := by
  intro ipa
  induction ipa with
  | nil =>
    intro cands h
    simp only [lookupAll, Option.some_inj] at h
    rw [← h]
    rfl
  | cons t rest ih =>
    intro cands h
    simp only [lookupAll] at h
    cases hsc : sc0 t with
    | none => rw [hsc] at h; simp at h
    | some l =>
      rw [hsc] at h
      cases hl : lookupAll sc0 rest with
      | none => rw [hl] at h; simp at h
      | some ls =>
        rw [hl] at h
        simp only [Option.some_inj] at h
        rw [← h]
        simp [ih ls hl]

theorem outLens_replicate (cs : List (List String)) :
    ((cs.map (fun sclist => sclist ++ ["$"])).map
      (fun l => [l.headD ""])).map List.length =
    List.replicate cs.length 1 := by
  induction cs with
  | nil => rfl
  | cons c ct ih =>
    simp only [List.map_cons, List.length_cons, List.replicate_succ,
      List.cons.injEq] at ih ⊢
    exact ⟨rfl, ih⟩

theorem read_sc_total (sc0 : String → Option (List String))
    (sc1 : String → Nat) (ipa : List String) (howmany : Nat)
    (cands : List (List String)) (hc : lookupAll sc0 ipa = some cands) :
    ∃ out, read_sc sc0 sc1 ipa howmany = some out ∧
      out.length = ipa.length ∧
      (prodList (cands.map List.length) ≤ howmany → out = cands) ∧
      (howmany < prodList (cands.map List.length) →
        (∀ l ∈ out, l ≠ []) ∧
        howmany ≤ prodList (out.map List.length) ∧
        (1 ≤ howmany → ProdWitness howmany out) ∧
        ((∀ l ∈ cands, "$" ∉ l) → ∀ l ∈ out, "$" ∉ l)) := by
  have hlen := lookupAll_length sc0 ipa cands hc
  by_cases hfull : prodList (cands.map List.length) ≤ howmany
  · refine ⟨cands, ?_, hlen, fun _ => rfl, fun h => absurd h (by omega)⟩
    simp only [read_sc, hc]
    rw [if_pos hfull]
  · have hKfull : howmany < prodList (cands.map List.length) := by omega
    have hposall : ∀ l ∈ cands, l ≠ [] := by
      intro l hl
      have hmem : l.length ∈ cands.map List.length := List.mem_map_of_mem _ hl
      have : 0 < l.length :=
        pos_of_mem_of_prod_pos (by omega) hmem
      intro h0
      rw [h0] at this
      simp at this
    have hInv0 : SearchInv (cands.map List.length)
        (cands.map (fun sclist => sclist ++ ["$"]))
        ((cands.map (fun sclist => sclist ++ ["$"])).map
          (fun l => [l.headD ""])) := by
      refine ⟨by simp, by simp, ?_⟩
      intro i hi
      have hi2 : i < cands.length := by simpa using hi
      rw [getD_map_of_lt _ cands i [] [] hi2,
        getD_map_of_lt _ _ i [] [] (by simpa using hi2),
        getD_map_of_lt _ cands i [] [] hi2,
        getD_map_of_lt List.length cands i 0 [] hi2]
      have hpos : 0 < (cands.getD i []).length := by
        have := hposall _ (getD_mem_of_lt cands i [] hi2)
        exact List.length_pos.mpr this
      refine ⟨?_, by simp, ?_⟩
      · simp only [List.length_append, List.length_cons, List.length_nil]
        omega
      · simp only [List.length_append, List.length_cons, List.length_nil]
        omega
    have houtlens := outLens_replicate cands
    have hprod0 : prodList (((cands.map (fun sclist => sclist ++ ["$"])).map
        (fun l => [l.headD ""])).map List.length) = 1 := by
      rw [houtlens]
      simp [prodList]
    have hDol0 : (∀ l ∈ cands, "$" ∉ l) →
        DollarInv (cands.map (fun sclist => sclist ++ ["$"]))
          ((cands.map (fun sclist => sclist ++ ["$"])).map
            (fun l => [l.headD ""])) := by
      intro hd i
      by_cases hi2 : i < cands.length
      · rw [getD_map_of_lt _ cands i [] [] hi2,
          getD_map_of_lt _ _ i [] [] (by simpa using hi2),
          getD_map_of_lt _ cands i [] [] hi2]
        have hmem := getD_mem_of_lt cands i [] hi2
        constructor
        · rw [List.dropLast_concat]
          exact hd _ hmem
        · rcases hcand : cands.getD i [] with _ | ⟨y, t⟩
          · exact absurd hcand (hposall _ hmem)
          · have hhead : ((y :: t) ++ ["$"]).headD "" = y := rfl
            rw [hhead]
            intro hmem2
            have hy : "$" = y := List.mem_singleton.mp hmem2
            apply hd _ hmem
            rw [hcand, hy]
            exact List.mem_cons_self _ _
      · rw [List.getD_eq_default _ _ (by simpa using Nat.le_of_not_lt hi2),
          List.getD_eq_default _ _ (by simpa using Nat.le_of_not_lt hi2)]
        simp
    rcases Nat.eq_zero_or_pos howmany with hK0 | hK1
    · subst hK0
      refine ⟨(cands.map (fun sclist => sclist ++ ["$"])).map
        (fun l => [l.headD ""]), ?_, by simpa using hlen,
        fun h => absurd h (by omega), fun _ => ?_⟩
      · simp only [read_sc, hc]
        rw [if_neg (by omega)]
        have hguard : ¬ (0 > prodList
            (((cands.map (fun sclist => sclist ++ ["$"])).map
              (fun l => [l.headD ""])).map List.length)) := by omega
        simp only [greedy_loop]
        rw [if_neg hguard]
      · refine ⟨?_, by omega, by omega, fun hd => dollarInv_out _ _ (hDol0 hd)⟩
        intro l hl
        rcases List.mem_map.mp hl with ⟨x, _, hx⟩
        rw [← hx]
        simp
    · have hW0 : howmany ≤ prodList
          (((cands.map (fun sclist => sclist ++ ["$"])).map
            (fun l => [l.headD ""])).map List.length) →
          ProdWitness howmany
            ((cands.map (fun sclist => sclist ++ ["$"])).map
              (fun l => [l.headD ""])) := by
        intro hge
        rw [hprod0] at hge
        have hcne : cands ≠ [] := by
          intro h0
          rw [h0] at hKfull
          simp [prodList] at hKfull
          omega
        have hclen : 0 < cands.length := List.length_pos.mpr hcne
        refine ⟨0, by simpa using hclen, ?_⟩
        rw [getD_map_of_lt _ _ 0 [] [] (by simpa using hclen),
          getD_map_of_lt _ cands 0 [] [] hclen]
        have h1 : ([((cands.getD 0 [] ++ ["$"]).headD "")].length : Nat) = 1 := rfl
        rw [h1, houtlens]
        rcases hrep : List.replicate cands.length (1 : Nat)
          with _ | ⟨x, t⟩
        · exfalso
          have h0 := congrArg List.length hrep
          rw [List.length_replicate, List.length_nil] at h0
          omega
        · have hset : (x :: t).set 0 (1 - 1) = 0 :: t := by
            simp
          rw [hset]
          have hprodnil : prodList (0 :: t) = 0 := by simp [prodList]
          omega
      obtain ⟨s2, o2, hgl, hInv2, hge2, hPW2, hDol2⟩ :=
        greedy_loop_spec sc1 ipa howmany (cands.map List.length) hKfull
          ((cands.map (fun sclist => sclist ++ ["$"])).map List.length).sum.succ.succ
          (cands.map (fun sclist => sclist ++ ["$"]))
          ((cands.map (fun sclist => sclist ++ ["$"])).map
            (fun l => [l.headD ""]))
          hInv0 hW0 (by unfold totalLen; omega)
      refine ⟨o2, ?_, ?_, fun h => absurd h (by omega), fun _ =>
        ⟨searchInv_out_ne_nil _ _ _ hInv2, hge2, fun _ => hPW2,
         fun hd => dollarInv_out _ _ (hDol2 (hDol0 hd))⟩⟩
      · simp only [read_sc, hc]
        rw [if_neg (by omega)]
        have hfueleq : ((cands.map (fun sclist => sclist ++ ["$"])).map
            List.length).sum + 2 =
            ((cands.map (fun sclist => sclist ++ ["$"])).map
              List.length).sum.succ.succ := rfl
        rw [hfueleq, hgl]
      · rw [hInv2.2.1]
        simpa using hlen

/-! ### Example correspondence data (from the `read_sc` doctest) -/

/-- Example `scdict` (`self.sc[0]`) mirroring the doctest of `read_sc`. -/
def exScdict : String → Option (List String) := fun t =>
  if t = "k" then some ["k", "h"]
  else if t = "i" then some ["e", "o"]
  else none

/-- Example `sedict` (`self.sc[1]`) mirroring the doctest of `read_sc`. -/
def exSedict : String → Nat := fun k =>
  if k = "k k" then 5
  else if k = "k c" then 3
  else if k = "i e" then 2
  else if k = "i o" then 1
  else 0

/-- Claim C1: for every input token list whose per-token candidate lists are
non-empty and every `howmany >= 1`, `read_sc` returns exactly one list per
input position, each output list is non-empty, the cross-product of the
output-list lengths is at least `min(howmany, full)` and is the smallest value
the greedy commit sequence can achieve (shrinking any single committed list by
its last-committed candidate drops the product below `howmany`); when
`howmany` is at least the full cross-product size the original candidate lists
are returned unchanged. -/
theorem C1_read_sc_monotonicity (sc0 : String → Option (List String))
    (sc1 : String → Nat) (ipa : List String) (howmany : Nat)
    (cands : List (List String))
    (hc : lookupAll sc0 ipa = some cands)
    (hne : ∀ l ∈ cands, l ≠ [])
    (hK : 1 ≤ howmany) :
    ∃ out, read_sc sc0 sc1 ipa howmany = some out ∧
      out.length = ipa.length ∧
      (∀ l ∈ out, l ≠ []) ∧
      min howmany (prodList (cands.map List.length)) ≤
        prodList (out.map List.length) ∧
      (prodList (cands.map List.length) ≤ howmany → out = cands) ∧
      (howmany < prodList (cands.map List.length) → ProdWitness howmany out) := by
  obtain ⟨out, heq, hlen, hfull, hgreedy⟩ :=
    read_sc_total sc0 sc1 ipa howmany cands hc
  by_cases h : prodList (cands.map List.length) ≤ howmany
  · refine ⟨out, heq, hlen, ?_, ?_, hfull, fun hlt => absurd hlt (by omega)⟩
    · rw [hfull h]
      exact hne
    · rw [hfull h]
      omega
  · obtain ⟨hone, hge, hPW, _⟩ := hgreedy (by omega)
    exact ⟨out, heq, hlen, hone, by omega, fun h2 => absurd h2 h,
      fun _ => hPW hK⟩

/-- Witness for C1 at the doctest input: `read_sc(["k","i"], 2)` with the
example dictionaries. -/
theorem C1_witness :
    ∃ out, read_sc exScdict exSedict ["k", "i"] 2 = some out ∧
      out.length = (["k", "i"] : List String).length ∧
      (∀ l ∈ out, l ≠ []) ∧
      min 2 (prodList (([["k", "h"], ["e", "o"]] :
        List (List String)).map List.length)) ≤
        prodList (out.map List.length) ∧
      (prodList (([["k", "h"], ["e", "o"]] :
        List (List String)).map List.length) ≤ 2 →
        out = [["k", "h"], ["e", "o"]]) ∧
      (2 < prodList (([["k", "h"], ["e", "o"]] :
        List (List String)).map List.length) → ProdWitness 2 out) :=
  C1_read_sc_monotonicity exScdict exSedict ["k", "i"] 2
    [["k", "h"], ["e", "o"]] (by decide) (by decide) (by decide)

/-- Claim C2: the sentinel `"$"` appended inside `read_sc` never appears in
any returned per-position candidate list (provided, as the data model
stipulates, that `"$"` is not itself a candidate in `scdict`). -/
theorem C2_read_sc_no_sentinel (sc0 : String → Option (List String))
    (sc1 : String → Nat) (ipa : List String) (howmany : Nat)
    (cands : List (List String))
    (hc : lookupAll sc0 ipa = some cands)
    (hdollar : ∀ l ∈ cands, "$" ∉ l) :
    ∃ out, read_sc sc0 sc1 ipa howmany = some out ∧
      ∀ l ∈ out, "$" ∉ l := by
  obtain ⟨out, heq, _, hfull, hgreedy⟩ :=
    read_sc_total sc0 sc1 ipa howmany cands hc
  by_cases h : prodList (cands.map List.length) ≤ howmany
  · refine ⟨out, heq, ?_⟩
    rw [hfull h]
    exact hdollar
  · obtain ⟨_, _, _, hdol⟩ := hgreedy (by omega)
    exact ⟨out, heq, hdol hdollar⟩

/-- Witness for C2 at the doctest input. -/
theorem C2_witness :
    ∃ out, read_sc exScdict exSedict ["k", "i"] 2 = some out ∧
      ∀ l ∈ out, "$" ∉ l :=
  C2_read_sc_no_sentinel exScdict exSedict ["k", "i"] 2
    [["k", "h"], ["e", "o"]] (by decide) (by decide)

/-- Claim C3: in `get_diff`, a position whose remaining candidate list has
length 2 (nothing left beyond the sentinel) yields `+inf`; otherwise a
current candidate with zero recorded occurrences yields exactly `9999999`;
otherwise the difference is the occurrence count of the current candidate
minus that of the next one. -/
theorem C3_get_diff_cases (sc1 : String → Nat)
    (sclistlist : List (List String)) (ipa : List String) (idx : Nat)
    (hidx : idx < sclistlist.length)
    (hsent : 2 ≤ (sclistlist.getD idx []).length) :
    ((sclistlist.getD idx []).length = 2 →
      (get_diff sc1 sclistlist ipa).getD idx Diff.inf = Diff.inf) ∧
    ((sclistlist.getD idx []).length ≠ 2 →
      sc1 (scKey (ipa.getD idx "")
        ((sclistlist.getD idx []).getD 0 "")) = 0 →
      (get_diff sc1 sclistlist ipa).getD idx Diff.inf = Diff.fin 9999999) ∧
    ((sclistlist.getD idx []).length ≠ 2 →
      sc1 (scKey (ipa.getD idx "")
        ((sclistlist.getD idx []).getD 0 "")) ≠ 0 →
      (get_diff sc1 sclistlist ipa).getD idx Diff.inf =
        Diff.fin ((sc1 (scKey (ipa.getD idx "")
            ((sclistlist.getD idx []).getD 0 "")) : Int) -
          (sc1 (scKey (ipa.getD idx "")
            ((sclistlist.getD idx []).getD 1 "")) : Int))) := by
  rw [get_diff_getD sc1 sclistlist ipa idx hidx]
  refine ⟨?_, ?_, ?_⟩
  · intro h2
    simp only [diffAt]
    rw [if_pos h2]
  · intro h2 h0
    simp only [diffAt]
    rw [if_neg h2, if_pos h0]
  · intro h2 h0
    simp only [diffAt]
    rw [if_neg h2, if_neg h0]

/-- Witness for C3 on the `get_diff` doctest state. -/
theorem C3_witness :
    ((([["k", "c", "$"], ["e", "o", "$"]] :
        List (List String)).getD 0 []).length = 2 →
      (get_diff exSedict [["k", "c", "$"], ["e", "o", "$"]]
        ["k", "i"]).getD 0 Diff.inf = Diff.inf) ∧
    ((([["k", "c", "$"], ["e", "o", "$"]] :
        List (List String)).getD 0 []).length ≠ 2 →
      exSedict (scKey ((["k", "i"] : List String).getD 0 "")
        ((([["k", "c", "$"], ["e", "o", "$"]] :
          List (List String)).getD 0 []).getD 0 "")) = 0 →
      (get_diff exSedict [["k", "c", "$"], ["e", "o", "$"]]
        ["k", "i"]).getD 0 Diff.inf = Diff.fin 9999999) ∧
    ((([["k", "c", "$"], ["e", "o", "$"]] :
        List (List String)).getD 0 []).length ≠ 2 →
      exSedict (scKey ((["k", "i"] : List String).getD 0 "")
        ((([["k", "c", "$"], ["e", "o", "$"]] :
          List (List String)).getD 0 []).getD 0 "")) ≠ 0 →
      (get_diff exSedict [["k", "c", "$"], ["e", "o", "$"]]
        ["k", "i"]).getD 0 Diff.inf =
        Diff.fin ((exSedict (scKey ((["k", "i"] : List String).getD 0 "")
            ((([["k", "c", "$"], ["e", "o", "$"]] :
              List (List String)).getD 0 []).getD 0 "")) : Int) -
          (exSedict (scKey ((["k", "i"] : List String).getD 0 "")
            ((([["k", "c", "$"], ["e", "o", "$"]] :
              List (List String)).getD 0 []).getD 1 "")) : Int))) :=
  C3_get_diff_cases exSedict [["k", "c", "$"], ["e", "o", "$"]]
    ["k", "i"] 0 (by decide) (by decide)

/-- Claim C10: whenever every input token is present in `scdict`, the greedy
loop of `read_sc` only ever calls `move_sc` on a position whose remaining
candidate list has at least two elements, so the accesses
`sclistlist[whichsound][1]` and `sclistlist[whichsound].pop(0)` never index
past the end of a list.  In the embedding those accesses return `none` when
out of range and `read_sc` propagates the failure, so the property is exactly
that `read_sc` returns `some`. -/
theorem C10_move_sc_in_bounds (sc0 : String → Option (List String))
    (sc1 : String → Nat) (ipa : List String) (howmany : Nat)
    (cands : List (List String))
    (hc : lookupAll sc0 ipa = some cands) :
    (read_sc sc0 sc1 ipa howmany).isSome := by
  obtain ⟨out, heq, _⟩ := read_sc_total sc0 sc1 ipa howmany cands hc
  rw [heq]
  rfl

/-- Witness for C10 at the doctest input. -/
theorem C10_witness :
    (read_sc exScdict exSedict ["k", "i"] 2).isSome :=
  C10_move_sc_in_bounds exScdict exSedict ["k", "i"] 2
    [["k", "h"], ["e", "o"]] (by decide)

/-! ### LCS and `edit_distance_with2ops` (scapplier.py lines 436-499) -/

/-- Textbook longest-common-subsequence length by structural recursion;
the specification-side definition of "LCS" for claim C8 (proved below to be
the length of a longest common subsequence). -/
def lcsF : List Char → List Char → Nat
  | [], _ => 0
  | _ :: _, [] => 0
  | a :: as, b :: bs =>
    if a = b then lcsF as bs + 1
    else max (lcsF (a :: as) bs) (lcsF as (b :: bs))
termination_by s1 s2 => s1.length + s2.length

theorem lcsF_nil_right (s : List Char) : lcsF s [] = 0 := by
  cases s <;> simp [lcsF]

theorem lcsF_exists_cs : ∀ (s1 s2 : List Char),
    ∃ s : List Char, List.Sublist s s1 ∧ List.Sublist s s2 ∧
      s.length = lcsF s1 s2 := by
  intro s1 s2
  induction s1, s2 using lcsF.induct with
  | case1 s2 =>
    exact ⟨[], List.nil_sublist _, List.nil_sublist _, by simp [lcsF]⟩
  | case2 a as =>
    exact ⟨[], List.nil_sublist _, List.nil_sublist _,
      by rw [lcsF_nil_right]; rfl⟩
  | case3 as b bs ih =>
    obtain ⟨s, h1, h2, h3⟩ := ih
    exact ⟨b :: s, List.Sublist.cons₂ b h1, List.Sublist.cons₂ b h2,
      by simp [lcsF, h3]⟩
  | case4 a as b bs hne ih1 ih2 =>
    by_cases hmax : lcsF as (b :: bs) ≤ lcsF (a :: as) bs
    · obtain ⟨s, h1, h2, h3⟩ := ih1
      refine ⟨s, h1, List.Sublist.cons b h2, ?_⟩
      rw [h3]
      simp only [lcsF]
      rw [if_neg hne]
      omega
    · obtain ⟨s, h1, h2, h3⟩ := ih2
      refine ⟨s, List.Sublist.cons a h1, h2, ?_⟩
      rw [h3]
      simp only [lcsF]
      rw [if_neg hne]
      omega

theorem lcsF_maximal : ∀ (s1 s2 : List Char), ∀ s : List Char,
    List.Sublist s s1 → List.Sublist s s2 → s.length ≤ lcsF s1 s2 := by
  intro s1 s2
  induction s1, s2 using lcsF.induct with
  | case1 s2 =>
    intro s h1 _
    rw [List.sublist_nil.mp h1]
    exact Nat.zero_le _
  | case2 a as =>
    intro s _ h2
    rw [List.sublist_nil.mp h2]
    simp
  | case3 as b bs ih =>
    intro s h1 h2
    simp only [lcsF, if_pos rfl]
    cases h1 with
    | cons _ h1d =>
      cases h2 with
      | cons _ h2d => exact Nat.le_succ_of_le (ih s h1d h2d)
      | cons₂ _ h2d =>
        rename_i t
        have ht1 : List.Sublist t as :=
          List.Sublist.trans (List.sublist_cons_self b t) h1d
        simp only [List.length_cons]
        exact Nat.succ_le_succ (ih t ht1 h2d)
    | cons₂ _ h1d =>
      rename_i t
      cases h2 with
      | cons _ h2d =>
        have ht2 : List.Sublist t bs :=
          List.Sublist.trans (List.sublist_cons_self b t) h2d
        simp only [List.length_cons]
        exact Nat.succ_le_succ (ih t h1d ht2)
      | cons₂ _ h2d =>
        simp only [List.length_cons]
        exact Nat.succ_le_succ (ih t h1d h2d)
  | case4 a as b bs hne ih1 ih2 =>
    intro s h1 h2
    simp only [lcsF]
    rw [if_neg hne]
    cases h1 with
    | cons _ h1d =>
      exact le_trans (ih2 s h1d h2) (Nat.le_max_right _ _)
    | cons₂ _ h1d =>
      rename_i t
      cases h2 with
      | cons _ h2d =>
        exact le_trans (ih1 (a :: t) (List.Sublist.cons₂ a h1d) h2d)
          (Nat.le_max_left _ _)
      | cons₂ _ h2d => exact absurd rfl hne

theorem lcsF_reverse (s1 s2 : List Char) :
    lcsF s1.reverse s2.reverse = lcsF s1 s2 := by
  apply Nat.le_antisymm
  · obtain ⟨s, h1, h2, h3⟩ := lcsF_exists_cs s1.reverse s2.reverse
    rw [← h3]
    have h1r : List.Sublist s.reverse s1 := by
      have h := List.reverse_sublist.mpr h1
      rwa [List.reverse_reverse] at h
    have h2r : List.Sublist s.reverse s2 := by
      have h := List.reverse_sublist.mpr h2
      rwa [List.reverse_reverse] at h
    have h := lcsF_maximal s1 s2 s.reverse h1r h2r
    rwa [List.length_reverse] at h
  · obtain ⟨s, h1, h2, h3⟩ := lcsF_exists_cs s1 s2
    rw [← h3]
    have h := lcsF_maximal s1.reverse s2.reverse s.reverse
      (List.reverse_sublist.mpr h1) (List.reverse_sublist.mpr h2)
    rwa [List.length_reverse] at h

theorem lcsF_comm (s1 s2 : List Char) : lcsF s1 s2 = lcsF s2 s1 := by
  apply Nat.le_antisymm
  · obtain ⟨s, h1, h2, h3⟩ := lcsF_exists_cs s1 s2
    rw [← h3]
    exact lcsF_maximal s2 s1 s h2 h1
  · obtain ⟨s, h1, h2, h3⟩ := lcsF_exists_cs s2 s1
    rw [← h3]
    exact lcsF_maximal s1 s2 s h2 h1

/-- Cell `L[i][j]` of the dynamic-programming table of
`edit_distance_with2ops` (scapplier.py lines 482-494): 0 on the border,
diagonal + 1 when the two characters match, otherwise the maximum of the
cell above and the cell to the left. -/
def Lmat (string1 string2 : List Char) : Nat → Nat → Nat
  | 0, _ => 0
  | _ + 1, 0 => 0
  | i + 1, j + 1 =>
    if string1.getD i ' ' = string2.getD j ' '
    then Lmat string1 string2 i j + 1
    else max (Lmat string1 string2 i (j + 1)) (Lmat string1 string2 (i + 1) j)
termination_by i j => (i, j)

/-- `edit_distance_with2ops` (scapplier.py lines 436-499):
`(m - lcs) * w_del + (n - lcs) * w_ins` where `lcs` is the bottom-right
cell of the DP table. -/
def edit_distance_with2ops (string1 string2 : List Char)
    (w_del w_ins : Int) : Int :=
  ((string1.length : Int) -
    (Lmat string1 string2 string1.length string2.length : Int)) * w_del +
  ((string2.length : Int) -
    (Lmat string1 string2 string1.length string2.length : Int)) * w_ins

theorem take_succ_reverse (l : List Char) (i : Nat) (h : i < l.length) :
    (l.take (i + 1)).reverse = l.getD i ' ' :: (l.take i).reverse := by
  rw [List.take_succ, List.getElem?_eq_getElem h,
    List.getD_eq_getElem _ _ h]
  simp

theorem Lmat_eq_lcsF (s1 s2 : List Char) : ∀ i j, i ≤ s1.length →
    j ≤ s2.length →
    Lmat s1 s2 i j = lcsF ((s1.take i).reverse) ((s2.take j).reverse) := by
  intro i j
  induction i, j using Lmat.induct s1 s2 with
  | case1 j =>
    intro _ _
    simp [Lmat, lcsF]
  | case2 i =>
    intro _ _
    simp only [List.take_zero, List.reverse_nil, lcsF_nil_right, Lmat]
  | case3 i j heq ih =>
    intro hi hj
    rw [take_succ_reverse s1 i (by omega), take_succ_reverse s2 j (by omega)]
    simp only [Lmat, if_pos heq, lcsF, heq, if_pos rfl]
    rw [ih (by omega) (by omega)]
    simp
  | case4 i j hne ih1 ih2 =>
    intro hi hj
    rw [take_succ_reverse s1 i (by omega), take_succ_reverse s2 j (by omega)]
    simp only [Lmat, lcsF]
    rw [if_neg hne, if_neg hne, ih1 (by omega) (by omega),
      ih2 (by omega) (by omega),
      take_succ_reverse s1 i (by omega), take_succ_reverse s2 j (by omega),
      Nat.max_comm]

theorem edit_distance_eq_lcsF (string1 string2 : List Char)
    (w_del w_ins : Int) :
    edit_distance_with2ops string1 string2 w_del w_ins =
      ((string1.length : Int) - (lcsF string1 string2 : Int)) * w_del +
      ((string2.length : Int) - (lcsF string1 string2 : Int)) * w_ins := by
  unfold edit_distance_with2ops
  rw [Lmat_eq_lcsF string1 string2 string1.length string2.length
    (le_refl _) (le_refl _), List.take_length, List.take_length,
    lcsF_reverse]

/-- Claim C8: `edit_distance_with2ops(A, B, w_del, w_ins)` equals
`(len(A) - LCS) * w_del + (len(B) - LCS) * w_ins` where `LCS` really is the
length of a longest common subsequence of A and B: a common subsequence of
that length exists and none is longer. -/
theorem C8_edit_distance_lcs (string1 string2 : List Char)
    (w_del w_ins : Int) :
    edit_distance_with2ops string1 string2 w_del w_ins =
      ((string1.length : Int) - (lcsF string1 string2 : Int)) * w_del +
      ((string2.length : Int) - (lcsF string1 string2 : Int)) * w_ins ∧
    (∃ s : List Char, List.Sublist s string1 ∧ List.Sublist s string2 ∧
      s.length = lcsF string1 string2) ∧
    (∀ s : List Char, List.Sublist s string1 → List.Sublist s string2 →
      s.length ≤ lcsF string1 string2) :=
  ⟨edit_distance_eq_lcsF string1 string2 w_del w_ins,
   lcsF_exists_cs string1 string2,
   lcsF_maximal string1 string2⟩

/-- Claim C9: swapping the two strings while swapping the deletion and
insertion weights leaves `edit_distance_with2ops` unchanged. -/
theorem C9_edit_distance_swap (string1 string2 : List Char)
    (w_del w_ins : Int) :
    edit_distance_with2ops string1 string2 w_del w_ins =
      edit_distance_with2ops string2 string1 w_ins w_del := by
  rw [edit_distance_eq_lcsF, edit_distance_eq_lcsF, lcsF_comm]
  ring

/-! ### `list2regex` and `Adrc.reconstruct` (scapplier.py lines 163-211, 551-572) -/

/-- `list2regex` (scapplier.py lines 551-572): join the non-`"-"` entries
with `|` after stripping dots, close with `)?` when `"-"` was present. -/
def list2regex (sclist : List String) : String :=
  let s := if "-" ∈ sclist then ")?" else ")"
  "(" ++ String.intercalate "|"
    ((sclist.filter (fun i => i ≠ "-")).map (fun i => i.replace "." "")) ++ s

/-- `Adrc.reconstruct` (scapplier.py lines 163-211).  Python joins
`set(missing)` whose iteration order is unspecified; the embedding uses
`List.dedup` (first-occurrence order), which agrees on content and
multiplicity.  `none` again models an uncaught exception inside `read_sc`. -/
def reconstruct (sc0 : String → Option (List String)) (sc1 : String → Nat)
    (ipalist : List String) (howmany : Nat) : Option String :=
  if ¬ (ipalist.all fun phon => (sc0 phon).isSome) then
    some (String.intercalate ", "
      ((ipalist.filter (fun i => (sc0 i).isNone)).dedup) ++ " not old")
  else
    match read_sc sc0 sc1 ipalist howmany with
    | none => none
    | some out =>
      some ("^" ++
        String.join ((out.filter (fun i => i ≠ ["-"])).map list2regex) ++ "$")

theorem lookupAll_all_isSome (sc0 : String → Option (List String)) :
    ∀ (ipa : List String) (cands : List (List String)),
    lookupAll sc0 ipa = some cands → ∀ t ∈ ipa, (sc0 t).isSome := by
  intro ipa
  induction ipa with
  | nil =>
    intro cands _ t ht
    simp at ht
  | cons x rest ih =>
    intro cands h t ht
    simp only [lookupAll] at h
    cases hsc : sc0 x with
    | none => rw [hsc] at h; simp at h
    | some l =>
      rw [hsc] at h
      cases hl : lookupAll sc0 rest with
      | none => rw [hl] at h; simp at h
      | some ls =>
        rcases List.mem_cons.mp ht with rfl | ht2
        · rw [hsc]; rfl
        · exact ih ls hl t ht2

/-- Claim C4: if at least one input token is absent from `scdict`,
`reconstruct` returns exactly the missing tokens, deduplicated, joined by
`", "`, suffixed `" not old"`, and performs no partial reconstruction; if
every token is present the result is a regex anchored as `^...$`. -/
theorem C4_reconstruct_missing_or_anchored
    (sc0 : String → Option (List String)) (sc1 : String → Nat)
    (ipalist : List String) (howmany : Nat) :
    (¬ (∀ t ∈ ipalist, (sc0 t).isSome) →
      ∃ missing : List String,
        reconstruct sc0 sc1 ipalist howmany =
          some (String.intercalate ", " missing ++ " not old") ∧
        missing ≠ [] ∧ missing.Nodup ∧
        (∀ t, t ∈ missing ↔ t ∈ ipalist ∧ sc0 t = none)) ∧
    (∀ cands, lookupAll sc0 ipalist = some cands →
      (∀ l ∈ cands, "$" ∉ l) →
      ∃ mid, reconstruct sc0 sc1 ipalist howmany =
        some ("^" ++ mid ++ "$")) := by
  constructor
  · intro hmiss
    refine ⟨(ipalist.filter (fun i => (sc0 i).isNone)).dedup, ?_, ?_, ?_, ?_⟩
    · unfold reconstruct
      rw [if_pos]
      intro hall
      apply hmiss
      intro t ht
      have := List.all_eq_true.mp hall t ht
      simpa using this
    · intro h0
      apply hmiss
      intro t ht
      cases hsc : sc0 t with
      | some l => rfl
      | none =>
        exfalso
        have : t ∈ (ipalist.filter (fun i => (sc0 i).isNone)).dedup := by
          rw [List.mem_dedup, List.mem_filter]
          exact ⟨ht, by rw [hsc]; rfl⟩
        rw [h0] at this
        simp at this
    · exact List.nodup_dedup _
    · intro t
      rw [List.mem_dedup, List.mem_filter]
      constructor
      · rintro ⟨h1, h2⟩
        refine ⟨h1, ?_⟩
        simpa [Option.isNone_iff_eq_none] using h2
      · rintro ⟨h1, h2⟩
        refine ⟨h1, ?_⟩
        rw [h2]
        rfl
  · intro cands hc hdollar
    obtain ⟨out, heq, _⟩ := read_sc_total sc0 sc1 ipalist howmany cands hc
    refine ⟨String.join ((out.filter (fun i => i ≠ ["-"])).map list2regex), ?_⟩
    unfold reconstruct
    rw [if_neg, heq]
    intro hnot
    apply hnot
    apply List.all_eq_true.mpr
    intro t ht
    have := lookupAll_all_isSome sc0 ipalist cands hc t ht
    simpa using this

/-- Witness for C4: a missing-token input (`["l", "a"]`, neither in the
example `scdict`) and a fully-covered input (`["k", "i"]`). -/
theorem C4_witness :
    (∃ missing : List String,
      reconstruct exScdict exSedict ["l", "a"] 1 =
        some (String.intercalate ", " missing ++ " not old") ∧
      missing ≠ [] ∧ missing.Nodup ∧
      (∀ t, t ∈ missing ↔ t ∈ (["l", "a"] : List String) ∧
        exScdict t = none)) ∧
    (∃ mid, reconstruct exScdict exSedict ["k", "i"] 2 =
      some ("^" ++ mid ++ "$")) :=
  ⟨(C4_reconstruct_missing_or_anchored exScdict exSedict ["l", "a"] 1).1
    (by decide),
   (C4_reconstruct_missing_or_anchored exScdict exSedict ["k", "i"] 2).2
    [["k", "h"], ["e", "o"]] (by decide) (by decide)⟩

/-! ### `get_mtx`, `mtx2graph` (scapplier.py lines 664-839) -/

/-- Cell `(r, c)` of the matrix built by `get_mtx` (scapplier.py lines
664-736), with the `'#'` start symbol prepended to both words: first row is
`0,1,2,...`, first column `0,1,2,...`, and interior cells follow the
unweighted delete/insert recurrence.  The "anchor" assignment to `sol[1][1]`
in the source is overwritten by the nested loop with the same value, so it
does not appear separately. -/
def mtxCell (target source : List Char) : Nat → Nat → Nat
  | 0, c => c
  | r + 1, 0 => r + 1
  | r + 1, c + 1 =>
    if target.getD c '#' ≠ source.getD r '#'
    then min (mtxCell target source r (c + 1))
           (mtxCell target source (r + 1) c) + 1
    else mtxCell target source r c
termination_by r c => (r, c)

/-- One interior row of the `get_mtx` matrix, cell by cell: for target char
`t` at column `c`, `diag` is `sol[r-1][c-1]`, the head of `rest` is
`sol[r-1][c]`, and `left` is `sol[r][c-1]`, combined exactly as in the
nested loop of scapplier.py lines 726-733. -/
def mtxRowAux (srcChar : Char) : List Char → List Nat → Nat → List Nat
  | [], _, _ => []
  | _ :: _, [], _ => []
  | t :: ts, diag :: rest, left =>
    (if t ≠ srcChar then min (rest.headD 0) left + 1 else diag)
    :: mtxRowAux srcChar ts rest
        (if t ≠ srcChar then min (rest.headD 0) left + 1 else diag)

/-- The interior rows of the `get_mtx` matrix, one per source character,
each starting with its row index (the first column `sol[j][0] = j`). -/
def mtxRows (target : List Char) : List Char → List Nat → List (List Nat)
  | [], _ => []
  | s :: ss, prev =>
    ((prev.headD 0 + 1) :: mtxRowAux s target prev (prev.headD 0 + 1))
    :: mtxRows target ss
        ((prev.headD 0 + 1) :: mtxRowAux s target prev (prev.headD 0 + 1))

/-- `get_mtx` (scapplier.py lines 664-736) as the full matrix: the first
row is `0,1,2,...` and each following row is computed from its predecessor.
The values satisfy the recurrence captured by `mtxCell`. -/
def get_mtx (target source : List Char) : List (List Nat) :=
  List.range (target.length + 1) ::
    mtxRows target source (List.range (target.length + 1))

/-- `matrix[i][j]` with Python-style nested indexing. -/
def mtxAt (matrix : List (List Nat)) (i j : Nat) : Nat :=
  (matrix.getD i []).getD j 0

/-- The edges `mtx2graph` (scapplier.py lines 776-839) adds for the node
`(i, j)`, in insertion order: right neighbor (weight `w_del` unless the two
cells are equal), down neighbor (weight `w_ins` unless equal), and the
diagonal neighbor exactly when the two cells are equal (weight 0). -/
def edgesAt (matrix : List (List Nat)) (w_del w_ins : Nat) (i j : Nat) :
    List ((Nat × Nat) × Nat) :=
  (if j < (matrix.getD 0 []).length - 1 then
    [((i, j + 1),
      if mtxAt matrix i (j + 1) ≠ mtxAt matrix i j then w_del else 0)]
   else []) ++
  (if i < matrix.length - 1 then
    [((i + 1, j),
      if mtxAt matrix (i + 1) j ≠ mtxAt matrix i j then w_ins else 0)]
   else []) ++
  (if i < matrix.length - 1 ∧ j < (matrix.getD 0 []).length - 1 ∧
      mtxAt matrix (i + 1) (j + 1) = mtxAt matrix i j then
    [((i + 1, j + 1), 0)]
   else [])

/-- `mtx2graph` (scapplier.py lines 776-839) as an association list in node
insertion order (row-major), each node paired with its ordered edge list. -/
def mtx2graph (matrix : List (List Nat)) (w_del w_ins : Nat) :
    List ((Nat × Nat) × List ((Nat × Nat) × Nat)) :=
  (List.range matrix.length).flatMap (fun i =>
    (List.range ((matrix.getD 0 []).length)).map (fun j =>
      ((i, j), edgesAt matrix w_del w_ins i j)))

/-- The graph has a diagonal edge from `(i, j)` to `(i+1, j+1)`. -/
def hasDiagEdge (g : List ((Nat × Nat) × List ((Nat × Nat) × Nat)))
    (i j : Nat) : Prop :=
  ∃ es w, ((i, j), es) ∈ g ∧ ((i + 1, j + 1), w) ∈ es

/-! ### `dijkstra` (scapplier.py lines 841-919) -/

/-- Lookup in an association list (first binding wins), modelling Python
dict access. -/
def assocLookup {α β : Type} [DecidableEq α] :
    List (α × β) → α → Option β
  | [], _ => none
  | (k2, v) :: rest, k => if k2 = k then some v else assocLookup rest k

/-- Lexicographic comparison of `(distance, (row, col))` heap entries,
mirroring Python tuple comparison in `heapq`. -/
def pqLe (a b : Nat × (Nat × Nat)) : Bool :=
  decide (a.1 < b.1 ∨ (a.1 = b.1 ∧ (a.2.1 < b.2.1 ∨
    (a.2.1 = b.2.1 ∧ a.2.2 ≤ b.2.2))))

/-- `heapq.heappush`: insertion into a sorted list.  A binary heap and a
sorted list pop the same (unique minimal) element at every step under the
total lexicographic order, so the pop sequence agrees with Python's. -/
def pqInsert (x : Nat × (Nat × Nat)) :
    List (Nat × (Nat × Nat)) → List (Nat × (Nat × Nat))
  | [] => [x]
  | y :: rest => if pqLe x y then x :: y :: rest else y :: pqInsert x rest

/-- The relaxation loop `for neighbor, weight in graph[current_node]`
(scapplier.py lines 902-908), in the stored edge order.  `dist` entries
absent from the association list stand for `float("inf")`. -/
def relaxAll (u : Nat × Nat) (d : Nat) :
    List ((Nat × Nat) × Nat) →
    List ((Nat × Nat) × Nat) × List ((Nat × Nat) × (Nat × Nat)) ×
      List (Nat × (Nat × Nat)) →
    List ((Nat × Nat) × Nat) × List ((Nat × Nat) × (Nat × Nat)) ×
      List (Nat × (Nat × Nat))
  | [], st => st
  | (v, w) :: rest, (dist, path, queue) =>
    let nd := d + w
    if (match assocLookup dist v with
        | none => true
        | some dv => nd < dv) then
      relaxAll u d rest ((v, nd) :: dist, (v, u) :: path, pqInsert (nd, v) queue)
    else
      relaxAll u d rest (dist, path, queue)

/-- The main `while queue` loop of `dijkstra` (scapplier.py lines 896-908):
pop the minimal entry, skip it when stale, otherwise relax all outgoing
edges.  Fuel bounds the number of iterations; `none` means it ran out. -/
def dijkstraLoop (graph : List ((Nat × Nat) × List ((Nat × Nat) × Nat))) :
    Nat → List ((Nat × Nat) × Nat) → List ((Nat × Nat) × (Nat × Nat)) →
    List (Nat × (Nat × Nat)) →
    Option (List ((Nat × Nat) × (Nat × Nat)))
  | 0, _, _, _ => none
  | _ + 1, _, path, [] => some path
  | fuel + 1, dist, path, (d, u) :: rest =>
    if (match assocLookup dist u with
        | none => false
        | some du => d > du) then
      dijkstraLoop graph fuel dist path rest
    else
      match relaxAll u d ((assocLookup graph u).getD []) (dist, path, rest) with
      | (dist2, path2, queue2) => dijkstraLoop graph fuel dist2 path2 queue2

/-- The path reconstruction loop of `dijkstra` (scapplier.py lines 913-917),
already accumulated in start-to-end order (Python builds the reversed list
and reverses it at the end). -/
def backtrack (start : Nat × Nat)
    (path : List ((Nat × Nat) × (Nat × Nat))) :
    Nat → (Nat × Nat) → List (Nat × Nat) → Option (List (Nat × Nat))
  | 0, _, _ => none
  | fuel + 1, cur, acc =>
    if cur = start then some (cur :: acc)
    else
      match assocLookup path cur with
      | none => none
      | some prev => backtrack start path fuel prev (cur :: acc)

/-- `dijkstra` (scapplier.py lines 841-919).  Returns `none` both for
Python's `None` (end node unreached) and for fuel exhaustion; the concrete
evaluations below always return `some`, where the fuel bound is irrelevant
and the run mirrors Python's step by step. -/
def dijkstra (graph : List ((Nat × Nat) × List ((Nat × Nat) × Nat)))
    (start fin : Nat × Nat) : Option (List (Nat × Nat)) :=
  match dijkstraLoop graph 1000000 [(start, 0)] [] [(0, start)] with
  | none => none
  | some path =>
    match assocLookup path fin with
    | none => none
    | some _ => backtrack start path 1000000 fin []

/-! ### Edit operations (scapplier.py lines 501-549, 574-662) -/

/-- Human-readable edit operations.  The Python code passes them around as
strings (`"keep x"`, `"delete x"`, `"insert x"`, `"substitute x by y"`) and
dispatches on substrings; since every op produced by `tuples2editops` has
one of these four shapes with single-symbol arguments, they are embedded as
a four-constructor type.  `substitute a b` is Python's
`"substitute a by b"`. -/
inductive EditOp where
  | keep : String → EditOp
  | delete : String → EditOp
  | insert : String → EditOp
  | substitute : String → String → EditOp
deriving DecidableEq, Repr

/-- `substitute_operations` (scapplier.py lines 627-662): merge each
adjacent `delete x, insert y` into `substitute x by y` and each adjacent
`insert x, delete y` into `substitute y by x`, scanning left to right and
continuing after the merged element. -/
def substitute_operations : List EditOp → List EditOp
  | EditOp.delete x :: EditOp.insert y :: rest =>
    EditOp.substitute x y :: substitute_operations rest
  | EditOp.insert x :: EditOp.delete y :: rest =>
    EditOp.substitute y x :: substitute_operations rest
  | op :: rest => op :: substitute_operations rest
  | [] => []

/-- `tuples2editops` (scapplier.py lines 574-625): convert consecutive grid
cells into `keep` / `delete` / `insert` tags.  `op_list[i][0]` is the row
(index into `s2`, the second string, prefixed by `#`), `op_list[i][1]` the
column (index into `s1`); a diagonal step keeps `s1`'s symbol, a horizontal
step deletes it, a vertical step inserts `s2`'s symbol, and any other step
appends nothing. -/
def editopsRaw (s1h s2h : List Char) : List (Nat × Nat) → List EditOp
  | p1 :: p2 :: rest =>
    (if (p2.1 : Int) - p1.1 = 1 ∧ (p2.2 : Int) - p1.2 = 1 then
      [EditOp.keep (s1h.getD p2.2 '#').toString]
     else if (p2.1 : Int) - p1.1 = 0 ∧ (p2.2 : Int) - p1.2 = 1 then
      [EditOp.delete (s1h.getD p2.2 '#').toString]
     else if (p2.1 : Int) - p1.1 = 1 ∧ (p2.2 : Int) - p1.2 = 0 then
      [EditOp.insert (s2h.getD p2.1 '#').toString]
     else []) ++ editopsRaw s1h s2h (p2 :: rest)
  | _ => []

/-- `tuples2editops` proper: prefix `#` to both strings, walk the path,
then merge adjacent delete/insert pairs. -/
def tuples2editops (op_list : List (Nat × Nat)) (s1 s2 : List Char) :
    List EditOp :=
  substitute_operations (editopsRaw ('#' :: s1) ('#' :: s2) op_list)

/-- The body of `apply_edit`'s loop (scapplier.py lines 536-549), with the
input iterator as an explicit remaining-suffix list.  `i` is the current
op index and `total` the number of ops; `none` models `StopIteration`
escaping from `next(letter)` on an exhausted iterator. -/
def applyEditLoop (total : Nat) :
    List EditOp → Nat → List String → List String →
    Option (List String)
  | [], _, out, _ => some out
  | op :: rest, i, out, rem =>
    match op with
    | EditOp.keep _ =>
      match rem with
      | [] => none
      | x :: rem2 => applyEditLoop total rest (i + 1) (out ++ [x]) rem2
    | EditOp.delete _ =>
      match rem with
      | [] => none
      | _ :: rem2 => applyEditLoop total rest (i + 1) out rem2
    | EditOp.substitute _ b =>
      if i ≠ total - 1 then
        match rem with
        | [] => none
        | _ :: rem2 => applyEditLoop total rest (i + 1) (out ++ [b]) rem2
      else applyEditLoop total rest (i + 1) (out ++ [b]) rem
    | EditOp.insert c => applyEditLoop total rest (i + 1) (out ++ [c]) rem

/-- `apply_edit` (scapplier.py lines 501-549): replay an edit script onto a
word; `keep` copies the next input symbol, `delete` consumes it silently,
`substitute` emits its replacement (consuming input except on the very last
op), `insert` emits without consuming. -/
def apply_edit (word : List String) (editops : List EditOp) :
    Option (List String) :=
  applyEditLoop editops.length editops 0 [] word

/-! ### `Adrc.get_closest_phonotactics` and `Adrc.repair_phonotactics`
(scapplier.py lines 213-250, 373-400) -/

/-- Python tuple comparison on `(distance, structure)` pairs used by
`min(dist_and_strucs)`. -/
def distPairLe (a b : Int × String) : Prop :=
  a.1 < b.1 ∨ (a.1 = b.1 ∧ a.2 ≤ b.2)

instance (a b : Int × String) : Decidable (distPairLe a b) := by
  unfold distPairLe
  infer_instance

/-- `min` over the `(distance, structure)` list, first minimum wins
(Python's `min` keeps the earliest of equal elements). -/
def minDistPair (x : Int × String) : List (Int × String) → Int × String
  | [] => x
  | y :: rest =>
    let m := minDistPair y rest
    if distPairLe x m then x else m

/-- `Adrc.get_closest_phonotactics` (scapplier.py lines 373-400): the
inventory entry with minimal `edit_distance_with2ops` (default weights
100/49), ties broken by the lexicographically smaller string per Python
tuple comparison; `none` on an empty inventory (Python: `ValueError`). -/
def get_closest_phonotactics (prosodic_inventory : List String)
    (struc : String) : Option String :=
  match prosodic_inventory.map
      (fun i => (edit_distance_with2ops struc.data i.data 100 49, i)) with
  | [] => none
  | x :: rest => some (minDistPair x rest).2

/-- `Adrc.repair_phonotactics` (scapplier.py lines 213-250): look the
prosody up in `self.sc[3]` (falling back to the closest inventory
structure), compute the cheapest edit path between the two shape strings,
and replay it onto the phoneme list.  `none` models any uncaught Python
exception on the way (empty correspondence list, unreachable end node,
iterator exhaustion). -/
def repair_phonotactics (sc3 : String → Option (List String))
    (prosodic_inventory : List String) (ipalist : List String)
    (prosody : String) : Option (List String) :=
  let predictedOpt :=
    match sc3 prosody with
    | some l => l.head?
    | none => get_closest_phonotactics prosodic_inventory prosody
  match predictedOpt with
  | none => none
  | some predicted =>
    let matrix := get_mtx prosody.data predicted.data
    let graph := mtx2graph matrix 100 49
    let fin := (matrix.length - 1, (matrix.getD 0 []).length - 1)
    match dijkstra graph (0, 0) fin with
    | none => none
    | some path =>
      apply_edit ipalist (tuples2editops path prosody.data predicted.data)

/-- `Etym.word2struc` (helpers.py lines 413-435): the prosodic profile of a
tokenised word, `phon2cv` standing for `self.phon2cv.get(·, "")`. -/
def word2struc (phon2cv : String → String) (ipa_in : List String) : String :=
  String.join (ipa_in.map phon2cv)

theorem mem_edgesAt_diag (matrix : List (List Nat)) (w_del w_ins : Nat)
    (i j : Nat) (w : Nat) :
    ((i + 1, j + 1), w) ∈ edgesAt matrix w_del w_ins i j ↔
      (i < matrix.length - 1 ∧ j < (matrix.getD 0 []).length - 1 ∧
        mtxAt matrix (i + 1) (j + 1) = mtxAt matrix i j) ∧ w = 0 := by
  unfold edgesAt
  constructor
  · intro h
    rcases List.mem_append.mp h with h2 | h2
    · rcases List.mem_append.mp h2 with h3 | h3
      · by_cases hc : j < (matrix.getD 0 []).length - 1
        · rw [if_pos hc] at h3
          rcases List.mem_singleton.mp h3 with h4
          exact absurd (congrArg (fun p => p.1.1) h4) (by simp)
        · rw [if_neg hc] at h3
          simp at h3
      · by_cases hc : i < matrix.length - 1
        · rw [if_pos hc] at h3
          rcases List.mem_singleton.mp h3 with h4
          exact absurd (congrArg (fun p => p.1.2) h4) (by simp)
        · rw [if_neg hc] at h3
          simp at h3
    · by_cases hc : i < matrix.length - 1 ∧
          j < (matrix.getD 0 []).length - 1 ∧
          mtxAt matrix (i + 1) (j + 1) = mtxAt matrix i j
      · rw [if_pos hc] at h2
        rcases List.mem_singleton.mp h2 with h4
        exact ⟨hc, congrArg (fun p => p.2) h4⟩
      · rw [if_neg hc] at h2
        simp at h2
  · rintro ⟨hc, rfl⟩
    apply List.mem_append.mpr
    right
    rw [if_pos hc]
    exact List.mem_singleton.mpr rfl

theorem mem_mtx2graph (matrix : List (List Nat)) (w_del w_ins : Nat)
    (i j : Nat) (es : List ((Nat × Nat) × Nat)) :
    ((i, j), es) ∈ mtx2graph matrix w_del w_ins ↔
      i < matrix.length ∧ j < (matrix.getD 0 []).length ∧
      es = edgesAt matrix w_del w_ins i j := by
  unfold mtx2graph
  rw [List.mem_flatMap]
  constructor
  · rintro ⟨i2, hi2, hmem⟩
    rw [List.mem_map] at hmem
    obtain ⟨j2, hj2, heq⟩ := hmem
    have e1 : i2 = i := congrArg (fun p => p.1.1) heq
    have e2 : j2 = j := congrArg (fun p => p.1.2) heq
    have e3 : edgesAt matrix w_del w_ins i2 j2 = es :=
      congrArg (fun p => p.2) heq
    subst e1
    subst e2
    exact ⟨List.mem_range.mp hi2, List.mem_range.mp hj2, e3.symm⟩
  · rintro ⟨hi, hj, rfl⟩
    exact ⟨i, List.mem_range.mpr hi,
      List.mem_map.mpr ⟨j, List.mem_range.mpr hj, rfl⟩⟩

/-- Claim C6 (amended): the graph produced by `mtx2graph` has a diagonal
edge from `(i, j)` to `(i+1, j+1)` if and only if both cells exist and the
matrix shows no cost change between them, `matrix[i+1][j+1] == matrix[i][j]`.
The source checks only the matrix cells; it never compares the symbols of
the two sequences, so the symbol-equality condition of the original claim is
not part of the criterion. -/
theorem C6_mtx2graph_diagonal_iff (matrix : List (List Nat))
    (w_del w_ins : Nat) (i j : Nat) :
    hasDiagEdge (mtx2graph matrix w_del w_ins) i j ↔
      i < matrix.length - 1 ∧ j < (matrix.getD 0 []).length - 1 ∧
      mtxAt matrix (i + 1) (j + 1) = mtxAt matrix i j := by
  constructor
  · rintro ⟨es, w, hmem, hedge⟩
    rw [mem_mtx2graph] at hmem
    obtain ⟨hi, hj, rfl⟩ := hmem
    exact ((mem_edgesAt_diag matrix w_del w_ins i j w).mp hedge).1
  · intro hc
    refine ⟨edgesAt matrix w_del w_ins i j, 0, ?_, ?_⟩
    · rw [mem_mtx2graph]
      exact ⟨by omega, by omega, rfl⟩
    · exact (mem_edgesAt_diag matrix w_del w_ins i j 0).mpr ⟨hc, rfl⟩

/-- Counterexample to claim C6 as stated: in the matrix built by `get_mtx`
for target `"ab"` and source `"ba"`, the graph has a diagonal edge from
`(1, 1)` to `(2, 2)` (the two cells are equal) although the corresponding
symbols `target[1] = 'b'` and `source[1] = 'a'` differ, refuting the
claimed "and the corresponding symbols match" part of the criterion. -/
theorem C6_counterexample :
    ¬ (hasDiagEdge (mtx2graph (get_mtx ['a', 'b'] ['b', 'a']) 100 49) 1 1 ↔
      (mtxAt (get_mtx ['a', 'b'] ['b', 'a']) 2 2 =
        mtxAt (get_mtx ['a', 'b'] ['b', 'a']) 1 1 ∧
       (['a', 'b'] : List Char).getD 1 '#' =
        (['b', 'a'] : List Char).getD 1 '#')) := by
  intro h
  have hedge : hasDiagEdge
      (mtx2graph (get_mtx ['a', 'b'] ['b', 'a']) 100 49) 1 1 :=
    ⟨edgesAt (get_mtx ['a', 'b'] ['b', 'a']) 100 49 1 1, 0,
     by decide, by decide⟩
  exact absurd (h.mp hedge).2 (by decide)

/-! ### The correspondence miner `Etym.get_sound_corresp` /
`Etym.get_phonotactics_corresp` (src/loanpy/qfysc.py lines 150-397).

The pandas pipeline is embedded over the flattened list of
`(key, value, cognate-id)` rows obtained after `self.align` has produced one
aligned table per word pair.  pandas `groupby` sorts the group keys
lexicographically; that only affects the insertion order of the resulting
Python dicts, never the key-value mapping, so group keys are kept here in
first-occurrence order. -/

/-- `adapt` versus `reconstruct` operating mode (`Qfy.mode`). -/
inductive Mode where
  | adapt : Mode
  | reconstruct : Mode
deriving DecidableEq, Repr

/-- First-occurrence deduplication: the iteration order of
`Counter` keys and of `dict.fromkeys`. -/
def uniqFirst {α : Type} [DecidableEq α] (l : List α) : List α :=
  l.foldl (fun acc x => if x ∈ acc then acc else acc ++ [x]) []

theorem mem_uniqFirst_aux {α : Type} [DecidableEq α] (l : List α) :
    ∀ (acc : List α) (x : α),
    x ∈ l.foldl (fun acc x => if x ∈ acc then acc else acc ++ [x]) acc ↔
      x ∈ acc ∨ x ∈ l := by
  induction l with
  | nil => intro acc x; simp
  | cons y ys ih =>
    intro acc x
    simp only [List.foldl_cons]
    rw [ih]
    by_cases hy : y ∈ acc
    · rw [if_pos hy]
      constructor
      · rintro (h | h)
        · exact Or.inl h
        · exact Or.inr (List.mem_cons_of_mem _ h)
      · rintro (h | h)
        · exact Or.inl h
        · rcases List.mem_cons.mp h with rfl | h2
          · exact Or.inl hy
          · exact Or.inr h2
    · rw [if_neg hy]
      constructor
      · rintro (h | h)
        · rcases List.mem_append.mp h with h2 | h2
          · exact Or.inl h2
          · exact Or.inr (List.mem_cons.mpr
              (Or.inl (List.mem_singleton.mp h2)))
        · exact Or.inr (List.mem_cons_of_mem _ h)
      · rintro (h | h)
        · exact Or.inl (List.mem_append.mpr (Or.inl h))
        · rcases List.mem_cons.mp h with rfl | h2
          · exact Or.inl (List.mem_append.mpr (Or.inr (by simp)))
          · exact Or.inr h2

theorem mem_uniqFirst {α : Type} [DecidableEq α] (l : List α) (x : α) :
    x ∈ uniqFirst l ↔ x ∈ l := by
  unfold uniqFirst
  rw [mem_uniqFirst_aux]
  simp

/-- Number of occurrences of `x` in `l` (`Counter` count / groupby size). -/
def countEq {α : Type} [DecidableEq α] (l : List α) (x : α) : Nat :=
  (l.filter (fun y => y = x)).length

/-- Stable descending insertion by occurrence count: an element is placed
after all elements of at least its count, matching `Counter.most_common`
(count-descending, ties in first-insertion order). -/
def insertByCount (l0 : List String) (x : String) :
    List String → List String
  | [] => [x]
  | y :: rest =>
    if countEq l0 y < countEq l0 x then x :: y :: rest
    else y :: insertByCount l0 x rest

/-- `[n[0] for n in Counter(x).most_common()]` (qfysc.py lines 252-253):
the distinct values ranked by frequency, most frequent first, ties by first
occurrence. -/
def mostCommon (l : List String) : List String :=
  (uniqFirst l).foldl (fun acc x => insertByCount l x acc) []

/-- Ascending insertion sort on cognate-set ids. -/
def insertSorted (x : Nat) : List Nat → List Nat
  | [] => [x]
  | y :: rest => if x ≤ y then x :: y :: rest else y :: insertSorted x rest

/-- `sorted(set(x))` (qfysc.py line 258). -/
def sortedSet (l : List Nat) : List Nat := (uniqFirst l).foldr insertSorted []

/-- The connector-joined `soundchange` column (qfysc.py lines 239-248):
`vals + connector + keys` when adapting, `keys + connector + vals` when
reconstructing. -/
def soundchangeKey (mode : Mode) (connector : String) (k v : String) :
    String :=
  match mode with
  | Mode.adapt => v ++ connector ++ k
  | Mode.reconstruct => k ++ connector ++ v

/-- The flattened data-frame rows `(keys, vals, wordchange)` produced by the
alignment loop of `get_sound_corresp` (qfysc.py lines 226-234). -/
def dfRows (aligned : List (List (String × String) × Nat)) :
    List (String × String × Nat) :=
  aligned.flatMap (fun p => p.1.map (fun kv => (kv.1, kv.2, p.2)))

/-- The `vfb` placeholder-vowel insertion block (qfysc.py lines 265-278):
when `vfb` is set, append the "any vowel" placeholder to every value list
containing a vowel, then (inside that branch, re-reading the updated list)
the front and back placeholders. -/
def applyVfb (phon2cv vow2fb : String → String)
    (vfb : Option (String × String × String)) (vals : List String) :
    List String :=
  match vfb with
  | none => vals
  | some (v0, v1, v2) =>
    if (vals.any fun j => phon2cv j = "V") ∧ v0 ∉ vals then
      let vals1 := vals ++ [v0]
      let vals2 :=
        if (vals1.any fun j => vow2fb j = "F") ∧ v1 ∉ vals1
        then vals1 ++ [v1] else vals1
      if (vals2.any fun j => vow2fb j = "B") ∧ v2 ∉ vals2
      then vals2 ++ [v2] else vals2
    else vals

/-- The `"C"`/`"V"` to `""` rewrite of adapt mode (qfysc.py lines 282-285). -/
def stripCV (vals : List String) : List String :=
  vals.map (fun j => if j = "C" ∨ j = "V" then "" else j)

/-- The merge with the heuristic fallback table (qfysc.py lines 286-296):
keys present in both get the concatenated, first-occurrence-deduplicated
value lists; keys only in `scdictbase` are added as they are. -/
def mergeBase (scdictbase : List (String × List String))
    (sc : List (String × List String)) : List (String × List String) :=
  (sc.map (fun kv =>
    match assocLookup scdictbase kv.1 with
    | some bv => (kv.1, uniqFirst (kv.2 ++ bv))
    | none => kv)) ++
  scdictbase.filter (fun kv => (assocLookup sc kv.1).isNone)

/-- `Etym.get_phonotactics_corresp` (qfysc.py lines 309-397), from the
`(ProsodicStructure_src, ProsodicStructure_tgt, Cognacy)` rows.
`rank_closest` stands for `self.rank_closest_phonotactics`, which returns a
`", "`-joined ranking of the prosodic inventory (inherited from
loanpy.helpers, outside this module). -/
def get_phonotactics_corresp (mode : Mode) (connector : String)
    (rank_closest : String → List String)
    (rows : List (String × String × Nat)) :
    List (String × List String) × List (String × Nat) ×
      List (String × List Nat) :=
  let keys := uniqFirst (rows.map (fun r => r.1))
  let scKeys := uniqFirst
    (rows.map (fun r => soundchangeKey mode connector r.1 r.2.1))
  let scdict := keys.map (fun k =>
    (k, mostCommon ((rows.filter (fun r => r.1 = k)).map (fun r => r.2.1))))
  let sedict := scKeys.map (fun c =>
    (c, (rows.filter
      (fun r => soundchangeKey mode connector r.1 r.2.1 = c)).length))
  let edict := scKeys.map (fun c =>
    (c, (rows.filter
      (fun r => soundchangeKey mode connector r.1 r.2.1 = c)).map
        (fun r => r.2.2)))
  let scdict2 := scdict.map (fun kv =>
    (kv.1, uniqFirst (kv.2 ++ rank_closest kv.1)))
  (scdict2, sedict, edict)

/-- The six dictionaries of `Etym.get_sound_corresp` (qfysc.py lines
150-307): sound correspondences, their counts, their cognate sets, and the
phonotactic triple (empty in reconstruct mode). -/
structure SoundCorresp where
  scdict : List (String × List String)
  sedict : List (String × Nat)
  edict : List (String × List Nat)
  scdictPht : List (String × List String)
  sedictPht : List (String × Nat)
  edictPht : List (String × List Nat)

/-- `Etym.get_sound_corresp` (qfysc.py lines 150-307) over the flattened
aligned rows: group by key for `scdict` (values ranked by frequency), group
by the connector-joined `soundchange` string for `sedict` (occurrence
count) and `edict` (sorted deduplicated cognate sets); in adapt mode apply
the `vfb` insertion, rewrite `"C"`/`"V"` values to `""`, merge with
`scdictbase`, and mine the phonotactic correspondences. -/
def get_sound_corresp (mode : Mode) (connector phtConnector : String)
    (scdictbase : List (String × List String))
    (vfb : Option (String × String × String))
    (phon2cv vow2fb : String → String)
    (rank_closest : String → List String)
    (aligned : List (List (String × String) × Nat))
    (phtRows : List (String × String × Nat)) : SoundCorresp :=
  let rows := dfRows aligned
  let keys := uniqFirst (rows.map (fun r => r.1))
  let scKeys := uniqFirst
    (rows.map (fun r => soundchangeKey mode connector r.1 r.2.1))
  let scdict0 := keys.map (fun k =>
    (k, mostCommon ((rows.filter (fun r => r.1 = k)).map (fun r => r.2.1))))
  let sedict := scKeys.map (fun c =>
    (c, (rows.filter
      (fun r => soundchangeKey mode connector r.1 r.2.1 = c)).length))
  let edict := scKeys.map (fun c =>
    (c, sortedSet ((rows.filter
      (fun r => soundchangeKey mode connector r.1 r.2.1 = c)).map
        (fun r => r.2.2))))
  let scdict1 := scdict0.map (fun kv =>
    (kv.1, applyVfb phon2cv vow2fb vfb kv.2))
  match mode with
  | Mode.adapt =>
    let scdict2 := mergeBase scdictbase
      (scdict1.map (fun kv => (kv.1, stripCV kv.2)))
    let pht := get_phonotactics_corresp Mode.adapt phtConnector
      rank_closest phtRows
    ⟨scdict2, sedict, edict, pht.1, pht.2.1, pht.2.2⟩
  | Mode.reconstruct =>
    ⟨scdict1, sedict, edict, [], [], []⟩

/-- Claim C7 (amended): in both modes, `sedict` and `edict` have exactly
the same key list (both tiers: sound and phonotactic correspondences), and
every `scdict` key attested in the aligned data has a matching
connector-joined entry in `sedict`.  Keys contributed only by the heuristic
fallback table `scdictbase` during the adapt-mode merge carry no `sedict`
entry, which is what the counterexample below exhibits. -/
theorem C7_miner_key_sets (mode : Mode) (connector phtConnector : String)
    (scdictbase : List (String × List String))
    (vfb : Option (String × String × String))
    (phon2cv vow2fb : String → String)
    (rank_closest : String → List String)
    (aligned : List (List (String × String) × Nat))
    (phtRows : List (String × String × Nat)) :
    ((get_sound_corresp mode connector phtConnector scdictbase vfb phon2cv
        vow2fb rank_closest aligned phtRows).sedict.map (fun kv => kv.1)) =
      ((get_sound_corresp mode connector phtConnector scdictbase vfb phon2cv
        vow2fb rank_closest aligned phtRows).edict.map (fun kv => kv.1)) ∧
    ((get_sound_corresp mode connector phtConnector scdictbase vfb phon2cv
        vow2fb rank_closest aligned phtRows).sedictPht.map (fun kv => kv.1)) =
      ((get_sound_corresp mode connector phtConnector scdictbase vfb phon2cv
        vow2fb rank_closest aligned phtRows).edictPht.map (fun kv => kv.1)) ∧
    (∀ k ∈ (dfRows aligned).map (fun r => r.1),
      ∃ v, soundchangeKey mode connector k v ∈
        ((get_sound_corresp mode connector phtConnector scdictbase vfb
          phon2cv vow2fb rank_closest aligned phtRows).sedict.map
            (fun kv => kv.1))) := by
  have hpair : ∀ {β : Type} (l : List String) (f : String → β),
      (l.map (fun c => (c, f c))).map (fun kv => kv.1) = l := by
    intro β l f
    induction l with
    | nil => rfl
    | cons x xs ih => simp only [List.map_cons, ih]
  have hkeys : ∀ m : Mode,
      ((get_sound_corresp m connector phtConnector scdictbase vfb phon2cv
        vow2fb rank_closest aligned phtRows).sedict.map (fun kv => kv.1)) =
      uniqFirst ((dfRows aligned).map
        (fun r => soundchangeKey m connector r.1 r.2.1)) := by
    intro m
    cases m <;>
      (simp only [get_sound_corresp]
       rw [hpair])
  refine ⟨?_, ?_, ?_⟩
  · cases mode <;>
      (simp only [get_sound_corresp]
       rw [hpair, hpair])
  · cases mode
    · simp only [get_sound_corresp, get_phonotactics_corresp]
      rw [hpair, hpair]
    · rfl
  · intro k hk
    rw [List.mem_map] at hk
    obtain ⟨r, hr, hr1⟩ := hk
    refine ⟨r.2.1, ?_⟩
    rw [hkeys mode, mem_uniqFirst, List.mem_map]
    exact ⟨r, hr, by rw [hr1]⟩

/-- Counterexample to claim C7 as stated: mining the single aligned pair
`a -> x` in adapt mode with the heuristic fallback `scdictbase = b -> [p]`
yields `scdict` with keys `a` and `b` but `sedict = ("x<a", 1)` alone, so
the `scdict` key `b` has no connector-joined entry in `sedict`. -/
theorem C7_counterexample :
    ¬ (∀ k ∈ ((get_sound_corresp Mode.adapt "<" "<" [("b", ["p"])] none
        (fun _ => "") (fun _ => "") (fun _ => [])
        [([("a", "x")], 1)] []).scdict.map (fun kv => kv.1)),
      ∃ v, soundchangeKey Mode.adapt "<" k v ∈
        ((get_sound_corresp Mode.adapt "<" "<" [("b", ["p"])] none
          (fun _ => "") (fun _ => "") (fun _ => [])
          [([("a", "x")], 1)] []).sedict.map (fun kv => kv.1))) := by
  intro h
  have hb : "b" ∈ ((get_sound_corresp Mode.adapt "<" "<" [("b", ["p"])] none
      (fun _ => "") (fun _ => "") (fun _ => [])
      [([("a", "x")], 1)] []).scdict.map (fun kv => kv.1)) := by
    decide
  obtain ⟨v, hv⟩ := h "b" hb
  have hkeys : ((get_sound_corresp Mode.adapt "<" "<" [("b", ["p"])] none
      (fun _ => "") (fun _ => "") (fun _ => [])
      [([("a", "x")], 1)] []).sedict.map (fun kv => kv.1)) = ["x<a"] := by
    decide
  rw [hkeys] at hv
  have hv2 : v ++ "<" ++ "b" = "x<a" := List.mem_singleton.mp hv
  have hlast := congrArg (fun s => s.data.getLast?) hv2
  have hdata : (v ++ "<" ++ "b").data = (v ++ "<").data ++ ['b'] := rfl
  simp only [hdata, List.getLast?_concat] at hlast
  exact absurd hlast (by decide)

/-- Witness for C7 at the qfysc doctest data: the data key `"a"` has the
connector-joined entry `"y<a"` in `sedict`. -/
theorem C7_witness :
    ∃ v, soundchangeKey Mode.adapt "<" "a" v ∈
      ((get_sound_corresp Mode.adapt "<" "<" [] none (fun _ => "")
        (fun _ => "") (fun _ => ["CVC"])
        [([("b", "C"), ("C", "x"), ("a", "y"), ("c", "z")], 1)]
        [("VCC", "CVC", 1)]).sedict.map (fun kv => kv.1)) :=
  (C7_miner_key_sets Mode.adapt "<" "<" [] none (fun _ => "")
    (fun _ => "") (fun _ => ["CVC"])
    [([("b", "C"), ("C", "x"), ("a", "y"), ("c", "z")], 1)]
    [("VCC", "CVC", 1)]).2.2 "a" (by decide)


/-! ### Towards claim C5: the `get_mtx` matrix in terms of LCS

`mtxCell target source r c` equals `r + c - 2 * lcs(source[:r], target[:c])`,
with the longest-common-subsequence length expressed through `Lmat`. -/

theorem lcsF_le_left (s1 s2 : List Char) : lcsF s1 s2 ≤ s1.length := by
  obtain ⟨s, h1, _, h3⟩ := lcsF_exists_cs s1 s2
  rw [← h3]
  exact h1.length_le

theorem lcsF_le_right (s1 s2 : List Char) : lcsF s1 s2 ≤ s2.length := by
  obtain ⟨s, _, h2, h3⟩ := lcsF_exists_cs s1 s2
  rw [← h3]
  exact h2.length_le

theorem lcsF_cons_left_ge (a : Char) (s1 s2 : List Char) :
    lcsF s1 s2 ≤ lcsF (a :: s1) s2 := by
  obtain ⟨s, h1, h2, h3⟩ := lcsF_exists_cs s1 s2
  rw [← h3]
  exact lcsF_maximal (a :: s1) s2 s (List.Sublist.cons a h1) h2

theorem lcsF_cons_left_le (a : Char) (s1 s2 : List Char) :
    lcsF (a :: s1) s2 ≤ lcsF s1 s2 + 1 := by
  obtain ⟨s, h1, h2, h3⟩ := lcsF_exists_cs (a :: s1) s2
  rw [← h3]
  cases h1 with
  | cons _ h1d => exact le_trans (lcsF_maximal s1 s2 s h1d h2) (Nat.le_succ _)
  | cons₂ _ h1d =>
    rename_i t
    have ht2 : List.Sublist t s2 :=
      List.Sublist.trans (List.sublist_cons_self a t) h2
    simp only [List.length_cons]
    exact Nat.succ_le_succ (lcsF_maximal s1 s2 t h1d ht2)

theorem lcsF_cons_right_ge (b : Char) (s1 s2 : List Char) :
    lcsF s1 s2 ≤ lcsF s1 (b :: s2) := by
  rw [lcsF_comm s1 s2, lcsF_comm s1 (b :: s2)]
  exact lcsF_cons_left_ge b s2 s1

theorem lcsF_cons_right_le (b : Char) (s1 s2 : List Char) :
    lcsF s1 (b :: s2) ≤ lcsF s1 s2 + 1 := by
  rw [lcsF_comm s1 s2, lcsF_comm s1 (b :: s2)]
  exact lcsF_cons_left_le b s2 s1

theorem Lmat_le_fst (s1 s2 : List Char) (r c : Nat) (hr : r ≤ s1.length)
    (hc : c ≤ s2.length) : Lmat s1 s2 r c ≤ r := by
  rw [Lmat_eq_lcsF s1 s2 r c hr hc]
  have h := lcsF_le_left ((s1.take r).reverse) ((s2.take c).reverse)
  rwa [List.length_reverse, List.length_take, min_eq_left hr] at h

theorem Lmat_le_snd (s1 s2 : List Char) (r c : Nat) (hr : r ≤ s1.length)
    (hc : c ≤ s2.length) : Lmat s1 s2 r c ≤ c := by
  rw [Lmat_eq_lcsF s1 s2 r c hr hc]
  have h := lcsF_le_right ((s1.take r).reverse) ((s2.take c).reverse)
  rwa [List.length_reverse, List.length_take, min_eq_left hc] at h

theorem Lmat_right_step (s1 s2 : List Char) (r c : Nat) (hr : r ≤ s1.length)
    (hc : c < s2.length) :
    Lmat s1 s2 r c ≤ Lmat s1 s2 r (c + 1) ∧
    Lmat s1 s2 r (c + 1) ≤ Lmat s1 s2 r c + 1 := by
  rw [Lmat_eq_lcsF s1 s2 r c hr (by omega),
    Lmat_eq_lcsF s1 s2 r (c + 1) hr (by omega),
    take_succ_reverse s2 c hc]
  exact ⟨lcsF_cons_right_ge _ _ _, lcsF_cons_right_le _ _ _⟩

theorem Lmat_down_step (s1 s2 : List Char) (r c : Nat) (hr : r < s1.length)
    (hc : c ≤ s2.length) :
    Lmat s1 s2 r c ≤ Lmat s1 s2 (r + 1) c ∧
    Lmat s1 s2 (r + 1) c ≤ Lmat s1 s2 r c + 1 := by
  rw [Lmat_eq_lcsF s1 s2 r c (by omega) hc,
    Lmat_eq_lcsF s1 s2 (r + 1) c (by omega) hc,
    take_succ_reverse s1 r hr]
  exact ⟨lcsF_cons_left_ge _ _ _, lcsF_cons_left_le _ _ _⟩

theorem Lmat_zero_fst (s1 s2 : List Char) (c : Nat) : Lmat s1 s2 0 c = 0 := by
  simp [Lmat]

theorem Lmat_zero_snd (s1 s2 : List Char) (r : Nat) : Lmat s1 s2 r 0 = 0 := by
  cases r <;> simp [Lmat]

theorem Lmat_diag_eq (s1 s2 : List Char) (r c : Nat)
    (h : s1.getD r ' ' = s2.getD c ' ') :
    Lmat s1 s2 (r + 1) (c + 1) = Lmat s1 s2 r c + 1 := by
  simp only [Lmat, if_pos h]

theorem Lmat_diag_ne (s1 s2 : List Char) (r c : Nat)
    (h : ¬ s1.getD r ' ' = s2.getD c ' ') :
    Lmat s1 s2 (r + 1) (c + 1) =
      max (Lmat s1 s2 r (c + 1)) (Lmat s1 s2 (r + 1) c) := by
  simp only [Lmat, if_neg h]

/-- The matrix recurrence in LCS form, stated additively to avoid natural
subtraction: `mtxCell target source r c + 2 * lcs(source[:r], target[:c])`
equals `r + c` throughout the table. -/
theorem mtxCell_formula (target source : List Char) :
    ∀ r c, r ≤ source.length → c ≤ target.length →
    mtxCell target source r c + 2 * Lmat source target r c = r + c := by
  intro r c
  induction r, c using mtxCell.induct target source with
  | case1 c =>
    intro _ _
    simp [mtxCell, Lmat_zero_fst]
  | case2 r =>
    intro _ _
    simp [mtxCell, Lmat_zero_snd]
  | case3 r c hne ih1 ih2 =>
    intro hr hc
    have hchars : ¬ source.getD r ' ' = target.getD c ' ' := by
      rw [List.getD_eq_getElem target '#' (by omega),
        List.getD_eq_getElem source '#' (by omega)] at hne
      rw [List.getD_eq_getElem source ' ' (by omega),
        List.getD_eq_getElem target ' ' (by omega)]
      exact fun h => hne (h ▸ rfl)
    have e1 : mtxCell target source (r + 1) (c + 1) =
        min (mtxCell target source r (c + 1))
          (mtxCell target source (r + 1) c) + 1 := by
      simp only [mtxCell, if_pos hne]
    rw [e1, Lmat_diag_ne source target r c hchars]
    have h1 := ih1 (by omega) (by omega)
    have h2 := ih2 (by omega) (by omega)
    omega
  | case4 r c heq ih =>
    intro hr hc
    have hchars : source.getD r ' ' = target.getD c ' ' := by
      have heq2 : target.getD c '#' = source.getD r '#' := not_not.mp heq
      rw [List.getD_eq_getElem target '#' (by omega),
        List.getD_eq_getElem source '#' (by omega)] at heq2
      rw [List.getD_eq_getElem source ' ' (by omega),
        List.getD_eq_getElem target ' ' (by omega)]
      exact heq2.symm
    have e1 : mtxCell target source (r + 1) (c + 1) =
        mtxCell target source r c := by
      simp only [mtxCell, if_neg heq]
    rw [e1, Lmat_diag_eq source target r c hchars]
    have h1 := ih (by omega) (by omega)
    omega

theorem mtxCell_zero_fst (target source : List Char) (c : Nat) :
    mtxCell target source 0 c = c := by
  simp [mtxCell]

theorem mtxCell_zero_snd (target source : List Char) (r : Nat) :
    mtxCell target source r 0 = r := by
  cases r <;> simp [mtxCell]

/-- Each interior row built by `mtxRowAux` matches the `mtxCell`
recurrence cell by cell. -/
theorem mtxRowAux_spec (target source : List Char) (r : Nat)
    (hr : r < source.length) :
    ∀ (ts : List Char) (c0 : Nat) (prev : List Nat) (left : Nat),
    (∀ k, k < ts.length → ts.getD k '#' = target.getD (c0 + k) '#') →
    c0 + ts.length = target.length →
    prev.length = ts.length + 1 →
    (∀ k, k ≤ ts.length → prev.getD k 0 = mtxCell target source r (c0 + k)) →
    left = mtxCell target source (r + 1) c0 →
    (mtxRowAux (source.getD r '#') ts prev left).length = ts.length ∧
    ∀ k, k < ts.length →
      (mtxRowAux (source.getD r '#') ts prev left).getD k 0 =
        mtxCell target source (r + 1) (c0 + 1 + k) := by
  intro ts
  induction ts with
  | nil =>
    intro c0 prev left _ _ _ _ _
    exact ⟨by simp [mtxRowAux], fun k hk => absurd hk (by simp)⟩
  | cons t ts' ih =>
    intro c0 prev left hts hlen hprevlen hprev hleft
    cases prev with
    | nil => simp at hprevlen
    | cons p prest =>
      have hT : t = target.getD c0 '#' := by
        have h := hts 0 (by simp)
        simpa using h
      have hp : p = mtxCell target source r c0 := by
        have h := hprev 0 (by simp)
        simpa using h
      have hp1 : prest.headD 0 = mtxCell target source r (c0 + 1) := by
        have h := hprev 1 (by simp)
        cases prest with
        | nil => simp at hprevlen
        | cons q qrest => simpa using h
      have hunf : mtxCell target source (r + 1) (c0 + 1) =
          if target.getD c0 '#' ≠ source.getD r '#'
          then min (mtxCell target source r (c0 + 1))
                 (mtxCell target source (r + 1) c0) + 1
          else mtxCell target source r c0 := by
        simp only [mtxCell]
      have hvc : (if t ≠ source.getD r '#'
            then min (prest.headD 0) left + 1 else p) =
          mtxCell target source (r + 1) (c0 + 1) := by
        rw [hT, hp, hp1, hleft, hunf]
      have hrow : mtxRowAux (source.getD r '#') (t :: ts') (p :: prest) left =
          (if t ≠ source.getD r '#'
            then min (prest.headD 0) left + 1 else p)
          :: mtxRowAux (source.getD r '#') ts' prest
              (if t ≠ source.getD r '#'
                then min (prest.headD 0) left + 1 else p) := rfl
      have hts' : ∀ k, k < ts'.length →
          ts'.getD k '#' = target.getD (c0 + 1 + k) '#' := by
        intro k hk
        have h := hts (k + 1) (by simp; omega)
        simp only [List.getD_cons_succ] at h
        rw [h]
        congr 1
        omega
      have hlen' : c0 + 1 + ts'.length = target.length := by
        simp at hlen
        omega
      have hprevlen' : prest.length = ts'.length + 1 := by
        simp at hprevlen
        omega
      have hprev' : ∀ k, k ≤ ts'.length →
          prest.getD k 0 = mtxCell target source r (c0 + 1 + k) := by
        intro k hk
        have h := hprev (k + 1) (by simp; omega)
        simp only [List.getD_cons_succ] at h
        rw [h]
        congr 1
        omega
      obtain ⟨ihlen, ihpt⟩ :=
        ih (c0 + 1) prest
          (if t ≠ source.getD r '#'
            then min (prest.headD 0) left + 1 else p)
          hts' hlen' hprevlen' hprev' hvc
      constructor
      · rw [hrow]
        simp only [List.length_cons, ihlen]
      · intro k hk
        rw [hrow]
        cases k with
        | zero =>
          simpa using hvc
        | succ k' =>
          have h := ihpt k' (by simp at hk; omega)
          simp only [List.getD_cons_succ]
          rw [h]
          congr 1
          omega

/-- The rows built by `mtxRows` match the `mtxCell` recurrence. -/
theorem mtxRows_spec (target source : List Char) :
    ∀ (ss : List Char) (r : Nat) (prev : List Nat),
    (∀ k, k < ss.length → ss.getD k '#' = source.getD (r + k) '#') →
    r + ss.length = source.length →
    prev.length = target.length + 1 →
    (∀ k, k ≤ target.length → prev.getD k 0 = mtxCell target source r k) →
    (mtxRows target ss prev).length = ss.length ∧
    ∀ q, q < ss.length →
      ((mtxRows target ss prev).getD q []).length = target.length + 1 ∧
      ∀ k, k ≤ target.length →
        ((mtxRows target ss prev).getD q []).getD k 0 =
          mtxCell target source (r + 1 + q) k := by
  intro ss
  induction ss with
  | nil =>
    intro r prev _ _ _ _
    exact ⟨by simp [mtxRows], fun q hq => absurd hq (by simp)⟩
  | cons s ss' ih =>
    intro r prev hss hsl hprevlen hprev
    have hr : r < source.length := by
      simp at hsl
      omega
    have hs : s = source.getD r '#' := by
      have h := hss 0 (by simp)
      simpa using h
    subst hs
    have hhead : prev.headD 0 = r := by
      have h0 := hprev 0 (by omega)
      rw [mtxCell_zero_snd] at h0
      cases prev with
      | nil => simp at hprevlen
      | cons a rest => simpa using h0
    obtain ⟨ralen, rapt⟩ :=
      mtxRowAux_spec target source r hr target 0 prev (prev.headD 0 + 1)
        (fun k _ => by rw [Nat.zero_add])
        (by omega)
        (by omega)
        (fun k hk => by rw [hprev k hk, Nat.zero_add])
        (by rw [hhead, mtxCell_zero_snd])
    have hnewlen : ((prev.headD 0 + 1) ::
        mtxRowAux (source.getD r '#') target prev (prev.headD 0 + 1)).length =
        target.length + 1 := by
      simp only [List.length_cons, ralen]
    have hnewpt : ∀ k, k ≤ target.length →
        ((prev.headD 0 + 1) ::
          mtxRowAux (source.getD r '#') target prev
            (prev.headD 0 + 1)).getD k 0 =
          mtxCell target source (r + 1) k := by
      intro k hk
      cases k with
      | zero =>
        simp only [List.getD_cons_zero]
        rw [hhead, mtxCell_zero_snd]
      | succ k' =>
        simp only [List.getD_cons_succ]
        have h := rapt k' (by omega)
        rw [h]
        congr 1
        omega
    have hss' : ∀ k, k < ss'.length →
        ss'.getD k '#' = source.getD (r + 1 + k) '#' := by
      intro k hk
      have h := hss (k + 1) (by simp; omega)
      simp only [List.getD_cons_succ] at h
      rw [h]
      congr 1
      omega
    have hsl' : r + 1 + ss'.length = source.length := by
      simp at hsl
      omega
    obtain ⟨ihlen, ihq⟩ :=
      ih (r + 1)
        ((prev.headD 0 + 1) ::
          mtxRowAux (source.getD r '#') target prev (prev.headD 0 + 1))
        hss' hsl' hnewlen hnewpt
    have hunf : mtxRows target (source.getD r '#' :: ss') prev =
        ((prev.headD 0 + 1) ::
          mtxRowAux (source.getD r '#') target prev (prev.headD 0 + 1))
        :: mtxRows target ss'
            ((prev.headD 0 + 1) ::
              mtxRowAux (source.getD r '#') target prev
                (prev.headD 0 + 1)) := rfl
    constructor
    · rw [hunf]
      simp only [List.length_cons, ihlen]
    · intro q hq
      rw [hunf]
      cases q with
      | zero =>
        simp only [List.getD_cons_zero]
        refine ⟨hnewlen, fun k hk => ?_⟩
        rw [hnewpt k hk]
      | succ q' =>
        have h := ihq q' (by simp at hq; omega)
        simp only [List.getD_cons_succ]
        refine ⟨h.1, fun k hk => ?_⟩
        rw [h.2 k hk]
        congr 1
        omega

/-- Bridge: the matrix built by `get_mtx` agrees with the `mtxCell`
recurrence at every in-range index. -/
theorem get_mtx_eq_mtxCell (target source : List Char) (r c : Nat)
    (hr : r ≤ source.length) (hc : c ≤ target.length) :
    mtxAt (get_mtx target source) r c = mtxCell target source r c := by
  obtain ⟨rlen, rq⟩ :=
    mtxRows_spec target source source 0 (List.range (target.length + 1))
      (fun k _ => by rw [Nat.zero_add])
      (by omega)
      (by simp)
      (fun k hk => by
        rw [List.getD_eq_getElem _ _ (by simp; omega), List.getElem_range,
          mtxCell_zero_fst])
  unfold get_mtx mtxAt
  cases r with
  | zero =>
    simp only [List.getD_cons_zero]
    rw [List.getD_eq_getElem _ _ (by simp; omega), List.getElem_range,
      mtxCell_zero_fst]
  | succ r' =>
    simp only [List.getD_cons_succ]
    have h := rq r' (by omega)
    rw [h.2 c hc]
    congr 1
    omega

/-! ### Towards claim C5: invariants of `dijkstra`

The graph built by `mtx2graph` from a `get_mtx` matrix admits the potential
`Wpot` (100 per unmatched target symbol, 49 per unmatched source symbol):
every edge satisfies `Wpot v ≤ Wpot u + w`.  A mismatched diagonal edge is
tight but its head also has a strictly cheaper tight predecessor, and the
sorted queue settles that predecessor first, so the strict-improvement
update of `dijkstra` never records a mismatched diagonal in `path`. -/

theorem assocLookup_mem {α β : Type} [DecidableEq α] :
    ∀ (l : List (α × β)) (k : α) (v : β),
    assocLookup l k = some v → (k, v) ∈ l := by
  intro l
  induction l with
  | nil => intro k v h; simp [assocLookup] at h
  | cons kv rest ih =>
    intro k v h
    by_cases he : kv.1 = k
    · unfold assocLookup at h
      rw [if_pos he] at h
      cases h
      have hkv : kv = (k, kv.2) := by rw [← he]
      rw [← hkv]
      exact List.mem_cons_self kv rest
    · unfold assocLookup at h
      rw [if_neg he] at h
      exact List.mem_cons_of_mem _ (ih k v h)

theorem assocLookup_eq_some_of_nodup {α β : Type} [DecidableEq α] :
    ∀ (l : List (α × β)), (l.map Prod.fst).Nodup →
    ∀ (k : α) (v : β), (k, v) ∈ l → assocLookup l k = some v := by
  intro l
  induction l with
  | nil => intro _ k v h; simp at h
  | cons kv rest ih =>
    intro hnd k v h
    rw [List.map_cons, List.nodup_cons] at hnd
    rcases List.mem_cons.mp h with h1 | h1
    · unfold assocLookup
      rw [← h1]
      simp
    · unfold assocLookup
      by_cases he : kv.1 = k
      · exfalso
        apply hnd.1
        rw [he]
        exact List.mem_map.mpr ⟨(k, v), h1, rfl⟩
      · rw [if_neg he]
        exact ih hnd.2 k v h1

/-- The adjacency list of a node: `graph[u]`, empty when absent. -/
def Eg (g : List ((Nat × Nat) × List ((Nat × Nat) × Nat)))
    (u : Nat × Nat) : List ((Nat × Nat) × Nat) :=
  (assocLookup g u).getD []

/-- Nodes reachable from `start` along edges that are tight for the
potential `Wf` (`Wf u + w = Wf v`). -/
inductive TightPath (g : List ((Nat × Nat) × List ((Nat × Nat) × Nat)))
    (Wf : Nat × Nat → Nat) (start : Nat × Nat) : Nat × Nat → Prop where
  | base : TightPath g Wf start start
  | step (u v : Nat × Nat) (w : Nat) : TightPath g Wf start u →
      (v, w) ∈ Eg g u → Wf u + w = Wf v → TightPath g Wf start v

theorem pqLe_total (a b : Nat × (Nat × Nat)) :
    pqLe a b = true ∨ pqLe b a = true := by
  simp only [pqLe, decide_eq_true_eq]
  omega

theorem pqLe_trans (a b c : Nat × (Nat × Nat)) (h1 : pqLe a b = true)
    (h2 : pqLe b c = true) : pqLe a c = true := by
  simp only [pqLe, decide_eq_true_eq] at h1 h2 ⊢
  omega

theorem pqLe_fst_le (a b : Nat × (Nat × Nat)) (h : pqLe a b = true) :
    a.1 ≤ b.1 := by
  simp only [pqLe, decide_eq_true_eq] at h
  omega

theorem mem_pqInsert (x : Nat × (Nat × Nat)) :
    ∀ (q : List (Nat × (Nat × Nat))) (e : Nat × (Nat × Nat)),
    e ∈ pqInsert x q ↔ e = x ∨ e ∈ q := by
  intro q
  induction q with
  | nil => intro e; simp [pqInsert]
  | cons y rest ih =>
    intro e
    unfold pqInsert
    by_cases hle : pqLe x y
    · rw [if_pos hle]
      simp only [List.mem_cons]
    · rw [if_neg hle]
      simp only [List.mem_cons, ih e]
      tauto

theorem pairwise_pqInsert (x : Nat × (Nat × Nat)) :
    ∀ (q : List (Nat × (Nat × Nat))),
    q.Pairwise (fun a b => pqLe a b = true) →
    (pqInsert x q).Pairwise (fun a b => pqLe a b = true) := by
  intro q
  induction q with
  | nil => intro _; simp [pqInsert]
  | cons y rest ih =>
    intro h
    rw [List.pairwise_cons] at h
    unfold pqInsert
    by_cases hle : pqLe x y
    · rw [if_pos hle]
      rw [List.pairwise_cons]
      constructor
      · intro e he
        rcases List.mem_cons.mp he with he1 | he1
        · rw [he1]; exact hle
        · exact pqLe_trans x y e hle (h.1 e he1)
      · rw [List.pairwise_cons]
        exact h
    · rw [if_neg hle]
      rw [List.pairwise_cons]
      constructor
      · intro e he
        rcases (mem_pqInsert x rest e).mp he with he1 | he1
        · rw [he1]
          rcases pqLe_total x y with ht | ht
          · exact absurd ht hle
          · exact ht
        · exact h.1 e he1
      · exact ih h.2

/-- Invariant: the queue is sorted by the Python tuple order. -/
def sortedQ (queue : List (Nat × (Nat × Nat))) : Prop :=
  queue.Pairwise (fun a b => pqLe a b = true)

/-- Invariant: every queue entry is at least the potential of its node. -/
def queueGE (Wf : Nat × Nat → Nat) (queue : List (Nat × (Nat × Nat))) :
    Prop :=
  ∀ e ∈ queue, Wf e.2 ≤ e.1

/-- Invariant: every recorded distance is at least the potential. -/
def distGE (Wf : Nat × Nat → Nat) (dist : List ((Nat × Nat) × Nat)) :
    Prop :=
  ∀ u du, assocLookup dist u = some du → Wf u ≤ du

/-- Invariant: every queue entry has a recorded distance not above it. -/
def queueDist (dist : List ((Nat × Nat) × Nat))
    (queue : List (Nat × (Nat × Nat))) : Prop :=
  ∀ e ∈ queue, ∃ du, assocLookup dist e.2 = some du ∧ du ≤ e.1

/-- Node `u` with recorded distance `du` has relaxed all its edges. -/
def relaxedAt (g : List ((Nat × Nat) × List ((Nat × Nat) × Nat)))
    (dist : List ((Nat × Nat) × Nat)) (u : Nat × Nat) (du : Nat) : Prop :=
  ∀ vw ∈ Eg g u, ∃ dv, assocLookup dist vw.1 = some dv ∧ dv ≤ du + vw.2

/-- Invariant: every node with a recorded distance is still pending in the
queue at that distance, or has already relaxed all its edges. -/
def pendingOr (g : List ((Nat × Nat) × List ((Nat × Nat) × Nat)))
    (dist : List ((Nat × Nat) × Nat))
    (queue : List (Nat × (Nat × Nat))) : Prop :=
  ∀ u du, assocLookup dist u = some du →
    (du, u) ∈ queue ∨ relaxedAt g dist u du

/-- Invariant: every `path` entry points along an existing edge. -/
def pathEdge (g : List ((Nat × Nat) × List ((Nat × Nat) × Nat)))
    (path : List ((Nat × Nat) × (Nat × Nat))) : Prop :=
  ∀ v u, assocLookup path v = some u → ∃ w, (v, w) ∈ Eg g u

/-- Once every queue entry strictly exceeds the potential of a
tight-reachable node, that node is settled at its potential and has relaxed
all its edges.  This is the scheduling heart of claim C5: it needs no
history, only the state invariants. -/
theorem settled_of_big_queue
    (g : List ((Nat × Nat) × List ((Nat × Nat) × Nat)))
    (Wf : Nat × Nat → Nat) (start : Nat × Nat) (hW0 : Wf start = 0)
    (dist : List ((Nat × Nat) × Nat)) (queue : List (Nat × (Nat × Nat)))
    (hds : assocLookup dist start = some 0)
    (hge : distGE Wf dist)
    (hpo : pendingOr g dist queue)
    (u : Nat × Nat) (htp : TightPath g Wf start u)
    (hbig : ∀ e ∈ queue, Wf u < e.1) :
    assocLookup dist u = some (Wf u) ∧ relaxedAt g dist u (Wf u) := by
  induction htp with
  | base =>
    rw [hW0]
    refine ⟨hds, ?_⟩
    rcases hpo start 0 hds with h | h
    · exact absurd (hbig (0, start) h) (by rw [hW0]; omega)
    · exact h
  | step t v w htp2 hedge htight ih =>
    have hbig2 : ∀ e ∈ queue, Wf t < e.1 := by
      intro e he
      have h1 := hbig e he
      omega
    obtain ⟨hsettled, hrelaxed⟩ := ih hbig2
    obtain ⟨dv, hdv, hdvle⟩ := hrelaxed (v, w) hedge
    have hveq : dv = Wf v := by
      have h1 := hge v dv hdv
      omega
    rw [hveq] at hdv
    refine ⟨hdv, ?_⟩
    rcases hpo v (Wf v) hdv with h | h
    · exact absurd (hbig (Wf v, v) h) (by omega)
    · exact h

theorem assocLookup_cons_self {α β : Type} [DecidableEq α] (k : α) (v : β)
    (l : List (α × β)) : assocLookup ((k, v) :: l) k = some v := by
  simp [assocLookup]

theorem assocLookup_cons_ne {α β : Type} [DecidableEq α] (k2 k : α) (v : β)
    (l : List (α × β)) (hne : k2 ≠ k) :
    assocLookup ((k2, v) :: l) k = assocLookup l k := by
  simp [assocLookup, hne]

theorem relaxAll_cons_none (x : Nat × Nat) (d0 : Nat) (v : Nat × Nat)
    (w : Nat) (rest : List ((Nat × Nat) × Nat))
    (dist : List ((Nat × Nat) × Nat))
    (path : List ((Nat × Nat) × (Nat × Nat)))
    (queue : List (Nat × (Nat × Nat)))
    (h : assocLookup dist v = none) :
    relaxAll x d0 ((v, w) :: rest) (dist, path, queue) =
      relaxAll x d0 rest ((v, d0 + w) :: dist, (v, x) :: path,
        pqInsert (d0 + w, v) queue) := by
  simp [relaxAll, h]

theorem relaxAll_cons_lt (x : Nat × Nat) (d0 : Nat) (v : Nat × Nat)
    (w : Nat) (rest : List ((Nat × Nat) × Nat))
    (dist : List ((Nat × Nat) × Nat))
    (path : List ((Nat × Nat) × (Nat × Nat)))
    (queue : List (Nat × (Nat × Nat))) (dv : Nat)
    (h : assocLookup dist v = some dv) (hlt : d0 + w < dv) :
    relaxAll x d0 ((v, w) :: rest) (dist, path, queue) =
      relaxAll x d0 rest ((v, d0 + w) :: dist, (v, x) :: path,
        pqInsert (d0 + w, v) queue) := by
  simp [relaxAll, h, hlt]

theorem relaxAll_cons_ge (x : Nat × Nat) (d0 : Nat) (v : Nat × Nat)
    (w : Nat) (rest : List ((Nat × Nat) × Nat))
    (dist : List ((Nat × Nat) × Nat))
    (path : List ((Nat × Nat) × (Nat × Nat)))
    (queue : List (Nat × (Nat × Nat))) (dv : Nat)
    (h : assocLookup dist v = some dv) (hge : ¬ d0 + w < dv) :
    relaxAll x d0 ((v, w) :: rest) (dist, path, queue) =
      relaxAll x d0 rest (dist, path, queue) := by
  simp [relaxAll, h, hge]

/-- Invariant preservation through one full relaxation pass
(`for neighbor, weight in graph[current_node]`).  `x` is the freshly
popped node, `d0` its (valid) popped distance.  The last two conjuncts
record where `path` entries can come from and that a node whose current
distance already matches every pending proposal keeps its `path` entry. -/
theorem relaxAll_preserves
    (g : List ((Nat × Nat) × List ((Nat × Nat) × Nat)))
    (Wf : Nat × Nat → Nat)
    (hfeas : ∀ u : Nat × Nat, ∀ vw ∈ Eg g u, Wf vw.1 ≤ Wf u + vw.2)
    (x : Nat × Nat) (d0 : Nat) (hxW : Wf x ≤ d0) (start : Nat × Nat) :
    ∀ (edges : List ((Nat × Nat) × Nat))
      (dist : List ((Nat × Nat) × Nat))
      (path : List ((Nat × Nat) × (Nat × Nat)))
      (queue : List (Nat × (Nat × Nat))),
    (∀ vw ∈ edges, vw ∈ Eg g x) →
    sortedQ queue → queueGE Wf queue → distGE Wf dist →
    queueDist dist queue →
    assocLookup dist x = some d0 →
    assocLookup dist start = some 0 →
    (∀ u du, assocLookup dist u = some du →
      (du, u) ∈ queue ∨ relaxedAt g dist u du ∨
      (u = x ∧ du = d0 ∧ ∀ vw ∈ Eg g x, vw ∈ edges ∨
        ∃ dv, assocLookup dist vw.1 = some dv ∧ dv ≤ d0 + vw.2)) →
    sortedQ (relaxAll x d0 edges (dist, path, queue)).2.2 ∧
    queueGE Wf (relaxAll x d0 edges (dist, path, queue)).2.2 ∧
    distGE Wf (relaxAll x d0 edges (dist, path, queue)).1 ∧
    queueDist (relaxAll x d0 edges (dist, path, queue)).1
      (relaxAll x d0 edges (dist, path, queue)).2.2 ∧
    assocLookup (relaxAll x d0 edges (dist, path, queue)).1 x = some d0 ∧
    assocLookup (relaxAll x d0 edges (dist, path, queue)).1 start =
      some 0 ∧
    pendingOr g (relaxAll x d0 edges (dist, path, queue)).1
      (relaxAll x d0 edges (dist, path, queue)).2.2 ∧
    (∀ v u,
      assocLookup (relaxAll x d0 edges (dist, path, queue)).2.1 v =
        some u →
      assocLookup path v = some u ∨ (u = x ∧ ∃ w, (v, w) ∈ Eg g x)) ∧
    (∀ v dv, assocLookup dist v = some dv →
      (∀ w, (v, w) ∈ edges → dv ≤ d0 + w) →
      assocLookup (relaxAll x d0 edges (dist, path, queue)).2.1 v =
        assocLookup path v) := by
  intro edges
  induction edges with
  | nil =>
    intro dist path queue _ hs hq hd hqd hdx hdst hmid
    refine ⟨hs, hq, hd, hqd, hdx, hdst, ?_, ?_, ?_⟩
    · intro u du hdu
      rcases hmid u du hdu with h | h | ⟨hux, hdud0, hall⟩
      · exact Or.inl h
      · exact Or.inr h
      · subst hux
        subst hdud0
        right
        intro vw hvw
        rcases hall vw hvw with habs | ⟨dv, h1, h2⟩
        · exact absurd habs (by simp)
        · exact ⟨dv, h1, h2⟩
    · intro v u h
      exact Or.inl h
    · intro v dv _ _
      rfl
  | cons vw0 rest ih =>
    intro dist path queue hsub hs hq hd hqd hdx hdst hmid
    obtain ⟨v, w⟩ := vw0
    have hvwE : ((v, w) : (Nat × Nat) × Nat) ∈ Eg g x :=
      hsub (v, w) (List.mem_cons_self _ _)
    have hWv : Wf v ≤ d0 + w := by
      have h1 : Wf v ≤ Wf x + w := hfeas x (v, w) hvwE
      omega
    rcases hl : assocLookup dist v with _ | dv
    case none =>
      -- improvement from "infinity"
      have hvx : v ≠ x := by
        intro he
        rw [he, hdx] at hl
        cases hl
      have hvstart : v ≠ start := by
        intro he
        rw [he, hdst] at hl
        cases hl
      have hrw := relaxAll_cons_none x d0 v w rest dist path queue hl
      rw [hrw]
      have hsub2 : ∀ vw ∈ rest, vw ∈ Eg g x := by
        intro vw hvw
        exact hsub vw (List.mem_cons_of_mem _ hvw)
      have hs2 : sortedQ (pqInsert (d0 + w, v) queue) :=
        pairwise_pqInsert _ _ hs
      have hq2 : queueGE Wf (pqInsert (d0 + w, v) queue) := by
        intro e he
        rcases (mem_pqInsert _ _ _).mp he with he1 | he1
        · rw [he1]
          exact hWv
        · exact hq e he1
      have hd2 : distGE Wf ((v, d0 + w) :: dist) := by
        intro u du hdu
        by_cases huv : v = u
        · rw [← huv] at hdu ⊢
          rw [assocLookup_cons_self] at hdu
          cases hdu
          exact hWv
        · rw [assocLookup_cons_ne v u _ _ huv] at hdu
          exact hd u du hdu
      have hqd2 : queueDist ((v, d0 + w) :: dist)
          (pqInsert (d0 + w, v) queue) := by
        intro e he
        rcases (mem_pqInsert _ _ _).mp he with he1 | he1
        · rw [he1]
          exact ⟨d0 + w, assocLookup_cons_self _ _ _, le_refl _⟩
        · obtain ⟨du, hdu, hle⟩ := hqd e he1
          by_cases hev : v = e.2
          · rw [← hev, hl] at hdu
            cases hdu
          · rw [assocLookup_cons_ne v e.2 _ _ hev]
            exact ⟨du, hdu, hle⟩
      have hdx2 : assocLookup ((v, d0 + w) :: dist) x = some d0 := by
        rw [assocLookup_cons_ne v x _ _ hvx]
        exact hdx
      have hdst2 : assocLookup ((v, d0 + w) :: dist) start = some 0 := by
        rw [assocLookup_cons_ne v start _ _ hvstart]
        exact hdst
      have hmid2 : ∀ u du, assocLookup ((v, d0 + w) :: dist) u = some du →
          (du, u) ∈ pqInsert (d0 + w, v) queue ∨
          relaxedAt g ((v, d0 + w) :: dist) u du ∨
          (u = x ∧ du = d0 ∧ ∀ vw ∈ Eg g x, vw ∈ rest ∨
            ∃ dv2, assocLookup ((v, d0 + w) :: dist) vw.1 = some dv2 ∧
              dv2 ≤ d0 + vw.2) := by
        intro u du hdu
        by_cases huv : v = u
        · rw [← huv] at hdu ⊢
          rw [assocLookup_cons_self] at hdu
          cases hdu
          exact Or.inl ((mem_pqInsert _ _ _).mpr (Or.inl rfl))
        · rw [assocLookup_cons_ne v u _ _ huv] at hdu
          rcases hmid u du hdu with h | h | ⟨hux, hdud0, hall⟩
          · exact Or.inl ((mem_pqInsert _ _ _).mpr (Or.inr h))
          · refine Or.inr (Or.inl ?_)
            intro vw hvw
            obtain ⟨dv2, h1, h2⟩ := h vw hvw
            by_cases hwv : v = vw.1
            · rw [← hwv, hl] at h1
              cases h1
            · rw [assocLookup_cons_ne v vw.1 _ _ hwv]
              exact ⟨dv2, h1, h2⟩
          · refine Or.inr (Or.inr ⟨hux, hdud0, ?_⟩)
            intro vw hvw
            rcases hall vw hvw with h1 | ⟨dv2, h1, h2⟩
            · rcases List.mem_cons.mp h1 with h2 | h2
              · right
                rw [h2]
                exact ⟨d0 + w, assocLookup_cons_self _ _ _, le_refl _⟩
              · exact Or.inl h2
            · right
              by_cases hwv : v = vw.1
              · rw [← hwv, hl] at h1
                cases h1
              · rw [assocLookup_cons_ne v vw.1 _ _ hwv]
                exact ⟨dv2, h1, h2⟩
      obtain ⟨ih1, ih2, ih3, ih4, ih5, ih6, ih7, ih8, ih9⟩ :=
        ih ((v, d0 + w) :: dist) ((v, x) :: path)
          (pqInsert (d0 + w, v) queue) hsub2 hs2 hq2 hd2 hqd2 hdx2
          hdst2 hmid2
      refine ⟨ih1, ih2, ih3, ih4, ih5, ih6, ih7, ?_, ?_⟩
      · intro v2 u h
        rcases ih8 v2 u h with h1 | h1
        · by_cases hv2 : v = v2
          · subst hv2
            rw [assocLookup_cons_self] at h1
            cases h1
            exact Or.inr ⟨rfl, w, hvwE⟩
          · rw [assocLookup_cons_ne v v2 _ _ hv2] at h1
            exact Or.inl h1
        · exact Or.inr h1
      · intro v2 dv2 hdv2 hblock
        by_cases hv2 : v = v2
        · subst hv2
          rw [hl] at hdv2
          cases hdv2
        · have hdv2b : assocLookup ((v, d0 + w) :: dist) v2 = some dv2 := by
            rw [assocLookup_cons_ne v v2 _ _ hv2]
            exact hdv2
          have hblock2 : ∀ w2, (v2, w2) ∈ rest → dv2 ≤ d0 + w2 := by
            intro w2 hw2
            exact hblock w2 (List.mem_cons_of_mem _ hw2)
          have h := ih9 v2 dv2 hdv2b hblock2
          rw [h]
          rw [assocLookup_cons_ne v v2 _ _ hv2]
    case some =>
      by_cases hlt : d0 + w < dv
      · -- strict improvement over a finite distance
        have hvx : v ≠ x := by
          intro he
          rw [he, hdx] at hl
          cases hl
          omega
        have hvstart : v ≠ start := by
          intro he
          rw [he, hdst] at hl
          cases hl
          omega
        have hrw := relaxAll_cons_lt x d0 v w rest dist path queue dv hl hlt
        rw [hrw]
        have hsub2 : ∀ vw ∈ rest, vw ∈ Eg g x := by
          intro vw hvw
          exact hsub vw (List.mem_cons_of_mem _ hvw)
        have hs2 : sortedQ (pqInsert (d0 + w, v) queue) :=
          pairwise_pqInsert _ _ hs
        have hq2 : queueGE Wf (pqInsert (d0 + w, v) queue) := by
          intro e he
          rcases (mem_pqInsert _ _ _).mp he with he1 | he1
          · rw [he1]
            exact hWv
          · exact hq e he1
        have hd2 : distGE Wf ((v, d0 + w) :: dist) := by
          intro u du hdu
          by_cases huv : v = u
          · rw [← huv] at hdu ⊢
            rw [assocLookup_cons_self] at hdu
            cases hdu
            exact hWv
          · rw [assocLookup_cons_ne v u _ _ huv] at hdu
            exact hd u du hdu
        have hqd2 : queueDist ((v, d0 + w) :: dist)
            (pqInsert (d0 + w, v) queue) := by
          intro e he
          rcases (mem_pqInsert _ _ _).mp he with he1 | he1
          · rw [he1]
            exact ⟨d0 + w, assocLookup_cons_self _ _ _, le_refl _⟩
          · obtain ⟨du, hdu, hle⟩ := hqd e he1
            by_cases hev : v = e.2
            · rw [← hev, hl] at hdu
              cases hdu
              rw [← hev]
              exact ⟨d0 + w, assocLookup_cons_self _ _ _, by omega⟩
            · rw [assocLookup_cons_ne v e.2 _ _ hev]
              exact ⟨du, hdu, hle⟩
        have hdx2 : assocLookup ((v, d0 + w) :: dist) x = some d0 := by
          rw [assocLookup_cons_ne v x _ _ hvx]
          exact hdx
        have hdst2 : assocLookup ((v, d0 + w) :: dist) start = some 0 := by
          rw [assocLookup_cons_ne v start _ _ hvstart]
          exact hdst
        have hmid2 : ∀ u du,
            assocLookup ((v, d0 + w) :: dist) u = some du →
            (du, u) ∈ pqInsert (d0 + w, v) queue ∨
            relaxedAt g ((v, d0 + w) :: dist) u du ∨
            (u = x ∧ du = d0 ∧ ∀ vw ∈ Eg g x, vw ∈ rest ∨
              ∃ dv2, assocLookup ((v, d0 + w) :: dist) vw.1 = some dv2 ∧
                dv2 ≤ d0 + vw.2) := by
          intro u du hdu
          by_cases huv : v = u
          · rw [← huv] at hdu ⊢
            rw [assocLookup_cons_self] at hdu
            cases hdu
            exact Or.inl ((mem_pqInsert _ _ _).mpr (Or.inl rfl))
          · rw [assocLookup_cons_ne v u _ _ huv] at hdu
            rcases hmid u du hdu with h | h | ⟨hux, hdud0, hall⟩
            · exact Or.inl ((mem_pqInsert _ _ _).mpr (Or.inr h))
            · refine Or.inr (Or.inl ?_)
              intro vw hvw
              obtain ⟨dv2, h1, h2⟩ := h vw hvw
              by_cases hwv : v = vw.1
              · rw [← hwv, hl] at h1
                cases h1
                rw [← hwv]
                exact ⟨d0 + w, assocLookup_cons_self _ _ _, by omega⟩
              · rw [assocLookup_cons_ne v vw.1 _ _ hwv]
                exact ⟨dv2, h1, h2⟩
            · refine Or.inr (Or.inr ⟨hux, hdud0, ?_⟩)
              intro vw hvw
              rcases hall vw hvw with h1 | ⟨dv2, h1, h2⟩
              · rcases List.mem_cons.mp h1 with h2 | h2
                · right
                  rw [h2]
                  exact ⟨d0 + w, assocLookup_cons_self _ _ _, le_refl _⟩
                · exact Or.inl h2
              · right
                by_cases hwv : v = vw.1
                · rw [← hwv, hl] at h1
                  cases h1
                  rw [← hwv]
                  exact ⟨d0 + w, assocLookup_cons_self _ _ _, by omega⟩
                · rw [assocLookup_cons_ne v vw.1 _ _ hwv]
                  exact ⟨dv2, h1, h2⟩
        obtain ⟨ih1, ih2, ih3, ih4, ih5, ih6, ih7, ih8, ih9⟩ :=
          ih ((v, d0 + w) :: dist) ((v, x) :: path)
            (pqInsert (d0 + w, v) queue) hsub2 hs2 hq2 hd2 hqd2 hdx2
            hdst2 hmid2
        refine ⟨ih1, ih2, ih3, ih4, ih5, ih6, ih7, ?_, ?_⟩
        · intro v2 u h
          rcases ih8 v2 u h with h1 | h1
          · by_cases hv2 : v = v2
            · subst hv2
              rw [assocLookup_cons_self] at h1
              cases h1
              exact Or.inr ⟨rfl, w, hvwE⟩
            · rw [assocLookup_cons_ne v v2 _ _ hv2] at h1
              exact Or.inl h1
          · exact Or.inr h1
        · intro v2 dv2 hdv2 hblock
          by_cases hv2 : v = v2
          · exfalso
            subst hv2
            rw [hl] at hdv2
            cases hdv2
            have h := hblock w (List.mem_cons_self _ _)
            omega
          · have hdv2b : assocLookup ((v, d0 + w) :: dist) v2 =
                some dv2 := by
              rw [assocLookup_cons_ne v v2 _ _ hv2]
              exact hdv2
            have hblock2 : ∀ w2, (v2, w2) ∈ rest → dv2 ≤ d0 + w2 := by
              intro w2 hw2
              exact hblock w2 (List.mem_cons_of_mem _ hw2)
            have h := ih9 v2 dv2 hdv2b hblock2
            rw [h]
            rw [assocLookup_cons_ne v v2 _ _ hv2]
      · -- no improvement: state unchanged
        have hrw := relaxAll_cons_ge x d0 v w rest dist path queue dv hl hlt
        rw [hrw]
        have hsub2 : ∀ vw ∈ rest, vw ∈ Eg g x := by
          intro vw hvw
          exact hsub vw (List.mem_cons_of_mem _ hvw)
        have hmid2 : ∀ u du, assocLookup dist u = some du →
            (du, u) ∈ queue ∨ relaxedAt g dist u du ∨
            (u = x ∧ du = d0 ∧ ∀ vw ∈ Eg g x, vw ∈ rest ∨
              ∃ dv2, assocLookup dist vw.1 = some dv2 ∧
                dv2 ≤ d0 + vw.2) := by
          intro u du hdu
          rcases hmid u du hdu with h | h | ⟨hux, hdud0, hall⟩
          · exact Or.inl h
          · exact Or.inr (Or.inl h)
          · refine Or.inr (Or.inr ⟨hux, hdud0, ?_⟩)
            intro vw hvw
            rcases hall vw hvw with h1 | h1
            · rcases List.mem_cons.mp h1 with h2 | h2
              · right
                rw [h2]
                exact ⟨dv, hl, by omega⟩
              · exact Or.inl h2
            · exact Or.inr h1
        obtain ⟨ih1, ih2, ih3, ih4, ih5, ih6, ih7, ih8, ih9⟩ :=
          ih dist path queue hsub2 hs hq hd hqd hdx hdst hmid2
        refine ⟨ih1, ih2, ih3, ih4, ih5, ih6, ih7, ih8, ?_⟩
        · intro v2 dv2 hdv2 hblock
          have hblock2 : ∀ w2, (v2, w2) ∈ rest → dv2 ≤ d0 + w2 := by
            intro w2 hw2
            exact hblock w2 (List.mem_cons_of_mem _ hw2)
          exact ih9 v2 dv2 hdv2 hblock2

theorem dijkstraLoop_cons_stale
    (g : List ((Nat × Nat) × List ((Nat × Nat) × Nat))) (fuel : Nat)
    (dist : List ((Nat × Nat) × Nat))
    (path : List ((Nat × Nat) × (Nat × Nat))) (d : Nat) (u : Nat × Nat)
    (rest : List (Nat × (Nat × Nat))) (du : Nat)
    (hl : assocLookup dist u = some du) (hst : d > du) :
    dijkstraLoop g (fuel + 1) dist path ((d, u) :: rest) =
      dijkstraLoop g fuel dist path rest := by
  simp [dijkstraLoop, hl, hst]

theorem dijkstraLoop_cons_go
    (g : List ((Nat × Nat) × List ((Nat × Nat) × Nat))) (fuel : Nat)
    (dist : List ((Nat × Nat) × Nat))
    (path : List ((Nat × Nat) × (Nat × Nat))) (d : Nat) (u : Nat × Nat)
    (rest : List (Nat × (Nat × Nat))) (du : Nat)
    (hl : assocLookup dist u = some du) (hst : ¬ d > du) :
    dijkstraLoop g (fuel + 1) dist path ((d, u) :: rest) =
      dijkstraLoop g fuel
        (relaxAll u d (Eg g u) (dist, path, rest)).1
        (relaxAll u d (Eg g u) (dist, path, rest)).2.1
        (relaxAll u d (Eg g u) (dist, path, rest)).2.2 := by
  simp [dijkstraLoop, hl, hst, Eg]

/-- Main loop invariant of `dijkstra` for claim C5: given a potential `Wf`
making every edge feasible, and a family `Bad` of edges whose heads all
have a strictly cheaper tight predecessor, the recorded predecessor map
never contains a `Bad` link, and every link it does contain is a real
edge. -/
theorem dijkstraLoop_inv
    (g : List ((Nat × Nat) × List ((Nat × Nat) × Nat)))
    (Wf : Nat × Nat → Nat) (start : Nat × Nat)
    (hfeas : ∀ u : Nat × Nat, ∀ vw ∈ Eg g u, Wf vw.1 ≤ Wf u + vw.2)
    (hW0 : Wf start = 0)
    (Bad : (Nat × Nat) → (Nat × Nat) → Prop)
    (hblock : ∀ u0 v0, Bad u0 v0 → ∃ u1 w1, (v0, w1) ∈ Eg g u1 ∧
      Wf u1 + w1 = Wf v0 ∧ Wf u1 < Wf u0 ∧ TightPath g Wf start u1) :
    ∀ (fuel : Nat) (dist : List ((Nat × Nat) × Nat))
      (path res : List ((Nat × Nat) × (Nat × Nat)))
      (queue : List (Nat × (Nat × Nat))),
    sortedQ queue → queueGE Wf queue → distGE Wf dist →
    queueDist dist queue → pendingOr g dist queue →
    assocLookup dist start = some 0 →
    pathEdge g path →
    (∀ v u, assocLookup path v = some u → ¬ Bad u v) →
    dijkstraLoop g fuel dist path queue = some res →
    pathEdge g res ∧ (∀ v u, assocLookup res v = some u → ¬ Bad u v) := by
  intro fuel
  induction fuel with
  | zero =>
    intro dist path res queue _ _ _ _ _ _ _ _ hres
    cases hres
  | succ fuel ih =>
    intro dist path res queue hs hq hd hqd hpo hdst hpe hpg hres
    cases queue with
    | nil =>
      have he : dijkstraLoop g (fuel + 1) dist path [] = some path := rfl
      rw [he] at hres
      cases hres
      exact ⟨hpe, hpg⟩
    | cons e rest =>
      obtain ⟨d, u⟩ := e
      obtain ⟨du, hdu, hle⟩ := hqd (d, u) (List.mem_cons_self _ _)
      by_cases hst : d > du
      · -- stale entry: skip
        rw [dijkstraLoop_cons_stale g fuel dist path d u rest du hdu hst]
          at hres
        have hs2 : sortedQ rest := (List.pairwise_cons.mp hs).2
        have hq2 : queueGE Wf rest := by
          intro e he
          exact hq e (List.mem_cons_of_mem _ he)
        have hqd2 : queueDist dist rest := by
          intro e he
          exact hqd e (List.mem_cons_of_mem _ he)
        have hpo2 : pendingOr g dist rest := by
          intro u2 du2 h
          rcases hpo u2 du2 h with h1 | h1
          · rcases List.mem_cons.mp h1 with h2 | h2
            · exfalso
              have hu2 : u2 = u := congrArg Prod.snd h2
              have hd2 : du2 = d := congrArg Prod.fst h2
              rw [hu2, hdu] at h
              cases h
              omega
            · exact Or.inl h2
          · exact Or.inr h1
        exact ih dist path res rest hs2 hq2 hd hqd2 hpo2 hdst hpe hpg hres
      · -- valid pop: relax all edges of u
        have hdeq : du = d := by omega
        rw [hdeq] at hdu
        rw [dijkstraLoop_cons_go g fuel dist path d u rest d hdu
          (by omega)] at hres
        have hxW : Wf u ≤ d := hq (d, u) (List.mem_cons_self _ _)
        have hs2 : sortedQ rest := (List.pairwise_cons.mp hs).2
        have hq2 : queueGE Wf rest := by
          intro e he
          exact hq e (List.mem_cons_of_mem _ he)
        have hqd2 : queueDist dist rest := by
          intro e he
          exact hqd e (List.mem_cons_of_mem _ he)
        have hmid : ∀ u2 du2, assocLookup dist u2 = some du2 →
            (du2, u2) ∈ rest ∨ relaxedAt g dist u2 du2 ∨
            (u2 = u ∧ du2 = d ∧ ∀ vw ∈ Eg g u, vw ∈ Eg g u ∨
              ∃ dv, assocLookup dist vw.1 = some dv ∧
                dv ≤ d + vw.2) := by
          intro u2 du2 h
          rcases hpo u2 du2 h with h1 | h1
          · rcases List.mem_cons.mp h1 with h2 | h2
            · have hu2 : u2 = u := congrArg Prod.snd h2
              have hd2 : du2 = d := congrArg Prod.fst h2
              exact Or.inr (Or.inr ⟨hu2, hd2, fun vw hvw => Or.inl hvw⟩)
            · exact Or.inl h2
          · exact Or.inr (Or.inl h1)
        obtain ⟨p1, p2, p3, p4, p5, p6, p7, p8, p9⟩ :=
          relaxAll_preserves g Wf hfeas u d hxW start (Eg g u) dist path
            rest (fun vw hvw => hvw) hs2 hq2 hd hqd2 hdu hdst hmid
        have hpe2 : pathEdge g (relaxAll u d (Eg g u)
            (dist, path, rest)).2.1 := by
          intro v u2 h
          rcases p8 v u2 h with h1 | ⟨he, hw⟩
          · exact hpe v u2 h1
          · rw [he]
            exact hw
        have hpg2 : ∀ v u2, assocLookup (relaxAll u d (Eg g u)
            (dist, path, rest)).2.1 v = some u2 → ¬ Bad u2 v := by
          intro v u2 h hbad
          rcases p8 v u2 h with h1 | ⟨he, hw⟩
          · exact hpg v u2 h1 hbad
          · -- the popped node recorded a Bad link: impossible
            have hbad2 : Bad u v := by rw [he] at hbad; exact hbad
            obtain ⟨u1, w1, hedge1, htight1, hlt1, htp1⟩ :=
              hblock u v hbad2
            have hbig : ∀ e ∈ (d, u) :: rest, Wf u1 < e.1 := by
              intro e he2
              rcases List.mem_cons.mp he2 with h3 | h3
              · rw [h3]
                omega
              · have h4 := (List.pairwise_cons.mp hs).1 e h3
                have h5 := pqLe_fst_le _ _ h4
                omega
            obtain ⟨hset, hrel⟩ := settled_of_big_queue g Wf start hW0
              dist ((d, u) :: rest) hdst hd hpo u1 htp1 hbig
            obtain ⟨dv, hdv, hdvle⟩ := hrel (v, w1) hedge1
            have hblockv : ∀ w2, (v, w2) ∈ Eg g u → dv ≤ d + w2 := by
              intro w2 hw2
              have h6 : Wf v ≤ Wf u + w2 := hfeas u (v, w2) hw2
              omega
            have hstable := p9 v dv hdv hblockv
            rw [hstable] at h
            exact hpg v u2 h hbad
        exact ih _ _ res _ p1 p2 p3 p4 p7 p6 hpe2 hpg2 hres

theorem mtx2graph_keys (m : List (List Nat)) (wd wi : Nat) :
    (mtx2graph m wd wi).map Prod.fst =
      (List.range m.length).flatMap (fun i =>
        (List.range ((m.getD 0 []).length)).map (fun j => (i, j))) := by
  unfold mtx2graph
  rw [List.map_flatMap]
  simp only [List.map_map]
  rfl

theorem mtx2graph_keys_nodup (m : List (List Nat)) (wd wi : Nat) :
    ((mtx2graph m wd wi).map Prod.fst).Nodup := by
  rw [mtx2graph_keys]
  rw [List.nodup_flatMap]
  constructor
  · intro i _
    exact (List.nodup_range _).map
      (fun a b h => congrArg Prod.snd h)
  · have hp : (List.range m.length).Pairwise (· < ·) :=
      List.pairwise_lt_range _
    refine hp.imp ?_
    intro a b hab
    intro p hpa hpb
    rw [List.mem_map] at hpa hpb
    obtain ⟨j1, _, hj1⟩ := hpa
    obtain ⟨j2, _, hj2⟩ := hpb
    have h1 : p.1 = a := by rw [← hj1]
    have h2 : p.1 = b := by rw [← hj2]
    omega

theorem Eg_mtx2graph (m : List (List Nat)) (wd wi i j : Nat)
    (hi : i < m.length) (hj : j < (m.getD 0 []).length) :
    Eg (mtx2graph m wd wi) (i, j) = edgesAt m wd wi i j := by
  unfold Eg
  rw [assocLookup_eq_some_of_nodup _ (mtx2graph_keys_nodup m wd wi) (i, j)
    _ ((mem_mtx2graph m wd wi i j _).mpr ⟨hi, hj, rfl⟩)]
  rfl

theorem Eg_mtx2graph_empty (m : List (List Nat)) (wd wi : Nat)
    (u : Nat × Nat)
    (h : ¬(u.1 < m.length ∧ u.2 < (m.getD 0 []).length)) :
    Eg (mtx2graph m wd wi) u = [] := by
  unfold Eg
  rcases hl : assocLookup (mtx2graph m wd wi) u with _ | es
  · rfl
  · exfalso
    have hmem := assocLookup_mem _ _ _ hl
    obtain ⟨i, j⟩ := u
    obtain ⟨h1, h2, _⟩ := (mem_mtx2graph m wd wi i j es).mp hmem
    exact h ⟨h1, h2⟩

theorem edgesAt_right_mem (m : List (List Nat)) (wd wi i j : Nat)
    (hj : j < (m.getD 0 []).length - 1) :
    ((i, j + 1),
      if mtxAt m i (j + 1) ≠ mtxAt m i j then wd else 0) ∈
      edgesAt m wd wi i j := by
  unfold edgesAt
  apply List.mem_append.mpr
  left
  apply List.mem_append.mpr
  left
  rw [if_pos hj]
  exact List.mem_singleton.mpr rfl

theorem edgesAt_down_mem (m : List (List Nat)) (wd wi i j : Nat)
    (hi : i < m.length - 1) :
    ((i + 1, j),
      if mtxAt m (i + 1) j ≠ mtxAt m i j then wi else 0) ∈
      edgesAt m wd wi i j := by
  unfold edgesAt
  apply List.mem_append.mpr
  left
  apply List.mem_append.mpr
  right
  rw [if_pos hi]
  exact List.mem_singleton.mpr rfl

theorem mem_edgesAt_elim (m : List (List Nat)) (wd wi i j : Nat)
    (v : Nat × Nat) (w : Nat) (h : (v, w) ∈ edgesAt m wd wi i j) :
    (v = (i, j + 1) ∧ j < (m.getD 0 []).length - 1 ∧
      w = (if mtxAt m i (j + 1) ≠ mtxAt m i j then wd else 0)) ∨
    (v = (i + 1, j) ∧ i < m.length - 1 ∧
      w = (if mtxAt m (i + 1) j ≠ mtxAt m i j then wi else 0)) ∨
    (v = (i + 1, j + 1) ∧ i < m.length - 1 ∧
      j < (m.getD 0 []).length - 1 ∧
      mtxAt m (i + 1) (j + 1) = mtxAt m i j ∧ w = 0) := by
  unfold edgesAt at h
  rcases List.mem_append.mp h with h1 | h1
  · rcases List.mem_append.mp h1 with h2 | h2
    · by_cases hc : j < (m.getD 0 []).length - 1
      · rw [if_pos hc] at h2
        rcases List.mem_singleton.mp h2 with h3
        exact Or.inl ⟨congrArg Prod.fst h3, hc, congrArg Prod.snd h3⟩
      · rw [if_neg hc] at h2
        simp at h2
    · by_cases hc : i < m.length - 1
      · rw [if_pos hc] at h2
        rcases List.mem_singleton.mp h2 with h3
        exact Or.inr (Or.inl
          ⟨congrArg Prod.fst h3, hc, congrArg Prod.snd h3⟩)
      · rw [if_neg hc] at h2
        simp at h2
  · by_cases hc : i < m.length - 1 ∧ j < (m.getD 0 []).length - 1 ∧
        mtxAt m (i + 1) (j + 1) = mtxAt m i j
    · rw [if_pos hc] at h1
      rcases List.mem_singleton.mp h1 with h3
      exact Or.inr (Or.inr ⟨congrArg Prod.fst h3, hc.1, hc.2.1, hc.2.2,
        congrArg Prod.snd h3⟩)
    · rw [if_neg hc] at h1
      simp at h1

theorem get_mtx_dims (target source : List Char) :
    (get_mtx target source).length = source.length + 1 ∧
    ((get_mtx target source).getD 0 []).length = target.length + 1 := by
  obtain ⟨rlen, _⟩ :=
    mtxRows_spec target source source 0 (List.range (target.length + 1))
      (fun k _ => by rw [Nat.zero_add])
      (by omega)
      (by simp)
      (fun k hk => by
        rw [List.getD_eq_getElem _ _ (by simp; omega), List.getElem_range,
          mtxCell_zero_fst])
  constructor
  · unfold get_mtx
    simp [rlen]
  · unfold get_mtx
    simp

theorem get_mtx_formula (target source : List Char) (i j : Nat)
    (hi : i ≤ source.length) (hj : j ≤ target.length) :
    mtxAt (get_mtx target source) i j + 2 * Lmat source target i j =
      i + j := by
  rw [get_mtx_eq_mtxCell target source i j hi hj]
  exact mtxCell_formula target source i j hi hj

theorem get_mtx_right_ne (target source : List Char) (i j : Nat)
    (hi : i ≤ source.length) (hj : j < target.length) :
    mtxAt (get_mtx target source) i (j + 1) ≠
      mtxAt (get_mtx target source) i j := by
  have h1 := get_mtx_formula target source i j hi (by omega)
  have h2 := get_mtx_formula target source i (j + 1) hi (by omega)
  have h3 := Lmat_right_step source target i j hi hj
  omega

theorem get_mtx_down_ne (target source : List Char) (i j : Nat)
    (hi : i < source.length) (hj : j ≤ target.length) :
    mtxAt (get_mtx target source) (i + 1) j ≠
      mtxAt (get_mtx target source) i j := by
  have h1 := get_mtx_formula target source i j (by omega) hj
  have h2 := get_mtx_formula target source (i + 1) j (by omega) hj
  have h3 := Lmat_down_step source target i j hi hj
  omega

theorem get_mtx_diag_iff (target source : List Char) (i j : Nat)
    (hi : i < source.length) (hj : j < target.length) :
    mtxAt (get_mtx target source) (i + 1) (j + 1) =
      mtxAt (get_mtx target source) i j ↔
    Lmat source target (i + 1) (j + 1) = Lmat source target i j + 1 := by
  have h1 := get_mtx_formula target source i j (by omega) (by omega)
  have h2 := get_mtx_formula target source (i + 1) (j + 1) (by omega)
    (by omega)
  omega

/-- The potential of a grid node: 100 per not-yet-matched target symbol
and 49 per not-yet-matched source symbol, where the matching is the LCS of
the prefixes consumed so far. -/
def Wpot (target source : List Char) (u : Nat × Nat) : Nat :=
  100 * (u.2 - Lmat source target u.1 u.2) +
    49 * (u.1 - Lmat source target u.1 u.2)

theorem Wpot_zero (target source : List Char) :
    Wpot target source (0, 0) = 0 := by
  simp [Wpot, Lmat_zero_fst]

/-- Every edge of the `mtx2graph (get_mtx target source) 100 49` graph is
feasible for the potential `Wpot`. -/
theorem Wpot_feasible (target source : List Char) :
    ∀ u : Nat × Nat,
    ∀ vw ∈ Eg (mtx2graph (get_mtx target source) 100 49) u,
    Wpot target source vw.1 ≤ Wpot target source u + vw.2 := by
  intro u vw hmem
  obtain ⟨i, j⟩ := u
  obtain ⟨v, w⟩ := vw
  obtain ⟨hR, hC⟩ := get_mtx_dims target source
  by_cases hin : i < (get_mtx target source).length ∧
      j < ((get_mtx target source).getD 0 []).length
  · rw [Eg_mtx2graph _ 100 49 i j hin.1 hin.2] at hmem
    have hi : i ≤ source.length := by omega
    have hj : j ≤ target.length := by omega
    rcases mem_edgesAt_elim _ 100 49 i j v w hmem with
      ⟨hv, hb, hw⟩ | ⟨hv, hb, hw⟩ | ⟨hv, hb1, hb2, hmeq, hw⟩
    · -- right edge
      have hjlt : j < target.length := by omega
      rw [if_pos (get_mtx_right_ne target source i j hi hjlt)] at hw
      rw [hv, hw]
      have hstep := Lmat_right_step source target i j hi hjlt
      have hL1 := Lmat_le_fst source target i j hi hj
      have hL2 := Lmat_le_snd source target i j hi hj
      simp only [Wpot]
      omega
    · -- down edge
      have hilt : i < source.length := by omega
      rw [if_pos (get_mtx_down_ne target source i j hilt hj)] at hw
      rw [hv, hw]
      have hstep := Lmat_down_step source target i j hilt hj
      have hL1 := Lmat_le_fst source target i j hi hj
      have hL2 := Lmat_le_snd source target i j hi hj
      simp only [Wpot]
      omega
    · -- diagonal edge: only present when the two cells are equal
      have hilt : i < source.length := by omega
      have hjlt : j < target.length := by omega
      have hL := (get_mtx_diag_iff target source i j hilt hjlt).mp hmeq
      have hL1 := Lmat_le_fst source target i j hi hj
      have hL2 := Lmat_le_snd source target i j hi hj
      rw [hv, hw]
      simp only [Wpot]
      omega
  · rw [Eg_mtx2graph_empty _ 100 49 (i, j) hin] at hmem
    simp at hmem

/-- Every in-range grid node other than the origin has an incoming edge
that is tight for `Wpot` and comes from a node closer to the origin. -/
theorem grid_tight_pred (target source : List Char) (i j : Nat)
    (hi : i ≤ source.length) (hj : j ≤ target.length)
    (hnz : ¬(i = 0 ∧ j = 0)) :
    ∃ (u : Nat × Nat) (w : Nat),
      ((i, j), w) ∈ Eg (mtx2graph (get_mtx target source) 100 49) u ∧
      Wpot target source u + w = Wpot target source (i, j) ∧
      u.1 + u.2 < i + j ∧ u.1 ≤ source.length ∧ u.2 ≤ target.length := by
  obtain ⟨hR, hC⟩ := get_mtx_dims target source
  match i, j with
  | 0, 0 => exact absurd ⟨rfl, rfl⟩ hnz
  | 0, j' + 1 =>
    refine ⟨(0, j'), 100, ?_, ?_, by omega, by omega, by omega⟩
    · rw [Eg_mtx2graph _ 100 49 0 j' (by omega) (by omega)]
      have h := edgesAt_right_mem (get_mtx target source) 100 49 0 j'
        (by omega)
      rwa [if_pos (get_mtx_right_ne target source 0 j' (by omega)
        (by omega))] at h
    · simp only [Wpot, Lmat_zero_fst]
      omega
  | i' + 1, 0 =>
    refine ⟨(i', 0), 49, ?_, ?_, by omega, by omega, by omega⟩
    · rw [Eg_mtx2graph _ 100 49 i' 0 (by omega) (by omega)]
      have h := edgesAt_down_mem (get_mtx target source) 100 49 i' 0
        (by omega)
      rwa [if_pos (get_mtx_down_ne target source i' 0 (by omega)
        (by omega))] at h
    · simp only [Wpot, Lmat_zero_snd]
      omega
  | i' + 1, j' + 1 =>
    have hi' : i' < source.length := by omega
    have hj' : j' < target.length := by omega
    by_cases hc : source.getD i' ' ' = target.getD j' ' '
    · -- equal symbols: the diagonal edge is tight
      have hL := Lmat_diag_eq source target i' j' hc
      refine ⟨(i', j'), 0, ?_, ?_, by omega, by omega, by omega⟩
      · rw [Eg_mtx2graph _ 100 49 i' j' (by omega) (by omega)]
        exact (mem_edgesAt_diag _ 100 49 i' j' 0).mpr
          ⟨⟨by omega, by omega,
            (get_mtx_diag_iff target source i' j' hi' hj').mpr hL⟩, rfl⟩
      · have hL1 := Lmat_le_fst source target i' j' (by omega) (by omega)
        have hL2 := Lmat_le_snd source target i' j' (by omega) (by omega)
        simp only [Wpot]
        omega
    · -- unequal symbols: one of the two paying edges is tight
      have hL := Lmat_diag_ne source target i' j' hc
      by_cases hmax : Lmat source target (i' + 1) (j' + 1) =
          Lmat source target i' (j' + 1)
      · -- the down edge from (i', j'+1) is tight
        refine ⟨(i', j' + 1), 49, ?_, ?_, by omega, by omega, by omega⟩
        · rw [Eg_mtx2graph _ 100 49 i' (j' + 1) (by omega) (by omega)]
          have h := edgesAt_down_mem (get_mtx target source) 100 49 i'
            (j' + 1) (by omega)
          rwa [if_pos (get_mtx_down_ne target source i' (j' + 1)
            (by omega) (by omega))] at h
        · have hL1 := Lmat_le_fst source target i' (j' + 1) (by omega)
            (by omega)
          have hL2 := Lmat_le_snd source target i' (j' + 1) (by omega)
            (by omega)
          simp only [Wpot]
          omega
      · -- the right edge from (i'+1, j') is tight
        have hmax2 : Lmat source target (i' + 1) (j' + 1) =
            Lmat source target (i' + 1) j' := by
          rw [hL] at hmax ⊢
          omega
        refine ⟨(i' + 1, j'), 100, ?_, ?_, by omega, by omega, by omega⟩
        · rw [Eg_mtx2graph _ 100 49 (i' + 1) j' (by omega) (by omega)]
          have h := edgesAt_right_mem (get_mtx target source) 100 49
            (i' + 1) j' (by omega)
          rwa [if_pos (get_mtx_right_ne target source (i' + 1) j'
            (by omega) (by omega))] at h
        · have hL1 := Lmat_le_fst source target (i' + 1) j' (by omega)
            (by omega)
          have hL2 := Lmat_le_snd source target (i' + 1) j' (by omega)
            (by omega)
          simp only [Wpot]
          omega

/-- Every in-range grid node is tight-reachable from the origin. -/
theorem grid_tight_reach (target source : List Char) :
    ∀ (n i j : Nat), i + j ≤ n → i ≤ source.length → j ≤ target.length →
    TightPath (mtx2graph (get_mtx target source) 100 49)
      (Wpot target source) (0, 0) (i, j) := by
  intro n
  induction n with
  | zero =>
    intro i j hn _ _
    have hi : i = 0 := by omega
    have hj : j = 0 := by omega
    rw [hi, hj]
    exact TightPath.base
  | succ n ih =>
    intro i j hn hi hj
    by_cases hz : i = 0 ∧ j = 0
    · rw [hz.1, hz.2]
      exact TightPath.base
    · obtain ⟨u, w, hedge, htight, hsum, hu1, hu2⟩ :=
        grid_tight_pred target source i j hi hj hz
      have hu : TightPath (mtx2graph (get_mtx target source) 100 49)
          (Wpot target source) (0, 0) (u.1, u.2) :=
        ih u.1 u.2 (by omega) hu1 hu2
      exact TightPath.step u (i, j) w (by simpa using hu) hedge htight

/-- A mismatched-diagonal link: the two grid cells are equal (so
`mtx2graph` adds the zero-weight diagonal edge) but the two symbols
differ. -/
def BadDiag (target source : List Char) (u v : Nat × Nat) : Prop :=
  v = (u.1 + 1, u.2 + 1) ∧ u.1 < source.length ∧ u.2 < target.length ∧
  ¬ source.getD u.1 ' ' = target.getD u.2 ' ' ∧
  mtxAt (get_mtx target source) (u.1 + 1) (u.2 + 1) =
    mtxAt (get_mtx target source) u.1 u.2

/-- The head of a mismatched diagonal always has a strictly cheaper tight
predecessor: since the symbols differ, the LCS step comes from dropping
one of the two symbols, so the corresponding paying edge is tight. -/
theorem badDiag_block (target source : List Char) :
    ∀ u0 v0, BadDiag target source u0 v0 →
    ∃ u1 w1, (v0, w1) ∈ Eg (mtx2graph (get_mtx target source) 100 49) u1 ∧
      Wpot target source u1 + w1 = Wpot target source v0 ∧
      Wpot target source u1 < Wpot target source u0 ∧
      TightPath (mtx2graph (get_mtx target source) 100 49)
        (Wpot target source) (0, 0) u1 := by
  intro u0 v0 hbad
  obtain ⟨hv, hi, hj, hne, hmeq⟩ := hbad
  obtain ⟨i, j⟩ := u0
  simp only at hi hj hne hmeq
  have hL := (get_mtx_diag_iff target source i j hi hj).mp hmeq
  have hLne := Lmat_diag_ne source target i j hne
  have hL1 := Lmat_le_fst source target i j (by omega) (by omega)
  have hL2 := Lmat_le_snd source target i j (by omega) (by omega)
  rw [hv]
  by_cases hmax : Lmat source target i (j + 1) =
      Lmat source target i j + 1
  · -- tight down edge from (i, j+1)
    have hLd := Lmat_le_fst source target i (j + 1) (by omega) (by omega)
    refine ⟨(i, j + 1), 49, ?_, ?_, ?_,
      grid_tight_reach target source (i + j + 1) i (j + 1) (by omega)
        (by omega) (by omega)⟩
    · obtain ⟨hR, hC⟩ := get_mtx_dims target source
      rw [Eg_mtx2graph _ 100 49 i (j + 1) (by omega) (by omega)]
      have h := edgesAt_down_mem (get_mtx target source) 100 49 i (j + 1)
        (by omega)
      rwa [if_pos (get_mtx_down_ne target source i (j + 1) (by omega)
        (by omega))] at h
    · simp only [Wpot]
      omega
    · simp only [Wpot]
      omega
  · -- tight right edge from (i+1, j)
    have hmax2 : Lmat source target (i + 1) j =
        Lmat source target i j + 1 := by
      have hstep := Lmat_right_step source target i j (by omega) hj
      omega
    have hLr := Lmat_le_snd source target (i + 1) j (by omega) (by omega)
    refine ⟨(i + 1, j), 100, ?_, ?_, ?_,
      grid_tight_reach target source (i + j + 1) (i + 1) j (by omega)
        (by omega) (by omega)⟩
    · obtain ⟨hR, hC⟩ := get_mtx_dims target source
      rw [Eg_mtx2graph _ 100 49 (i + 1) j (by omega) (by omega)]
      have h := edgesAt_right_mem (get_mtx target source) 100 49 (i + 1) j
        (by omega)
      rwa [if_pos (get_mtx_right_ne target source (i + 1) j (by omega)
        (by omega))] at h
    · simp only [Wpot]
      omega
    · simp only [Wpot]
      omega

/-- Structural restatement of `applyEditLoop`: the positional test
`i != len(editops) - 1` of the substitute branch holds exactly when more
ops follow, so the loop depends only on the remaining ops. -/
def cleanApply : List EditOp → List String → List String →
    Option (List String)
  | [], out, _ => some out
  | EditOp.keep _ :: rest, out, rem =>
    match rem with
    | [] => none
    | x :: rem2 => cleanApply rest (out ++ [x]) rem2
  | EditOp.delete _ :: rest, out, rem =>
    match rem with
    | [] => none
    | _ :: rem2 => cleanApply rest out rem2
  | EditOp.substitute _ b :: rest, out, rem =>
    if rest = [] then cleanApply rest (out ++ [b]) rem
    else
      match rem with
      | [] => none
      | _ :: rem2 => cleanApply rest (out ++ [b]) rem2
  | EditOp.insert c :: rest, out, rem => cleanApply rest (out ++ [c]) rem

theorem applyEditLoop_eq_clean (total : Nat) :
    ∀ (ops : List EditOp) (i : Nat) (out rem : List String),
    total = i + ops.length →
    applyEditLoop total ops i out rem = cleanApply ops out rem := by
  intro ops
  induction ops with
  | nil =>
    intro i out rem _
    rfl
  | cons op rest ih =>
    intro i out rem htot
    cases op with
    | keep a =>
      simp only [applyEditLoop, cleanApply]
      cases rem with
      | nil => rfl
      | cons x rem2 =>
        exact ih (i + 1) (out ++ [x]) rem2 (by simp at htot ⊢; omega)
    | delete a =>
      simp only [applyEditLoop, cleanApply]
      cases rem with
      | nil => rfl
      | cons x rem2 =>
        exact ih (i + 1) out rem2 (by simp at htot ⊢; omega)
    | insert c =>
      simp only [applyEditLoop, cleanApply]
      exact ih (i + 1) (out ++ [c]) rem (by simp at htot ⊢; omega)
    | substitute a b =>
      by_cases hrest : rest = []
      · subst hrest
        have hcond : ¬(i ≠ total - 1) := by
          simp at htot
          omega
        simp only [applyEditLoop, cleanApply, if_neg hcond, if_pos rfl]
        rfl
      · have hlen : 0 < rest.length := List.length_pos.mpr hrest
        have hcond : i ≠ total - 1 := by
          simp at htot
          omega
        simp only [applyEditLoop, cleanApply, if_pos hcond, if_neg hrest]
        cases rem with
        | nil => rfl
        | cons x rem2 =>
          exact ih (i + 1) (out ++ [b]) rem2 (by simp at htot ⊢; omega)

theorem apply_edit_eq_clean (word : List String) (ops : List EditOp) :
    apply_edit word ops = cleanApply ops [] word :=
  applyEditLoop_eq_clean ops.length ops 0 [] word (by simp)

/-- Input symbols consumed by a raw edit script. -/
def rawConsume : List EditOp → Nat
  | [] => 0
  | EditOp.keep _ :: r => rawConsume r + 1
  | EditOp.delete _ :: r => rawConsume r + 1
  | EditOp.insert _ :: r => rawConsume r
  | EditOp.substitute _ _ :: r => rawConsume r + 1

/-- A script with no substitute operations (as produced by
`tuples2editops` before merging). -/
def noSubst (l : List EditOp) : Prop :=
  ∀ a b, EditOp.substitute a b ∉ l

theorem subOps_eq_nil_iff (l : List EditOp) :
    substitute_operations l = [] ↔ l = [] := by
  constructor
  · intro h
    cases l with
    | nil => rfl
    | cons op rest =>
      exfalso
      cases op with
      | keep a => simp [substitute_operations] at h
      | insert a =>
        cases rest with
        | nil => simp [substitute_operations] at h
        | cons op2 rest2 =>
          cases op2 <;> simp [substitute_operations] at h
      | delete a =>
        cases rest with
        | nil => simp [substitute_operations] at h
        | cons op2 rest2 =>
          cases op2 <;> simp [substitute_operations] at h
      | substitute a b => simp [substitute_operations] at h
  · intro h
    rw [h]
    rfl

/-- Merging adjacent delete/insert pairs into substitutes does not change
the result of the replay, as long as the raw script does not consume more
input than available (the merged substitute consumes one symbol less when
it ends the script, but by then the output is already complete). -/
theorem clean_subops : ∀ (n : Nat) (raw : List EditOp),
    raw.length ≤ n → noSubst raw →
    ∀ (out word : List String), rawConsume raw ≤ word.length →
    cleanApply (substitute_operations raw) out word =
      cleanApply raw out word := by
  intro n
  induction n with
  | zero =>
    intro raw hn _ out word _
    have : raw = [] := List.length_eq_zero.mp (by omega)
    rw [this]
    rfl
  | succ n ih =>
    intro raw hn hns out word hrc
    cases raw with
    | nil => rfl
    | cons op rest =>
      have hns2 : noSubst rest := fun a b h =>
        hns a b (List.mem_cons_of_mem _ h)
      cases op with
      | keep a =>
        have heq : substitute_operations (EditOp.keep a :: rest) =
            EditOp.keep a :: substitute_operations rest := by
          simp [substitute_operations]
        rw [heq]
        cases word with
        | nil =>
          exfalso
          simp [rawConsume] at hrc
        | cons z ws =>
          simp only [cleanApply]
          exact ih rest (by simp at hn; omega) hns2 (out ++ [z]) ws
            (by simp [rawConsume] at hrc; omega)
      | substitute a b =>
        exact absurd (List.mem_cons_self _ _) (hns a b)
      | delete a =>
        cases rest with
        | nil =>
          have heq : substitute_operations [EditOp.delete a] =
              [EditOp.delete a] := by
            simp [substitute_operations]
          rw [heq]
        | cons op2 rest2 =>
          cases op2 with
          | insert y =>
            -- pattern: delete a, insert y -> substitute a y
            have heq : substitute_operations
                (EditOp.delete a :: EditOp.insert y :: rest2) =
                EditOp.substitute a y :: substitute_operations rest2 := by
              simp [substitute_operations]
            rw [heq]
            cases word with
            | nil =>
              exfalso
              simp [rawConsume] at hrc
            | cons z ws =>
              by_cases h2 : rest2 = []
              · subst h2
                simp only [cleanApply, if_pos rfl]
                rfl
              · have h3 : substitute_operations rest2 ≠ [] := by
                  intro h4
                  exact h2 ((subOps_eq_nil_iff rest2).mp h4)
                simp only [cleanApply, if_neg h3]
                have hns3 : noSubst rest2 := fun a2 b2 h4 =>
                  hns2 a2 b2 (List.mem_cons_of_mem _ h4)
                exact ih rest2 (by simp at hn; omega) hns3 (out ++ [y]) ws
                  (by simp [rawConsume] at hrc; omega)
          | keep y =>
            have heq : substitute_operations
                (EditOp.delete a :: EditOp.keep y :: rest2) =
                EditOp.delete a ::
                  substitute_operations (EditOp.keep y :: rest2) := by
              simp [substitute_operations]
            rw [heq]
            cases word with
            | nil =>
              exfalso
              simp [rawConsume] at hrc
            | cons z ws =>
              simp only [cleanApply]
              exact ih (EditOp.keep y :: rest2) (by simp at hn ⊢; omega) hns2
                out ws (by simp [rawConsume] at hrc ⊢; omega)
          | delete y =>
            have heq : substitute_operations
                (EditOp.delete a :: EditOp.delete y :: rest2) =
                EditOp.delete a ::
                  substitute_operations (EditOp.delete y :: rest2) := by
              simp [substitute_operations]
            rw [heq]
            cases word with
            | nil =>
              exfalso
              simp [rawConsume] at hrc
            | cons z ws =>
              simp only [cleanApply]
              exact ih (EditOp.delete y :: rest2) (by simp at hn ⊢; omega)
                hns2 out ws (by simp [rawConsume] at hrc ⊢; omega)
          | substitute a2 b2 =>
            exact absurd (List.mem_cons_of_mem _
              (List.mem_cons_self _ _)) (hns a2 b2)
      | insert c =>
        cases rest with
        | nil =>
          have heq : substitute_operations [EditOp.insert c] =
              [EditOp.insert c] := by
            simp [substitute_operations]
          rw [heq]
        | cons op2 rest2 =>
          cases op2 with
          | delete y =>
            -- pattern: insert c, delete y -> substitute y c
            have heq : substitute_operations
                (EditOp.insert c :: EditOp.delete y :: rest2) =
                EditOp.substitute y c :: substitute_operations rest2 := by
              simp [substitute_operations]
            rw [heq]
            cases word with
            | nil =>
              exfalso
              simp [rawConsume] at hrc
            | cons z ws =>
              by_cases h2 : rest2 = []
              · subst h2
                simp only [cleanApply, if_pos rfl]
                rfl
              · have h3 : substitute_operations rest2 ≠ [] := by
                  intro h4
                  exact h2 ((subOps_eq_nil_iff rest2).mp h4)
                simp only [cleanApply, if_neg h3]
                have hns3 : noSubst rest2 := fun a2 b2 h4 =>
                  hns2 a2 b2 (List.mem_cons_of_mem _ h4)
                exact ih rest2 (by simp at hn; omega) hns3 (out ++ [c]) ws
                  (by simp [rawConsume] at hrc; omega)
          | keep y =>
            have heq : substitute_operations
                (EditOp.insert c :: EditOp.keep y :: rest2) =
                EditOp.insert c ::
                  substitute_operations (EditOp.keep y :: rest2) := by
              simp [substitute_operations]
            rw [heq]
            simp only [cleanApply]
            exact ih (EditOp.keep y :: rest2) (by simp at hn ⊢; omega) hns2
              (out ++ [c]) word (by simp [rawConsume] at hrc ⊢; omega)
          | insert y =>
            have heq : substitute_operations
                (EditOp.insert c :: EditOp.insert y :: rest2) =
                EditOp.insert c ::
                  substitute_operations (EditOp.insert y :: rest2) := by
              simp [substitute_operations]
            rw [heq]
            simp only [cleanApply]
            exact ih (EditOp.insert y :: rest2) (by simp at hn ⊢; omega) hns2
              (out ++ [c]) word (by simp [rawConsume] at hrc ⊢; omega)
          | substitute a2 b2 =>
            exact absurd (List.mem_cons_of_mem _
              (List.mem_cons_self _ _)) (hns a2 b2)

theorem editopsRaw_right (s1h s2h : List Char) (a : Nat × Nat)
    (rest : List (Nat × Nat)) :
    editopsRaw s1h s2h (a :: (a.1, a.2 + 1) :: rest) =
      EditOp.delete (s1h.getD (a.2 + 1) '#').toString ::
        editopsRaw s1h s2h ((a.1, a.2 + 1) :: rest) := by
  have h1 : ¬(((a.1 : Int) - a.1 = 1) ∧
      (((a.2 + 1 : Nat) : Int) - a.2 = 1)) := by
    push_cast
    intro h
    omega
  have h2 : ((a.1 : Int) - a.1 = 0) ∧
      (((a.2 + 1 : Nat) : Int) - a.2 = 1) := by
    push_cast
    omega
  show (if _ then _ else _) ++ _ = _
  rw [if_neg h1, if_pos h2]
  rfl

theorem editopsRaw_down (s1h s2h : List Char) (a : Nat × Nat)
    (rest : List (Nat × Nat)) :
    editopsRaw s1h s2h (a :: (a.1 + 1, a.2) :: rest) =
      EditOp.insert (s2h.getD (a.1 + 1) '#').toString ::
        editopsRaw s1h s2h ((a.1 + 1, a.2) :: rest) := by
  have h1 : ¬((((a.1 + 1 : Nat) : Int) - a.1 = 1) ∧
      ((a.2 : Int) - a.2 = 1)) := by
    push_cast
    intro h
    omega
  have h2 : ¬((((a.1 + 1 : Nat) : Int) - a.1 = 0) ∧
      ((a.2 : Int) - a.2 = 1)) := by
    push_cast
    intro h
    omega
  have h3 : (((a.1 + 1 : Nat) : Int) - a.1 = 1) ∧
      ((a.2 : Int) - a.2 = 0) := by
    push_cast
    omega
  show (if _ then _ else _) ++ _ = _
  rw [if_neg h1, if_neg h2, if_pos h3]
  rfl

theorem editopsRaw_diag (s1h s2h : List Char) (a : Nat × Nat)
    (rest : List (Nat × Nat)) :
    editopsRaw s1h s2h (a :: (a.1 + 1, a.2 + 1) :: rest) =
      EditOp.keep (s1h.getD (a.2 + 1) '#').toString ::
        editopsRaw s1h s2h ((a.1 + 1, a.2 + 1) :: rest) := by
  have h1 : (((a.1 + 1 : Nat) : Int) - a.1 = 1) ∧
      (((a.2 + 1 : Nat) : Int) - a.2 = 1) := by
    push_cast
    omega
  show (if _ then _ else _) ++ _ = _
  rw [if_pos h1]
  rfl

theorem editopsRaw_noSubst (s1h s2h : List Char) :
    ∀ l, noSubst (editopsRaw s1h s2h l) := by
  intro l
  induction l with
  | nil =>
    intro a b h
    simp [editopsRaw] at h
  | cons p1 rest ih =>
    cases rest with
    | nil =>
      intro a b h
      simp [editopsRaw] at h
    | cons p2 rest2 =>
      intro a b h
      have he : editopsRaw s1h s2h (p1 :: p2 :: rest2) =
          (if (p2.1 : Int) - p1.1 = 1 ∧ (p2.2 : Int) - p1.2 = 1 then
            [EditOp.keep (s1h.getD p2.2 '#').toString]
           else if (p2.1 : Int) - p1.1 = 0 ∧ (p2.2 : Int) - p1.2 = 1 then
            [EditOp.delete (s1h.getD p2.2 '#').toString]
           else if (p2.1 : Int) - p1.1 = 1 ∧ (p2.2 : Int) - p1.2 = 0 then
            [EditOp.insert (s2h.getD p2.1 '#').toString]
           else []) ++ editopsRaw s1h s2h (p2 :: rest2) := rfl
      rw [he] at h
      rcases List.mem_append.mp h with h1 | h1
      · split at h1
        · simp at h1
        · split at h1
          · simp at h1
          · split at h1
            · simp at h1
            · simp at h1
      · exact ih a b h1

theorem foldl_strcat_data : ∀ (l : List String) (acc : String),
    (l.foldl (· ++ ·) acc).data =
      acc.data ++ (l.map String.data).flatten := by
  intro l
  induction l with
  | nil =>
    intro acc
    simp
  | cons x xs ih =>
    intro acc
    simp only [List.foldl, List.map_cons, List.flatten_cons]
    rw [ih]
    simp [String.data_append]

theorem word2struc_data (f : String → String) (l : List String) :
    (word2struc f l).data = ((l.map f).map String.data).flatten := by
  unfold word2struc String.join
  rw [foldl_strcat_data]
  rfl

theorem word2struc_data_append_one (f : String → String)
    (out : List String) (x : String) :
    (word2struc f (out ++ [x])).data =
      (word2struc f out).data ++ (f x).data := by
  rw [word2struc_data, word2struc_data]
  simp

theorem word2struc_length_le (f : String → String) :
    ∀ (S : List String), (∀ tok ∈ S, (f tok).length ≤ 1) →
    (word2struc f S).data.length ≤ S.length := by
  intro S
  induction S with
  | nil =>
    intro _
    simp [word2struc_data]
  | cons x xs ih =>
    intro h
    rw [word2struc_data]
    simp only [List.map_cons, List.flatten_cons, List.length_append,
      List.length_cons]
    have h1 : (f x).data.length ≤ 1 := h x (List.mem_cons_self _ _)
    have h2 := ih (fun tok ht => h tok (List.mem_cons_of_mem _ ht))
    rw [word2struc_data] at h2
    omega

/-- When every token classifies to at most one symbol and the total shape
length equals the token count, each token classifies to exactly the symbol
at its own position. -/
theorem shape_positions (f : String → String) :
    ∀ (S : List String) (t : List Char),
    (∀ tok ∈ S, (f tok).length ≤ 1) →
    S.length = t.length →
    (word2struc f S).data = t →
    ∀ k, k < t.length → (f (S.getD k "")).data = [t.getD k ' '] := by
  intro S
  induction S with
  | nil =>
    intro t _ hlen _ k hk
    exfalso
    simp at hlen
    omega
  | cons x xs ih =>
    intro t hcv hlen hw k hk
    rw [word2struc_data] at hw
    simp only [List.map_cons, List.flatten_cons] at hw
    have h1 : (f x).data.length ≤ 1 := hcv x (List.mem_cons_self _ _)
    have hcv2 : ∀ tok ∈ xs, (f tok).length ≤ 1 :=
      fun tok ht => hcv tok (List.mem_cons_of_mem _ ht)
    have h2 := word2struc_length_le f xs hcv2
    rw [word2struc_data] at h2
    rcases hfx : (f x).data with _ | ⟨c, cs⟩
    · exfalso
      rw [hfx] at hw
      simp only [List.nil_append] at hw
      have h3 : t.length ≤ xs.length := by
        rw [← hw]
        exact h2
      simp at hlen
      omega
    · have hcs : cs = [] := by
        rw [hfx] at h1
        rcases cs with _ | ⟨c2, cs2⟩
        · rfl
        · exfalso
          have h5 : cs2.length + 2 ≤ 1 := by simpa using h1
          omega
      subst hcs
      rw [hfx] at hw
      cases t with
      | nil => simp at hk
      | cons c2 t2 =>
        simp only [List.cons_append, List.nil_append] at hw
        have hc : c = c2 := (List.cons.injEq _ _ _ _).mp hw |>.1
        have ht2 : ((xs.map f).map String.data).flatten = t2 :=
          ((List.cons.injEq _ _ _ _).mp hw).2
        cases k with
        | zero =>
          simp only [List.getD_cons_zero]
          rw [hfx, hc]
        | succ k2 =>
          simp only [List.getD_cons_succ]
          have hlen2 : xs.length = t2.length := by
            simp at hlen
            omega
          have hw2 : (word2struc f xs).data = t2 := by
            rw [word2struc_data]
            exact ht2
          exact ih t2 hcv2 hlen2 hw2 k2 (by simp at hk; omega)

/-- One admissible step of a recorded shortest path: right (delete),
down (insert), or diagonal with matching symbols (keep). -/
def StepOK (target source : List Char) (a b : Nat × Nat) : Prop :=
  (b = (a.1, a.2 + 1) ∧ a.2 < target.length) ∨
  (b = (a.1 + 1, a.2) ∧ a.1 < source.length) ∨
  (b = (a.1 + 1, a.2 + 1) ∧ a.1 < source.length ∧ a.2 < target.length ∧
    source.getD a.1 ' ' = target.getD a.2 ' ')

/-- Every consecutive pair of the node list is an admissible step. -/
def chainOK (target source : List Char) : List (Nat × Nat) → Prop
  | [] => True
  | [_] => True
  | a :: b :: rest => StepOK target source a b ∧
      chainOK target source (b :: rest)

/-- Replaying the raw edit script of an admissible chain onto a token list
whose symbols classify position by position to `target` produces a token
list whose classification is exactly the `source` suffix; the script
consumes exactly the remaining target symbols. -/
theorem chain_apply_shape (f : String → String) (t s : List Char)
    (S : List String) (hlenS : S.length = t.length)
    (hpos : ∀ k, k < t.length → (f (S.getD k "")).data = [t.getD k ' '])
    (hpl : ∀ k, k < s.length →
      (f ((s.getD k ' ').toString)).data = [s.getD k ' ']) :
    ∀ (p : List (Nat × Nat)) (a : Nat × Nat),
    chainOK t s (a :: p) →
    (a :: p).getLast? = some (s.length, t.length) →
    ∀ out : List String,
    rawConsume (editopsRaw ('#' :: t) ('#' :: s) (a :: p)) =
      t.length - a.2 ∧
    ∃ res, cleanApply (editopsRaw ('#' :: t) ('#' :: s) (a :: p)) out
        (S.drop a.2) = some res ∧
      (word2struc f res).data = (word2struc f out).data ++ s.drop a.1 := by
  intro p
  induction p with
  | nil =>
    intro a _ hlast out
    have ha : a = (s.length, t.length) := by
      simp at hlast
      exact hlast
    subst ha
    have hops : editopsRaw ('#' :: t) ('#' :: s) [(s.length, t.length)] =
        [] := rfl
    rw [hops]
    refine ⟨by simp [rawConsume], out, rfl, by simp⟩
  | cons b p' ih =>
    intro a hchain hlast out
    obtain ⟨hstep, hchain2⟩ := hchain
    have hlast2 : (b :: p').getLast? = some (s.length, t.length) := by
      rw [← hlast, List.getLast?_cons_cons]
    rcases hstep with ⟨hb, ha2⟩ | ⟨hb, ha1⟩ | ⟨hb, ha1, ha2, hchar⟩
    · -- right step: delete
      subst hb
      rw [editopsRaw_right]
      have ha2S : a.2 < S.length := by omega
      have hdrop : S.drop a.2 = S.getD a.2 "" :: S.drop (a.2 + 1) := by
        rw [List.drop_eq_getElem_cons ha2S,
          List.getD_eq_getElem _ _ ha2S]
      obtain ⟨ihc, res, ihap, ihsh⟩ :=
        ih (a.1, a.2 + 1) hchain2 hlast2 out
      refine ⟨?_, res, ?_, ?_⟩
      · simp only [rawConsume]
        omega
      · rw [hdrop]
        simp only [cleanApply]
        exact ihap
      · exact ihsh
    · -- down step: insert
      subst hb
      rw [editopsRaw_down]
      obtain ⟨ihc, res, ihap, ihsh⟩ :=
        ih (a.1 + 1, a.2) hchain2 hlast2
          (out ++ [(('#' :: s).getD (a.1 + 1) '#').toString])
      refine ⟨?_, res, ?_, ?_⟩
      · simp only [rawConsume]
        omega
      · simp only [cleanApply]
        exact ihap
      · rw [ihsh, word2struc_data_append_one]
        have htok : ('#' :: s).getD (a.1 + 1) '#' = s.getD a.1 ' ' := by
          rw [List.getD_cons_succ, List.getD_eq_getElem _ _ ha1,
            List.getD_eq_getElem _ _ ha1]
        rw [htok, hpl a.1 ha1]
        rw [List.drop_eq_getElem_cons ha1, List.getD_eq_getElem _ _ ha1]
        simp
    · -- diagonal step: keep
      subst hb
      rw [editopsRaw_diag]
      have ha2S : a.2 < S.length := by omega
      have hdrop : S.drop a.2 = S.getD a.2 "" :: S.drop (a.2 + 1) := by
        rw [List.drop_eq_getElem_cons ha2S,
          List.getD_eq_getElem _ _ ha2S]
      obtain ⟨ihc, res, ihap, ihsh⟩ :=
        ih (a.1 + 1, a.2 + 1) hchain2 hlast2 (out ++ [S.getD a.2 ""])
      refine ⟨?_, res, ?_, ?_⟩
      · simp only [rawConsume]
        omega
      · rw [hdrop]
        simp only [cleanApply]
        exact ihap
      · rw [ihsh, word2struc_data_append_one, hpos a.2 ha2, ← hchar]
        rw [List.drop_eq_getElem_cons ha1, List.getD_eq_getElem _ _ ha1]
        simp

/-- Every consecutive pair of the node list is a recorded `path` link. -/
def linkedChain (pa : List ((Nat × Nat) × (Nat × Nat))) :
    List (Nat × Nat) → Prop
  | [] => True
  | [_] => True
  | a :: b :: rest => assocLookup pa b = some a ∧ linkedChain pa (b :: rest)

theorem backtrack_spec (start : Nat × Nat)
    (pa : List ((Nat × Nat) × (Nat × Nat))) :
    ∀ (fuel : Nat) (cur : Nat × Nat) (acc p : List (Nat × Nat)),
    backtrack start pa fuel cur acc = some p →
    linkedChain pa (cur :: acc) →
    linkedChain pa p ∧ (∃ tail, p = start :: tail) ∧
      p.getLast? = (cur :: acc).getLast? := by
  intro fuel
  induction fuel with
  | zero =>
    intro cur acc p h
    cases h
  | succ fuel ih =>
    intro cur acc p h hl
    by_cases hcur : cur = start
    · have he : backtrack start pa (fuel + 1) cur acc =
          some (cur :: acc) := by
        simp [backtrack, hcur]
      rw [he] at h
      cases h
      exact ⟨hl, ⟨acc, by rw [hcur]⟩, rfl⟩
    · rcases hpc : assocLookup pa cur with _ | prev
      · have he : backtrack start pa (fuel + 1) cur acc = none := by
          simp [backtrack, hcur, hpc]
        rw [he] at h
        cases h
      · have he : backtrack start pa (fuel + 1) cur acc =
            backtrack start pa fuel prev (cur :: acc) := by
          simp [backtrack, hcur, hpc]
        rw [he] at h
        obtain ⟨h1, h2, h3⟩ := ih prev (cur :: acc) p h ⟨hpc, hl⟩
        refine ⟨h1, h2, ?_⟩
        rw [h3, List.getLast?_cons_cons]

/-- A recorded `path` link of the grid graph, not being a mismatched
diagonal, is an admissible step. -/
theorem link_StepOK (t s : List Char) (a b : Nat × Nat)
    (hedge : ∃ w, (b, w) ∈ Eg (mtx2graph (get_mtx t s) 100 49) a)
    (hgood : ¬ BadDiag t s a b) : StepOK t s a b := by
  obtain ⟨w, hw⟩ := hedge
  obtain ⟨hR, hC⟩ := get_mtx_dims t s
  obtain ⟨i, j⟩ := a
  by_cases hin : i < (get_mtx t s).length ∧
      j < ((get_mtx t s).getD 0 []).length
  · rw [Eg_mtx2graph _ 100 49 i j hin.1 hin.2] at hw
    rcases mem_edgesAt_elim _ 100 49 i j b w hw with
      ⟨hv, hb, _⟩ | ⟨hv, hb, _⟩ | ⟨hv, hb1, hb2, hmeq, _⟩
    · exact Or.inl ⟨hv, by omega⟩
    · exact Or.inr (Or.inl ⟨hv, by omega⟩)
    · refine Or.inr (Or.inr ⟨hv, by omega, by omega, ?_⟩)
      by_contra hne
      exact hgood ⟨hv, by omega, by omega, hne, hmeq⟩
  · rw [Eg_mtx2graph_empty _ 100 49 (i, j) hin] at hw
    simp at hw

/-- A linked chain whose links are edges and avoid mismatched diagonals is
an admissible chain. -/
theorem linked_chainOK (t s : List Char)
    (pa : List ((Nat × Nat) × (Nat × Nat)))
    (hpe : pathEdge (mtx2graph (get_mtx t s) 100 49) pa)
    (hpg : ∀ v u, assocLookup pa v = some u → ¬ BadDiag t s u v) :
    ∀ p, linkedChain pa p → chainOK t s p := by
  intro p
  induction p with
  | nil =>
    intro _
    trivial
  | cons a rest ih =>
    intro hl
    cases rest with
    | nil => trivial
    | cons b rest2 =>
      obtain ⟨hlink, hl2⟩ := hl
      exact ⟨link_StepOK t s a b (hpe b a hlink) (hpg b a hlink), ih hl2⟩

theorem repair_eq (sc3 : String → Option (List String))
    (inv : List String) (ipalist : List String)
    (prosody predicted : String)
    (hpred : (∃ l, sc3 prosody = some l ∧ l.head? = some predicted) ∨
      (sc3 prosody = none ∧
        get_closest_phonotactics inv prosody = some predicted)) :
    repair_phonotactics sc3 inv ipalist prosody =
      match dijkstra
          (mtx2graph (get_mtx prosody.data predicted.data) 100 49) (0, 0)
          ((get_mtx prosody.data predicted.data).length - 1,
            ((get_mtx prosody.data predicted.data).getD 0 []).length - 1)
        with
      | none => none
      | some path =>
        apply_edit ipalist
          (tuples2editops path prosody.data predicted.data) := by
  rcases hpred with ⟨l, hsc, hhd⟩ | ⟨hsc, hcl⟩
  · rcases l with _ | ⟨x, l'⟩
    · rw [List.head?_nil] at hhd
      cases hhd
    · rw [List.head?_cons] at hhd
      cases hhd
      unfold repair_phonotactics
      rw [hsc]
      rfl
  · unfold repair_phonotactics
    rw [hsc, hcl]

/-- Claim C5: for every phoneme sequence `S` whose length equals the
length of its prosodic shape string (equivalently, under a classifier that
assigns at most one class symbol per phoneme and fixes the class symbols
themselves), applying `repair_phonotactics(S, shape(S))` and recomputing
the prosodic shape of the result yields exactly the predicted target
shape: the first entry looked up in the prosodic-correspondence table, or
the closest inventory shape on fallback. -/
theorem C5_repair_round_trip (phon2cv : String → String)
    (sc3 : String → Option (List String))
    (prosodic_inventory : List String) (S : List String)
    (predicted : String) (result : List String)
    (hcv : ∀ tok ∈ S, (phon2cv tok).length ≤ 1)
    (hlen : S.length = (word2struc phon2cv S).length)
    (hpl : ∀ c ∈ predicted.data, phon2cv c.toString = c.toString)
    (hpred : (∃ l, sc3 (word2struc phon2cv S) = some l ∧
        l.head? = some predicted) ∨
      (sc3 (word2struc phon2cv S) = none ∧
        get_closest_phonotactics prosodic_inventory
          (word2struc phon2cv S) = some predicted))
    (hres : repair_phonotactics sc3 prosodic_inventory S
      (word2struc phon2cv S) = some result) :
    word2struc phon2cv result = predicted := by
  rw [repair_eq sc3 prosodic_inventory S (word2struc phon2cv S) predicted
    hpred] at hres
  obtain ⟨hR, hC⟩ :=
    get_mtx_dims (word2struc phon2cv S).data predicted.data
  rw [hR, hC, Nat.add_sub_cancel, Nat.add_sub_cancel] at hres
  rcases hdij : dijkstra
      (mtx2graph (get_mtx (word2struc phon2cv S).data predicted.data)
        100 49) (0, 0)
      (predicted.data.length, (word2struc phon2cv S).data.length)
    with _ | path
  · rw [hdij] at hres
    exact Option.noConfusion hres
  · rw [hdij] at hres
    have hres2 : apply_edit S
        (tuples2editops path (word2struc phon2cv S).data
          predicted.data) = some result := hres
    rcases hloop : dijkstraLoop
        (mtx2graph (get_mtx (word2struc phon2cv S).data predicted.data)
          100 49)
        1000000 [(((0 : Nat), (0 : Nat)), 0)] []
        [(0, ((0 : Nat), (0 : Nat)))] with _ | pa
    · have hd0 : dijkstra
          (mtx2graph (get_mtx (word2struc phon2cv S).data predicted.data)
            100 49) (0, 0)
          (predicted.data.length, (word2struc phon2cv S).data.length) =
          none := by
        unfold dijkstra
        rw [hloop]
      rw [hd0] at hdij
      exact Option.noConfusion hdij
    · have hd1 : dijkstra
          (mtx2graph (get_mtx (word2struc phon2cv S).data predicted.data)
            100 49) (0, 0)
          (predicted.data.length, (word2struc phon2cv S).data.length) =
          match assocLookup pa
              (predicted.data.length, (word2struc phon2cv S).data.length)
            with
          | none => none
          | some _ =>
            backtrack (0, 0) pa 1000000
              (predicted.data.length, (word2struc phon2cv S).data.length)
              [] := by
        unfold dijkstra
        rw [hloop]
      rcases hfinl : assocLookup pa
          (predicted.data.length, (word2struc phon2cv S).data.length)
        with _ | prev
      · rw [hfinl] at hd1
        have hd2 : dijkstra
            (mtx2graph (get_mtx (word2struc phon2cv S).data
              predicted.data) 100 49) (0, 0)
            (predicted.data.length, (word2struc phon2cv S).data.length) =
            none := hd1
        rw [hd2] at hdij
        exact Option.noConfusion hdij
      · rw [hfinl] at hd1
        have hd2 : dijkstra
            (mtx2graph (get_mtx (word2struc phon2cv S).data
              predicted.data) 100 49) (0, 0)
            (predicted.data.length, (word2struc phon2cv S).data.length) =
            backtrack (0, 0) pa 1000000
              (predicted.data.length, (word2struc phon2cv S).data.length)
              [] := hd1
        rw [hd2] at hdij
        -- loop invariants give: links are edges and no mismatched diagonal
        obtain ⟨hpe, hpg⟩ := dijkstraLoop_inv
          (mtx2graph (get_mtx (word2struc phon2cv S).data predicted.data)
            100 49)
          (Wpot (word2struc phon2cv S).data predicted.data) (0, 0)
          (Wpot_feasible (word2struc phon2cv S).data predicted.data)
          (Wpot_zero (word2struc phon2cv S).data predicted.data)
          (BadDiag (word2struc phon2cv S).data predicted.data)
          (badDiag_block (word2struc phon2cv S).data predicted.data)
          1000000 [(((0 : Nat), (0 : Nat)), 0)] [] pa
          [(0, ((0 : Nat), (0 : Nat)))]
          (by simp [sortedQ])
          (by
            intro e he
            rw [List.mem_singleton] at he
            subst he
            exact le_of_eq (Wpot_zero _ _))
          (by
            intro u du h
            by_cases h0 : (((0 : Nat), (0 : Nat)) : Nat × Nat) = u
            · subst h0
              rw [assocLookup_cons_self] at h
              cases h
              exact le_of_eq (Wpot_zero _ _)
            · rw [assocLookup_cons_ne _ _ _ _ h0] at h
              simp [assocLookup] at h)
          (by
            intro e he
            rw [List.mem_singleton] at he
            subst he
            exact ⟨0, assocLookup_cons_self _ _ _, le_refl _⟩)
          (by
            intro u du h
            by_cases h0 : (((0 : Nat), (0 : Nat)) : Nat × Nat) = u
            · subst h0
              rw [assocLookup_cons_self] at h
              cases h
              exact Or.inl (List.mem_singleton.mpr rfl)
            · rw [assocLookup_cons_ne _ _ _ _ h0] at h
              simp [assocLookup] at h)
          (assocLookup_cons_self _ _ _)
          (by
            intro v u h
            simp [assocLookup] at h)
          (by
            intro v u h
            simp [assocLookup] at h)
          hloop
        obtain ⟨hlp, ⟨tail, hpath⟩, hlast⟩ := backtrack_spec (0, 0) pa
          1000000
          (predicted.data.length, (word2struc phon2cv S).data.length)
          [] path hdij trivial
        have hchain0 : chainOK (word2struc phon2cv S).data predicted.data
            path :=
          linked_chainOK (word2struc phon2cv S).data predicted.data pa
            hpe hpg path hlp
        rw [hpath] at hchain0
        have hlast2 : ((((0 : Nat), (0 : Nat)) : Nat × Nat) ::
            tail).getLast? =
            some (predicted.data.length,
              (word2struc phon2cv S).data.length) := by
          rw [← hpath, hlast]
          rfl
        have hlen2 : S.length = (word2struc phon2cv S).data.length := hlen
        have hpos := shape_positions phon2cv S
          (word2struc phon2cv S).data hcv hlen2 rfl
        have hplpos : ∀ k, k < predicted.data.length →
            (phon2cv ((predicted.data.getD k ' ').toString)).data =
              [predicted.data.getD k ' '] := by
          intro k hk
          have hmem : predicted.data.getD k ' ' ∈ predicted.data := by
            rw [List.getD_eq_getElem _ _ hk]
            exact List.getElem_mem _
          rw [hpl _ hmem]
          rfl
        obtain ⟨hcons, res0, hap, hsh⟩ := chain_apply_shape phon2cv
          (word2struc phon2cv S).data predicted.data S hlen2 hpos hplpos
          tail ((0 : Nat), (0 : Nat)) hchain0 hlast2 []
        have hcons2 : rawConsume
            (editopsRaw ('#' :: (word2struc phon2cv S).data)
              ('#' :: predicted.data)
              ((((0 : Nat), (0 : Nat)) : Nat × Nat) :: tail)) =
            (word2struc phon2cv S).data.length := hcons
        have hap2 : cleanApply
            (editopsRaw ('#' :: (word2struc phon2cv S).data)
              ('#' :: predicted.data)
              ((((0 : Nat), (0 : Nat)) : Nat × Nat) :: tail)) [] S =
            some res0 := hap
        have hsh2 : (word2struc phon2cv res0).data = predicted.data := hsh
        have hns := editopsRaw_noSubst ('#' :: (word2struc phon2cv S).data)
          ('#' :: predicted.data)
          ((((0 : Nat), (0 : Nat)) : Nat × Nat) :: tail)
        have happly : apply_edit S
            (tuples2editops ((((0 : Nat), (0 : Nat)) : Nat × Nat) :: tail)
              (word2struc phon2cv S).data predicted.data) = some res0 := by
          rw [apply_edit_eq_clean]
          unfold tuples2editops
          rw [clean_subops
            (editopsRaw ('#' :: (word2struc phon2cv S).data)
              ('#' :: predicted.data)
              ((((0 : Nat), (0 : Nat)) : Nat × Nat) :: tail)).length
            _ (le_refl _) hns [] S (by rw [hcons2]; omega)]
          exact hap2
        rw [hpath] at hres2
        rw [happly] at hres2
        have hfinal : res0 = result := Option.some.inj hres2
        rw [← hfinal]
        exact String.ext hsh2

/-- Concrete classifier for the C5 witness: `d` is a consonant, `a` a
vowel, and the class symbols classify to themselves. -/
def c5phon2cv (tok : String) : String :=
  if tok = "d" then "C"
  else if tok = "a" then "V"
  else if tok = "C" then "C"
  else if tok = "V" then "V"
  else ""

/-- Concrete prosodic correspondence table for the C5 witness. -/
def c5sc3 (p : String) : Option (List String) :=
  if p = "CVCV" then some ["CVC"] else none

/-- Witness for C5 at the doctest data of `repair_phonotactics`:
repairing `["d", "a", "d", "a"]` (shape `CVCV`) towards the predicted
shape `CVC` yields `["d", "a", "d"]`, whose shape is exactly `CVC`. -/
theorem C5_witness : word2struc c5phon2cv ["d", "a", "d"] = "CVC" :=
  C5_repair_round_trip c5phon2cv c5sc3 [] ["d", "a", "d", "a"] "CVC"
    ["d", "a", "d"] (by decide) (by rfl) (by decide)
    (Or.inl ⟨["CVC"], rfl, rfl⟩) (by rfl)
